import Mathlib

/-!
# Decommissionable semaphores of libprocess (`3rdparty/libprocess/src/semaphore.hpp`)

A shallow embedding of `KernelSemaphore`, `DecomissionableKernelSemaphore` and
`DecomissionableFixedSizeLastInFirstOutSemaphore`.

Every access to a `std::atomic` member is one atomic step of the calling thread; the
thread-local computation between two accesses is folded into the step that precedes it.
A thread is a program counter (`Pc`) plus its thread-local storage.  A step function gives
the effect of the next atomic access of one thread on the shared memory; interleavings are
lists of scheduling actions.  A call executed "without interference" is the iteration of
the step function of that one thread.

`size_t` is modelled as a natural number below `SIZE_MOD = 2 ^ 64`; `fetch_add(1)`,
`fetch_sub(1)` and `old - 1` wrap around.
-/

/-! ## `size_t` arithmetic -/

/-- Number of values of `size_t` on an LP64 platform. -/
def SIZE_MOD : Nat := 18446744073709551616

/-- Largest `size_t`, the constant `SIZE_MAX` of `<cstdint>` on an LP64 platform. -/
def SIZE_MAX : Nat := SIZE_MOD - 1

/-- The value `x + 1` of type `size_t`, as stored by `fetch_add(1)`. -/
def size_inc (x : Nat) : Nat := (x + 1) % SIZE_MOD

/-- The value `x - 1` of type `size_t`, as stored by `fetch_sub(1)` and computed by `old - 1`:
0 wraps around to `SIZE_MAX`, which is `(x + SIZE_MAX) % SIZE_MOD` for every `size_t` value
`x`. -/
def size_dec (x : Nat) : Nat := if x = 0 then SIZE_MAX else x - 1

/-! ## `KernelSemaphore` -/

namespace KernelSemaphore

/-- Value of a kernel semaphore right after its constructor (`sem_init(&semaphore, 0, 0)`). -/
def init : Nat := 0

/-- Effect of `KernelSemaphore::signal()` (`sem_post`) on the value of the semaphore. -/
def signal (value : Nat) : Nat := value + 1

/-- Effect of `KernelSemaphore::wait()` (`sem_wait`) on the value of the semaphore:
`none` when the caller has to block, the decremented value otherwise. -/
def wait (value : Nat) : Option Nat := if value > 0 then some (value - 1) else none

end KernelSemaphore

/-! ## `DecomissionableKernelSemaphore` -/

namespace DecomissionableKernelSemaphore

/-- Data members of a `DecomissionableKernelSemaphore`; `semaphore` is the value of the
inherited `KernelSemaphore`. -/
structure Mem where
  comissioned : Bool
  waiters : Nat
  semaphore : Nat
deriving DecidableEq, Repr

/-- A freshly constructed `DecomissionableKernelSemaphore`. -/
def fresh : Mem := ⟨true, 0, KernelSemaphore.init⟩

/-- Program counter of a thread: the next atomic access it performs. -/
inductive Pc where
  /-- Outside of any call. -/
  | idle
  /-- In `wait()`: `waiters.fetch_add(1)`. -/
  | wInc
  /-- In `wait()`: `if (!comissioned.load())`. -/
  | wCheck
  /-- In `wait()`: `waiters.fetch_sub(1); return;` of the decommissioned branch. -/
  | wDecEarly
  /-- In `wait()`: `KernelSemaphore::wait()`. -/
  | wInner
  /-- In `wait()`: the final `waiters.fetch_sub(1)`. -/
  | wDec
  /-- In `signal()`: `KernelSemaphore::signal()`. -/
  | sSignal
  /-- In `decomission()`: `comissioned.store(false)`. -/
  | dStore
  /-- In `decomission()`: `size_t i = waiters.load()`. -/
  | dLoad
  /-- In `decomission()`: `signal()` in the loop body, with loop variable `i > 0`. -/
  | dSignal (i : Nat)
deriving DecidableEq, Repr

/-- The three operations a thread can call. -/
inductive Op where
  | wait
  | signal
  | decomission
deriving DecidableEq, Repr

/-- First program counter of a call. -/
def Op.entry : Op → Pc
  | .wait => .wInc
  | .signal => .sSignal
  | .decomission => .dStore

/-- One atomic step of a thread; `none` when the thread is idle or blocked. -/
def step (m : Mem) : Pc → Option (Mem × Pc)
  | .idle => none
  | .wInc => some ({ m with waiters := size_inc m.waiters }, .wCheck)
  | .wCheck => some (m, if m.comissioned then .wInner else .wDecEarly)
  | .wDecEarly => some ({ m with waiters := size_dec m.waiters }, .idle)
  | .wInner =>
    match KernelSemaphore.wait m.semaphore with
    | none => none
    | some v => some ({ m with semaphore := v }, .wDec)
  | .wDec => some ({ m with waiters := size_dec m.waiters }, .idle)
  | .sSignal => some ({ m with semaphore := KernelSemaphore.signal m.semaphore }, .idle)
  | .dStore => some ({ m with comissioned := false }, .dLoad)
  | .dLoad => some (m, if m.waiters > 0 then .dSignal m.waiters else .idle)
  | .dSignal i =>
    some ({ m with semaphore := KernelSemaphore.signal m.semaphore },
      if size_dec i > 0 then .dSignal (size_dec i) else .idle)

/-- Run one thread alone for at most `fuel` steps, stopping when it is idle or blocked. -/
def runThread : Nat → Mem × Pc → Mem × Pc
  | 0, s => s
  | fuel + 1, s =>
    match step s.1 s.2 with
    | none => s
    | some s' => runThread fuel s'

/-- Call `op` on `m` and run it alone for at most `fuel` steps. -/
def call (op : Op) (fuel : Nat) (m : Mem) : Mem × Pc := runThread fuel (m, op.entry)

/-- The method `decomissioned()`. -/
def decomissioned (m : Mem) : Bool := !m.comissioned

/-- The method `capacity()`. -/
def capacity (_m : Mem) : Nat := SIZE_MAX

/-- A scheduling action: thread `tid` starts a call, or takes its next atomic step. -/
inductive Action where
  | call (tid : Nat) (op : Op)
  | step (tid : Nat)
deriving DecidableEq, Repr

/-- The shared semaphore and the program counters of all threads. -/
structure Config where
  mem : Mem
  threads : List Pc
deriving DecidableEq, Repr

/-- Initial configuration: a fresh semaphore and `n` idle threads. -/
def Config.init (n : Nat) : Config := ⟨fresh, List.replicate n .idle⟩

/-- Effect of one scheduling action; `none` when the action is not enabled. -/
def Config.act (c : Config) : Action → Option Config
  | .call tid op =>
    match c.threads.get? tid with
    | some .idle => some { c with threads := c.threads.set tid op.entry }
    | _ => none
  | .step tid =>
    match c.threads.get? tid with
    | none => none
    | some pc =>
      match step c.mem pc with
      | none => none
      | some (m, pc') => some ⟨m, c.threads.set tid pc'⟩

/-- Effect of a sequence of scheduling actions. -/
def Config.run (c : Config) : List Action → Option Config
  | [] => some c
  | a :: as =>
    match c.act a with
    | none => none
    | some c' => c'.run as

/-- Number of threads whose program counter satisfies `p`. -/
def pcsAt (p : Pc → Bool) (ts : List Pc) : Nat := ts.countP p

/-- The program counters of `wait()` between `waiters.fetch_add(1)` and the matching
`waiters.fetch_sub(1)`. -/
def Pc.counted : Pc → Bool
  | .wCheck => true
  | .wDecEarly => true
  | .wInner => true
  | .wDec => true
  | _ => false

/-- The threads that have read `comissioned == true` and have not yet completed the inner
`KernelSemaphore::wait()`. -/
def Pc.atInner : Pc → Bool
  | .wInner => true
  | _ => false

/-- What a thread inside `decomission()` past the store guarantees: the flag is cleared,
and in the loop with loop variable `i`, `i` is not 0 and the threads at the inner wait are
at most the value of the inner semaphore plus the `i` signals still to come. -/
def Pc.snapshotInv (c : Config) : Pc → Prop
  | .dLoad => c.mem.comissioned = false
  | .dSignal i =>
    c.mem.comissioned = false ∧ 0 < i ∧ pcsAt Pc.atInner c.threads ≤ c.mem.semaphore + i
  | _ => True

/-- Invariant of the configurations reached from `Config.init n` with `n ≤ SIZE_MAX`:
`waiters` is the number of threads between their increment and their decrement, and every
thread inside `decomission()` satisfies `Pc.snapshotInv`. -/
def KernelInv (c : Config) : Prop :=
  c.threads.length ≤ SIZE_MAX ∧ c.mem.waiters = pcsAt Pc.counted c.threads ∧
  ∀ pc ∈ c.threads, pc.snapshotInv c

/-- The state of affairs a returned `decomission()` leaves behind: the flag is cleared and
the threads at the inner wait are at most the value of the inner semaphore. -/
def Flushed (c : Config) : Prop :=
  c.mem.comissioned = false ∧ pcsAt Pc.atInner c.threads ≤ c.mem.semaphore

end DecomissionableKernelSemaphore

/-! ## `DecomissionableFixedSizeLastInFirstOutSemaphore` -/

namespace DecomissionableFixedSizeLastInFirstOutSemaphore

/-- The constant `SEMAPHORES`: the number of slots. -/
def SEMAPHORES : Nat := 128

/-- Shared memory: the data members `comissioned`, `count`, `waiters`, `semaphores` of the
class, and `ksem h`, the value of the thread-local `KernelSemaphore` of thread `h`.  A slot
holds `none` for `nullptr` and `some h` for the address of the kernel semaphore of thread
`h`. -/
structure Mem where
  comissioned : Bool
  count : Nat
  waiters : Nat
  semaphores : List (Option Nat)
  ksem : Nat → Nat

/-- The value of `semaphores[i]`. -/
def Mem.slot (m : Mem) (i : Nat) : Option Nat := m.semaphores.getD i none

/-- A freshly constructed semaphore; no thread-local kernel semaphore holds a signal. -/
def fresh : Mem := ⟨true, 0, 0, List.replicate SEMAPHORES none, fun _ => KernelSemaphore.init⟩

/-- Well-formed memory: the members have the ranges of their C++ types. -/
def Mem.wf (m : Mem) : Prop :=
  m.count ≤ SIZE_MAX ∧ m.waiters ≤ SIZE_MAX ∧ m.semaphores.length = SEMAPHORES

instance (m : Mem) : Decidable m.wf := by
  unfold Mem.wf
  infer_instance

/-- Who called `signal()`: user code, or the loop of `decomission()` with loop variable `i`. -/
inductive Caller where
  | user
  | decomission (i : Nat)
deriving DecidableEq, Repr

/-- Program counter of a thread: the next atomic access it performs. -/
inductive Pc where
  /-- Outside of any call. -/
  | idle
  /-- In `wait()`: `size_t old = count.load()`. -/
  | wLoad
  /-- In `wait()`: `count.compare_exchange_strong(old, old - 1)`, reached with `old > 0`. -/
  | wCas (old : Nat)
  /-- In `wait()`: `waiters.fetch_add(1)`. -/
  | wInc
  /-- In `wait()`: `if (!comissioned.load())`. -/
  | wCheck
  /-- In `wait()`: `waiters.fetch_sub(1); return;` of the decommissioned branch. -/
  | wDec
  /-- In `wait()`: `semaphores[i].load()` of the scan. -/
  | wSlot (i : Nat)
  /-- In `wait()`: `(old = count.load()) > 0`, slot `i` having been read as `nullptr`. -/
  | wRecheck (i : Nat)
  /-- In `wait()`: `waiters.fetch_sub(1); goto CAS;` with the non-zero `old` just read. -/
  | wAbort (old : Nat)
  /-- In `wait()`: `semaphores[i].compare_exchange_strong(semaphore, _semaphore_)` with
  `semaphore == nullptr`. -/
  | wPublish (i : Nat)
  /-- In `wait()`: `_semaphore_->wait()`. -/
  | wPark
  /-- In `signal()`: `count.fetch_add(1)`. -/
  | sInc (c : Caller)
  /-- In `signal()`: `waiters.load() > 0` of the `while` condition. -/
  | sWaiters (c : Caller)
  /-- In `signal()`: `count.load() > 0` of the `while` condition. -/
  | sCount (c : Caller)
  /-- In `signal()`: `waiters.load() == 0` at the head of iteration `i` of the scan. -/
  | sChkWaiters (c : Caller) (i : Nat)
  /-- In `signal()`: `count.load() == 0` at the head of iteration `i` of the scan. -/
  | sChkCount (c : Caller) (i : Nat)
  /-- In `signal()`: `semaphores[i].load()`. -/
  | sSlot (c : Caller) (i : Nat)
  /-- In `signal()`: `semaphores[i].compare_exchange_strong(semaphore, nullptr)` with
  `semaphore` the address of the kernel semaphore of thread `h`. -/
  | sCas (c : Caller) (i : Nat) (h : Nat)
  /-- In `signal()`: `semaphore->signal()`. -/
  | sWake (c : Caller) (h : Nat)
  /-- In `signal()`: `waiters.fetch_sub(1); return;`. -/
  | sDec (c : Caller)
  /-- In `decomission()`: `comissioned.store(false)`. -/
  | dStore
  /-- In `decomission()`: `size_t i = waiters.load()`. -/
  | dLoad
deriving DecidableEq, Repr

/-- A thread: its program counter and whether its thread-local `__semaphore__` is already
allocated (not `nullptr`). -/
structure Thread where
  pc : Pc
  allocated : Bool
deriving DecidableEq, Repr

/-- A thread outside of any call that has never used its thread-local semaphore. -/
def Thread.fresh : Thread := ⟨.idle, false⟩

/-- The three operations a thread can call. -/
inductive Op where
  | wait
  | signal
  | decomission
deriving DecidableEq, Repr

/-- First program counter of a call. -/
def Op.entry : Op → Pc
  | .wait => .wLoad
  | .signal => .sInc .user
  | .decomission => .dStore

/-- Where `wait()` goes after reading `old` from `count`: the `while (old > 0)` test. -/
def afterLoad (old : Nat) : Pc := if old > 0 then .wCas old else .wInc

/-- Next iteration of the scan of `wait()`: the `for` loop restarts at slot 0 when it runs
off the array, because `done` is still false. -/
def waitNext (i : Nat) : Pc := if i + 1 < SEMAPHORES then .wSlot (i + 1) else .wSlot 0

/-- Next iteration of the scan of `signal()`: when the `for` loop runs off the array the
`while` condition is evaluated again. -/
def signalNext (c : Caller) (i : Nat) : Pc :=
  if i + 1 < SEMAPHORES then .sChkWaiters c (i + 1) else .sWaiters c

/-- Return from `signal()`: to user code, or into the loop of `decomission()`, which
decrements `i` and calls `signal()` again while `i > 0`. -/
def signalReturn : Caller → Pc
  | .user => .idle
  | .decomission i => if size_dec i > 0 then .sInc (.decomission (size_dec i)) else .idle

/-- The macro `_semaphore_` evaluated by thread `tid`: the kernel semaphore is constructed
on first use. -/
def useSemaphore (tid : Nat) (m : Mem) (t : Thread) : Mem :=
  if t.allocated then m
  else { m with ksem := Function.update m.ksem tid KernelSemaphore.init }

/-- One atomic step of thread `tid`; `none` when the thread is idle or blocked. -/
def step (tid : Nat) (m : Mem) (t : Thread) : Option (Mem × Thread) :=
  match t.pc with
  | .idle => none
  | .wLoad => some (m, { t with pc := afterLoad m.count })
  | .wCas old =>
    if m.count = old then some ({ m with count := size_dec old }, { t with pc := .idle })
    else some (m, { t with pc := afterLoad m.count })
  | .wInc => some ({ m with waiters := size_inc m.waiters }, { t with pc := .wCheck })
  | .wCheck => some (m, { t with pc := if m.comissioned then .wSlot 0 else .wDec })
  | .wDec => some ({ m with waiters := size_dec m.waiters }, { t with pc := .idle })
  | .wSlot i =>
    match m.slot i with
    | none => some (m, { t with pc := .wRecheck i })
    | some _ => some (m, { t with pc := waitNext i })
  | .wRecheck i =>
    some (m, { t with pc := if m.count > 0 then .wAbort m.count else .wPublish i })
  | .wAbort old => some ({ m with waiters := size_dec m.waiters }, { t with pc := .wCas old })
  | .wPublish i =>
    let m' := useSemaphore tid m t
    match m'.slot i with
    | none =>
      some ({ m' with semaphores := m'.semaphores.set i (some tid) },
        { pc := .wPark, allocated := true })
    | some _ => some (m', { pc := waitNext i, allocated := true })
  | .wPark =>
    let m' := useSemaphore tid m t
    match KernelSemaphore.wait (m'.ksem tid) with
    | none => none
    | some v =>
      some ({ m' with ksem := Function.update m'.ksem tid v }, { pc := .wLoad, allocated := true })
  | .sInc c => some ({ m with count := size_inc m.count }, { t with pc := .sWaiters c })
  | .sWaiters c =>
    some (m, { t with pc := if m.waiters > 0 then .sCount c else signalReturn c })
  | .sCount c =>
    some (m, { t with pc := if m.count > 0 then .sChkWaiters c 0 else signalReturn c })
  | .sChkWaiters c i =>
    some (m, { t with pc := if m.waiters = 0 then signalReturn c else .sChkCount c i })
  | .sChkCount c i =>
    some (m, { t with pc := if m.count = 0 then signalReturn c else .sSlot c i })
  | .sSlot c i =>
    match m.slot i with
    | none => some (m, { t with pc := signalNext c i })
    | some h => some (m, { t with pc := .sCas c i h })
  | .sCas c i h =>
    if m.slot i = some h then
      some ({ m with semaphores := m.semaphores.set i none }, { t with pc := .sWake c h })
    else some (m, { t with pc := signalNext c i })
  | .sWake c h =>
    some ({ m with ksem := Function.update m.ksem h (KernelSemaphore.signal (m.ksem h)) },
      { t with pc := .sDec c })
  | .sDec c => some ({ m with waiters := size_dec m.waiters }, { t with pc := signalReturn c })
  | .dStore => some ({ m with comissioned := false }, { t with pc := .dLoad })
  | .dLoad =>
    some (m, { t with pc := if m.waiters > 0 then .sInc (.decomission m.waiters) else .idle })

/-- The program counters of the scan of `signal()` before a slot has been claimed. -/
def Pc.scanning : Pc → Bool
  | .sWaiters _ => true
  | .sCount _ => true
  | .sChkWaiters _ _ => true
  | .sChkCount _ _ => true
  | .sSlot _ _ => true
  | _ => false

/-- Run thread `tid` alone for at most `fuel` steps, stopping when it is idle or blocked. -/
def runThread (tid : Nat) : Nat → Mem × Thread → Mem × Thread
  | 0, s => s
  | fuel + 1, s =>
    match step tid s.1 s.2 with
    | none => s
    | some s' => runThread tid fuel s'

/-- Thread `tid` calls `op` and runs alone for at most `fuel` steps. -/
def call (tid : Nat) (op : Op) (fuel : Nat) (s : Mem × Thread) : Mem × Thread :=
  runThread tid fuel (s.1, { s.2 with pc := op.entry })

/-- Thread `tid` issues `k` calls of `op` one after the other, each run alone with `fuel`
steps; `none` as soon as one of the calls has not returned within its fuel. -/
def calls (tid : Nat) (op : Op) (fuel : Nat) : Nat → Mem × Thread → Option (Mem × Thread)
  | 0, s => some s
  | k + 1, s =>
    if (call tid op fuel s).2.pc = .idle then calls tid op fuel k (call tid op fuel s)
    else none

/-- The method `decomissioned()`. -/
def decomissioned (m : Mem) : Bool := !m.comissioned

/-- The method `capacity()`. -/
def capacity (_m : Mem) : Nat := SEMAPHORES

/-- Thread `tid` is parked: it is inside `_semaphore_->wait()` and would block there. -/
def parked (tid : Nat) (s : Mem × Thread) : Prop :=
  s.2.pc = .wPark ∧ step tid s.1 s.2 = none

/-- Number of occupied slots. -/
def occupied (m : Mem) : Nat := m.semaphores.countP Option.isSome

/-- Number of slots that hold the kernel semaphore of thread `h`. -/
def slotsOf (m : Mem) (h : Nat) : Nat := m.semaphores.count (some h)

/-- Example state: a commissioned semaphore on which thread 0 is parked in slot 0; `count` is
0 and `waiters` is 1. -/
def parkedOne : Mem :=
  { fresh with waiters := 1, semaphores := fresh.semaphores.set 0 (some 0) }

/-- Example state: a fresh semaphore after a waiter has executed `waiters.fetch_add(1)` and
before it has published its kernel semaphore into a slot. -/
def waiterRegistering : Mem := { fresh with waiters := 1 }

/-- Example state: `parkedOne` after the flag `comissioned` has been cleared. -/
def parkedOneDecommissioned : Mem := { parkedOne with comissioned := false }

/-- A scheduling action: thread `tid` starts a call, or takes its next atomic step. -/
inductive Action where
  | call (tid : Nat) (op : Op)
  | step (tid : Nat)
deriving DecidableEq, Repr

/-- The shared memory and all threads; thread `tid` is `threads[tid]`. -/
structure Config where
  mem : Mem
  threads : List Thread

/-- Initial configuration: a fresh semaphore and `n` fresh threads. -/
def Config.init (n : Nat) : Config := ⟨fresh, List.replicate n Thread.fresh⟩

/-- Effect of one scheduling action; `none` when the action is not enabled. -/
def Config.act (c : Config) : Action → Option Config
  | .call tid op =>
    match c.threads.get? tid with
    | none => none
    | some t =>
      if t.pc = .idle then some { c with threads := c.threads.set tid { t with pc := op.entry } }
      else none
  | .step tid =>
    match c.threads.get? tid with
    | none => none
    | some t =>
      match step tid c.mem t with
      | none => none
      | some (m, t') => some ⟨m, c.threads.set tid t'⟩

/-- Effect of a sequence of scheduling actions. -/
def Config.run (c : Config) : List Action → Option Config
  | [] => some c
  | a :: as =>
    match c.act a with
    | none => none
    | some c' => c'.run as

/-- The call a thread is inside of, if any.  A `signal()` issued by the loop of
`decomission()` belongs to the call of `decomission()`. -/
def Pc.op : Pc → Option Op
  | .idle => none
  | .wLoad => some .wait
  | .wCas _ => some .wait
  | .wInc => some .wait
  | .wCheck => some .wait
  | .wDec => some .wait
  | .wSlot _ => some .wait
  | .wRecheck _ => some .wait
  | .wAbort _ => some .wait
  | .wPublish _ => some .wait
  | .wPark => some .wait
  | .sInc .user => some .signal
  | .sWaiters .user => some .signal
  | .sCount .user => some .signal
  | .sChkWaiters .user _ => some .signal
  | .sChkCount .user _ => some .signal
  | .sSlot .user _ => some .signal
  | .sCas .user _ _ => some .signal
  | .sWake .user _ => some .signal
  | .sDec .user => some .signal
  | _ => some .decomission

/-- Whether a scheduling action is the start of a call of `op`. -/
def Action.calls (op : Op) : Action → Bool
  | .call _ o => o = op
  | .step _ => false

/-- Number of calls of `op` started in a sequence of scheduling actions. -/
def callsOf (op : Op) (acts : List Action) : Nat := acts.countP (Action.calls op)

/-- Number of threads whose program counter satisfies `p`. -/
def threadsAt (p : Pc → Bool) (ts : List Thread) : Nat := ts.countP (fun t => p t.pc)

/-- The program counters of `signal()` before its `count.fetch_add(1)`. -/
def Pc.atInc : Pc → Bool
  | .sInc _ => true
  | _ => false

/-- The program counters inside `wait()`. -/
def Pc.inWait (pc : Pc) : Bool := pc.op = some .wait

/-- The value `old` carried to the compare-and-set of `wait()` is not 0. -/
def Pc.oldPositive : Pc → Prop
  | .wCas old => 0 < old
  | .wAbort old => 0 < old
  | _ => True

/-- Invariant of the runs in which `decomission()` is never called: the flag is set, no
thread is inside `decomission()` or in the decommissioned branch of `wait()`, and the
compare-and-set of `wait()` is only attempted with `old > 0`. -/
def NoDecom (c : Config) : Prop :=
  c.mem.comissioned = true ∧
  ∀ t ∈ c.threads, t.pc.op ≠ some .decomission ∧ t.pc ≠ .wDec ∧ t.pc.oldPositive

/-- Token accounting in the runs in which `decomission()` is never called, `S` calls of
`signal()` and `W` calls of `wait()` having been started: the calls of `signal()` past their
`fetch_add` are `S` minus the threads still before it, the calls of `wait()` that have
returned are `W` minus the threads inside `wait()`, no more calls of `wait()` have returned
than calls of `signal()` have incremented, and `count` is the difference as a `size_t`. -/
def TokenInv (S W : Nat) (c : Config) : Prop :=
  threadsAt Pc.atInc c.threads ≤ S ∧ threadsAt Pc.inWait c.threads ≤ W ∧
  W - threadsAt Pc.inWait c.threads ≤ S - threadsAt Pc.atInc c.threads ∧
  c.mem.count
    = ((S - threadsAt Pc.atInc c.threads) - (W - threadsAt Pc.inWait c.threads)) % SIZE_MOD

/-- Example interleaving: thread 0 calls `signal()` `k` times in a row, each call running its
two steps (the `fetch_add` and the read of `waiters`). -/
def repeatSignal : Nat → List Action
  | 0 => []
  | k + 1 => .call 0 .signal :: .step 0 :: .step 0 :: repeatSignal k

/-- Example interleaving of three threads.  Thread 0 calls `wait()` on the fresh semaphore
and parks in slot 0.  Thread 1 calls `decomission()`: it clears the flag, reads
`waiters = 1`, and its single `signal()` increments `count` and reads `waiters > 0`.
Thread 2 then calls `wait()`, whose fast path takes the token.  Thread 1 resumes, reads
`count == 0`, and returns from `signal()` and from `decomission()`. -/
def lostWaiterTrace : List Action :=
  [.call 0 .wait, .step 0, .step 0, .step 0, .step 0, .step 0, .step 0,
   .call 1 .decomission, .step 1, .step 1, .step 1, .step 1,
   .call 2 .wait, .step 2, .step 2,
   .step 1]

/-- Example interleaving of two threads on a fresh semaphore, first part: thread 0 calls
`wait()`, reads `count == 0` and executes `waiters.fetch_add(1)`; it pauses there, before
it reads the flag and scans the slots. -/
def raceWindowPause : List Action := [.call 0 .wait, .step 0, .step 0]

/-- Example interleaving, second part: thread 1 calls `signal()` and takes three steps (the
`fetch_add` and the two reads of the `while` condition); thread 0 resumes and takes its five
steps (the flag, slot 0, the re-check of `count`, `waiters.fetch_sub(1)` and the
compare-and-set); thread 1 then takes one more step (`waiters.load() == 0`). -/
def raceWindowResume : List Action :=
  [.call 1 .signal, .step 1, .step 1, .step 1,
   .step 0, .step 0, .step 0, .step 0, .step 0,
   .step 1]

/-- The indices carried by the scan of `wait()` stay inside the array. -/
def Pc.indexOk : Pc → Prop
  | .wSlot i => i < SEMAPHORES
  | .wRecheck i => i < SEMAPHORES
  | .wPublish i => i < SEMAPHORES
  | _ => True

/-- The program counters of a thread that accounts for one unit of `waiters`: a waiter
between its `waiters.fetch_add(1)` and either its `waiters.fetch_sub(1)` or the
compare-and-set that publishes its kernel semaphore, and a signaler between the
compare-and-set that empties a slot and its `waiters.fetch_sub(1)`. -/
def Pc.accounted : Pc → Bool
  | .wCheck => true
  | .wDec => true
  | .wSlot _ => true
  | .wRecheck _ => true
  | .wAbort _ => true
  | .wPublish _ => true
  | .sWake _ _ => true
  | .sDec _ => true
  | _ => false

/-- The program counter at `waiters.fetch_add(1)`. -/
def Pc.incrementsWaiters : Pc → Bool
  | .wInc => true
  | _ => false

/-- The program counters at a `waiters.fetch_sub(1)`. -/
def Pc.decrementsWaiters : Pc → Bool
  | .wDec => true
  | .wAbort _ => true
  | .sDec _ => true
  | _ => false

/-- The program counters of a signaler about to signal the kernel semaphore of thread `h`. -/
def Pc.wakes (h : Nat) : Pc → Bool
  | .sWake _ h' => h' = h
  | _ => false

/-- Whether thread `h` is inside `_semaphore_->wait()`, as 0 or 1; 0 when there is no thread
`h`. -/
def parkedAt (ts : List Thread) (h : Nat) : Nat :=
  match ts.get? h with
  | some t => if t.pc = .wPark then 1 else 0
  | none => 0

/-- Whether a scheduling action is a step of a thread whose program counter in `c`
satisfies `p`, as 0 or 1. -/
def stepAt (p : Pc → Bool) (c : Config) : Action → Nat
  | .step tid =>
    match c.threads.get? tid with
    | some t => if p t.pc then 1 else 0
    | none => 0
  | .call _ _ => 0

/-- Number of steps in a sequence of scheduling actions, started in `c`, that are taken by a
thread whose program counter satisfies `p`; the count stops at the first action that is not
enabled. -/
def stepsAt (p : Pc → Bool) (c : Config) : List Action → Nat
  | [] => 0
  | a :: as =>
    match c.act a with
    | none => 0
    | some c' => stepAt p c a + stepsAt p c' as

/-- Invariant: the array has `SEMAPHORES` slots and every scan of `wait()` is inside it. -/
def ScanInv (c : Config) : Prop :=
  c.mem.semaphores.length = SEMAPHORES ∧ ∀ t ∈ c.threads, t.pc.indexOk

/-- Invariant, for a number of threads that fits a `size_t` together with the slots:
`waiters` is the number of threads that account for one unit plus the number of occupied
slots. -/
def WaitersInv (c : Config) : Prop :=
  c.threads.length + SEMAPHORES ≤ SIZE_MAX ∧
  c.mem.waiters = threadsAt Pc.accounted c.threads + occupied c.mem

/-- Invariant, for every thread `h`: the slots that hold its kernel semaphore, the signalers
about to signal it and the signals it holds are together 1 when the thread is inside
`_semaphore_->wait()`, and 0 otherwise. -/
def HandleInv (c : Config) : Prop :=
  ∀ h, slotsOf c.mem h + threadsAt (Pc.wakes h) c.threads + c.mem.ksem h
    = parkedAt c.threads h

/-- The program counters of a thread that will still read `count` or deliver a wake-up: a
signaler between its `count.fetch_add(1)` and the signal of a kernel semaphore, and a waiter
before the compare-and-set that publishes its kernel semaphore. -/
def Pc.active : Pc → Bool
  | .sWaiters _ => true
  | .sCount _ => true
  | .sChkWaiters _ _ => true
  | .sChkCount _ _ => true
  | .sSlot _ _ => true
  | .sCas _ _ _ => true
  | .sWake _ _ => true
  | .wLoad => true
  | .wCas _ => true
  | .wInc => true
  | .wCheck => true
  | .wSlot _ => true
  | .wRecheck _ => true
  | .wAbort _ => true
  | _ => false

/-- The program counter of a waiter that has read `count == 0` in the re-check and is about
to publish its kernel semaphore. -/
def Pc.atPublish : Pc → Bool
  | .wPublish _ => true
  | _ => false

/-- Number of signals held by the kernel semaphores of the threads `0 .. n - 1`. -/
def pending (m : Mem) (n : Nat) : Nat := ((List.range n).map m.ksem).sum

/-- Invariant of the runs in which `decomission()` is never called: when a waiter is about
to publish its kernel semaphore or a slot is occupied, `count` is at most the number of
active threads plus the pending signals. -/
def WakeInv (c : Config) : Prop :=
  0 < threadsAt Pc.atPublish c.threads + occupied c.mem →
    c.mem.count ≤ threadsAt Pc.active c.threads + pending c.mem c.threads.length

/-- Example state: a commissioned semaphore with `count = 0` on which the threads
`0 .. SEMAPHORES - 1` are parked, thread `i` in slot `i`; every slot is occupied. -/
def slotsFull : Mem :=
  { fresh with waiters := SEMAPHORES, semaphores := (List.range SEMAPHORES).map some }

/-! ### Several semaphores used by the same threads -/

/-- Several semaphores and the threads that use them.  `sems` holds the data members of each
semaphore (the field `ksem` of these entries is not used); the thread-local kernel
semaphores `__semaphore__`, shared by all semaphores, are `ksem`; thread `tid` is
`threads[tid]`, paired with the index of the semaphore its current call is on. -/
structure World where
  sems : List Mem
  ksem : Nat → Nat
  threads : List (Nat × Thread)

/-- Semaphore `s` as the threads see it: its own data members and the thread-local kernel
semaphores. -/
def World.view (w : World) (s : Nat) : Option Mem :=
  (w.sems.get? s).map (fun m => { m with ksem := w.ksem })

/-- Freshly constructed semaphores, `k` of them, and `n` threads outside of any call. -/
def World.init (k n : Nat) : World :=
  ⟨List.replicate k fresh, fun _ => KernelSemaphore.init, List.replicate n (0, Thread.fresh)⟩

/-- A scheduling action: thread `tid` starts a call on semaphore `s`, or takes its next
atomic step. -/
inductive WorldAction where
  | call (tid : Nat) (s : Nat) (op : Op)
  | step (tid : Nat)
deriving DecidableEq, Repr

/-- Effect of one scheduling action; `none` when the action is not enabled. -/
def World.act (w : World) : WorldAction → Option World
  | .call tid s op =>
    match w.threads.get? tid with
    | none => none
    | some p =>
      if p.2.pc = .idle ∧ s < w.sems.length then
        some { w with threads := w.threads.set tid (s, { p.2 with pc := op.entry }) }
      else none
  | .step tid =>
    match w.threads.get? tid with
    | none => none
    | some p =>
      match w.view p.1 with
      | none => none
      | some m =>
        match step tid m p.2 with
        | none => none
        | some r => some ⟨w.sems.set p.1 r.1, r.1.ksem, w.threads.set tid (p.1, r.2)⟩

/-- Effect of a sequence of scheduling actions. -/
def World.run (w : World) : List WorldAction → Option World
  | [] => some w
  | a :: as =>
    match w.act a with
    | none => none
    | some w' => w'.run as

/-- Number of slots, over all semaphores, that hold the kernel semaphore of thread `h`. -/
def World.slotsTotal (w : World) (h : Nat) : Nat :=
  (w.sems.map (fun m => slotsOf m h)).sum

/-- The threads of a world without the semaphores they are calling on. -/
def World.plain (w : World) : List Thread := w.threads.map Prod.snd

/-- Invariant of the worlds reached from `World.init`: every semaphore has `SEMAPHORES`
slots, every scan of `wait()` is inside the array, and for every thread `h` the slots of all
semaphores that hold its kernel semaphore, the signalers about to signal it and the signals
it holds are together 1 when the thread is inside `_semaphore_->wait()`, and 0 otherwise. -/
def WorldInv (w : World) : Prop :=
  (∀ m ∈ w.sems, m.semaphores.length = SEMAPHORES) ∧
  (∀ t ∈ w.plain, t.pc.indexOk) ∧
  ∀ h, w.slotsTotal h + threadsAt (Pc.wakes h) w.plain + w.ksem h = parkedAt w.plain h

/-- The program counters of a thread that still stands for one token of `count`: a signaler
between its `count.fetch_add(1)` and the signal of a kernel semaphore, and a waiter that
will attempt the compare-and-set of `count` (before the load of `count`, or carrying a value
`old` to the compare-and-set). -/
def Pc.owed : Pc → Bool
  | .sWaiters _ => true
  | .sCount _ => true
  | .sChkWaiters _ _ => true
  | .sChkCount _ _ => true
  | .sSlot _ _ => true
  | .sCas _ _ _ => true
  | .sWake _ _ => true
  | .wLoad => true
  | .wCas _ => true
  | .wAbort _ => true
  | _ => false

/-- Invariant of all runs: when a waiter is about to publish its kernel semaphore or a slot
is occupied, `count` is at most the number of threads that stand for a token plus the
pending signals. -/
def OwedInv (c : Config) : Prop :=
  0 < threadsAt Pc.atPublish c.threads + occupied c.mem →
    c.mem.count ≤ threadsAt Pc.owed c.threads + pending c.mem c.threads.length

end DecomissionableFixedSizeLastInFirstOutSemaphore

/-! ## Arithmetic of `size_t` -/

theorem size_inc_of_lt {x : Nat} (h : x < SIZE_MAX) : size_inc x = x + 1 := by
  simp only [size_inc, SIZE_MAX, SIZE_MOD] at *
  omega

theorem size_inc_max : size_inc SIZE_MAX = 0 := by
  simp [size_inc, SIZE_MAX, SIZE_MOD]

theorem size_inc_le (x : Nat) : size_inc x ≤ SIZE_MAX := by
  simp only [size_inc, SIZE_MAX, SIZE_MOD]
  omega

theorem size_inc_le_succ (x : Nat) : size_inc x ≤ x + 1 := by
  simp only [size_inc, SIZE_MOD]
  omega

theorem size_dec_of_pos {x : Nat} (h : 0 < x) : size_dec x = x - 1 := by
  simp only [size_dec]
  rw [if_neg (by omega)]

theorem size_dec_zero : size_dec 0 = SIZE_MAX := by
  simp [size_dec]

theorem size_dec_le {x : Nat} (hx : x ≤ SIZE_MAX) : size_dec x ≤ SIZE_MAX := by
  simp only [size_dec]
  split
  · exact le_refl _
  · omega

theorem size_dec_eq_mod {x : Nat} (hx : x ≤ SIZE_MAX) :
    size_dec x = (x + 18446744073709551615) % 18446744073709551616 := by
  simp only [size_dec, SIZE_MAX, SIZE_MOD] at *
  split <;> omega

theorem size_dec_inc {x : Nat} (hx : x ≤ SIZE_MAX) : size_dec (size_inc x) = x := by
  simp only [size_dec, size_inc, SIZE_MAX, SIZE_MOD] at *
  split <;> omega

namespace DecomissionableFixedSizeLastInFirstOutSemaphore

/-! ## Running one thread alone -/

theorem runThread_stuck (tid : Nat) (n : Nat) (s : Mem × Thread) (h : step tid s.1 s.2 = none) :
    runThread tid n s = s := by
  cases n with
  | zero => rfl
  | succ n => simp [runThread, h]

theorem runThread_step (tid : Nat) (n : Nat) (s s' : Mem × Thread)
    (h : step tid s.1 s.2 = some s') : runThread tid (n + 1) s = runThread tid n s' := by
  simp [runThread, h]

theorem runThread_add (tid : Nat) (a b : Nat) (s : Mem × Thread) :
    runThread tid (a + b) s = runThread tid b (runThread tid a s) := by
  induction a generalizing s with
  | zero => simp [runThread]
  | succ a ih =>
    cases h : step tid s.1 s.2 with
    | none =>
      rw [runThread_stuck tid _ s h, runThread_stuck tid _ s h, runThread_stuck tid _ s h]
    | some s' =>
      rw [Nat.succ_add, runThread_step tid _ s s' h, runThread_step tid _ s s' h, ih]

theorem step_idle (tid : Nat) (m : Mem) (t : Thread) (h : t.pc = .idle) : step tid m t = none := by
  simp [step, h]

/-- Two runs of the same call that both have returned have the same result. -/
theorem runThread_idle_unique (tid : Nat) (a b : Nat) (s : Mem × Thread)
    (ha : (runThread tid a s).2.pc = .idle) (hb : (runThread tid b s).2.pc = .idle) :
    runThread tid a s = runThread tid b s := by
  rcases Nat.le_total a b with h | h
  · obtain ⟨d, rfl⟩ := Nat.exists_eq_add_of_le h
    rw [runThread_add, runThread_stuck tid d _ (step_idle tid _ _ ha)]
  · obtain ⟨d, rfl⟩ := Nat.exists_eq_add_of_le h
    rw [runThread_add, runThread_stuck tid d _ (step_idle tid _ _ hb)]

/-- A call that has returned keeps its result when given more fuel. -/
theorem runThread_idle_mono (tid : Nat) (a b : Nat) (s : Mem × Thread)
    (ha : (runThread tid a s).2.pc = .idle) (hab : a ≤ b) :
    runThread tid b s = runThread tid a s := by
  obtain ⟨d, rfl⟩ := Nat.exists_eq_add_of_le hab
  rw [runThread_add, runThread_stuck tid d _ (step_idle tid _ _ ha)]

/-! ## The fast paths -/

theorem signal_no_waiters (tid : Nat) (m : Mem) (t : Thread) (h : m.waiters = 0) :
    call tid .signal 2 (m, t) = ({ m with count := size_inc m.count }, { t with pc := .idle }) := by
  simp [call, runThread, step, Op.entry, h, signalReturn]

theorem wait_fast (tid : Nat) (m : Mem) (t : Thread) (h : 0 < m.count) :
    call tid .wait 2 (m, t) = ({ m with count := size_dec m.count }, { t with pc := .idle }) := by
  simp [call, runThread, step, Op.entry, afterLoad, h]

theorem calls_signal_no_waiters (tid : Nat) (a : Bool) (k : Nat) (m : Mem)
    (hw : m.waiters = 0) (hc : m.count ≤ SIZE_MAX) :
    calls tid .signal 2 k (m, ⟨.idle, a⟩)
      = some ({ m with count := (m.count + k) % SIZE_MOD }, ⟨.idle, a⟩) := by
  induction k generalizing m with
  | zero =>
    have : m.count % SIZE_MOD = m.count := by
      simp only [SIZE_MAX, SIZE_MOD] at *
      omega
    simp [calls, this]
  | succ k ih =>
    rw [calls, signal_no_waiters tid m _ hw]
    simp only [if_true]
    have h := ih { m with count := size_inc m.count } hw (size_inc_le _)
    have e : (size_inc m.count + k) % SIZE_MOD = (m.count + (k + 1)) % SIZE_MOD := by
      simp only [size_inc, SIZE_MOD]
      omega
    simp only [e] at h
    exact h

theorem calls_wait_fast (tid : Nat) (t : Thread) (ht : t.pc = .idle) (k : Nat) (m : Mem)
    (hk : k ≤ m.count) (hc : m.count ≤ SIZE_MAX) :
    calls tid .wait 2 k (m, t) = some ({ m with count := m.count - k }, t) := by
  induction k generalizing m with
  | zero => simp [calls]
  | succ k ih =>
    rw [calls, wait_fast tid m _ (by omega)]
    simp only [if_true]
    have hd : size_dec m.count = m.count - 1 := size_dec_of_pos (by omega)
    have h := ih { m with count := m.count - 1 } (by simp only []; omega) (by simp only []; omega)
    have e : m.count - 1 - k = m.count - (k + 1) := by omega
    simp only [e] at h
    rw [hd]
    cases t
    simp only [] at ht
    subst ht
    exact h

/-- A call that is blocked, or still running, after `b` steps and can make no further step
has not returned for any amount of fuel. -/
theorem runThread_never_idle (tid : Nat) (b : Nat) (s : Mem × Thread)
    (hb : step tid (runThread tid b s).1 (runThread tid b s).2 = none)
    (hp : (runThread tid b s).2.pc ≠ .idle) (a : Nat) : (runThread tid a s).2.pc ≠ .idle := by
  intro ha
  rcases Nat.le_total a b with h | h
  · exact hp (by rw [runThread_idle_mono tid a b s ha h]; exact ha)
  · obtain ⟨d, rfl⟩ := Nat.exists_eq_add_of_le h
    rw [runThread_add, runThread_stuck tid d _ hb] at ha
    exact hp ha

theorem SIZE_MOD_eq : SIZE_MOD = SIZE_MAX + 1 := by decide

/-- Effect of `wait()` on a decommissioned semaphore with `count = 0`. -/
theorem wait_decommissioned_zero (tid : Nat) (m : Mem) (t : Thread)
    (hw : m.waiters ≤ SIZE_MAX) (hd : m.comissioned = false) (hc : m.count = 0) :
    call tid .wait 4 (m, t) = (m, { t with pc := .idle }) := by
  have h : call tid .wait 4 (m, t)
      = ({ m with waiters := size_dec (size_inc m.waiters) }, { t with pc := .idle }) := by
    simp [call, runThread, step, Op.entry, afterLoad, hc, hd]
  rw [h, size_dec_inc hw]

end DecomissionableFixedSizeLastInFirstOutSemaphore

namespace DecomissionableKernelSemaphore

theorem kernel_runThread_stuck (n : Nat) (s : Mem × Pc) (h : step s.1 s.2 = none) :
    runThread n s = s := by
  cases n with
  | zero => rfl
  | succ n => simp [runThread, h]

theorem kernel_runThread_step (n : Nat) (s s' : Mem × Pc)
    (h : step s.1 s.2 = some s') : runThread (n + 1) s = runThread n s' := by
  simp [runThread, h]

theorem kernel_runThread_add (a b : Nat) (s : Mem × Pc) :
    runThread (a + b) s = runThread b (runThread a s) := by
  induction a generalizing s with
  | zero => simp [runThread]
  | succ a ih =>
    cases h : step s.1 s.2 with
    | none => rw [kernel_runThread_stuck _ s h, kernel_runThread_stuck _ s h,
      kernel_runThread_stuck _ s h]
    | some s' => rw [Nat.succ_add, kernel_runThread_step _ s s' h, kernel_runThread_step _ s s' h, ih]

/-- Effect of `wait()` on a decommissioned kernel semaphore. -/
theorem wait_decommissioned (m : Mem) (hw : m.waiters ≤ SIZE_MAX) (hd : m.comissioned = false) :
    call .wait 3 m = (m, .idle) := by
  have h : call .wait 3 m = ({ m with waiters := size_dec (size_inc m.waiters) }, .idle) := by
    simp [call, runThread, step, Op.entry, hd]
  rw [h, size_dec_inc hw]

end DecomissionableKernelSemaphore

namespace DecomissionableFixedSizeLastInFirstOutSemaphore

theorem fresh_wf : fresh.wf :=
  ⟨by decide, by decide, by simp [fresh]⟩

theorem parkedOne_wf : parkedOne.wf :=
  ⟨by decide, by decide, by simp [parkedOne, fresh]⟩

theorem parkedOneDecommissioned_wf : parkedOneDecommissioned.wf :=
  ⟨by decide, by decide, by simp [parkedOneDecommissioned, parkedOne, fresh]⟩

end DecomissionableFixedSizeLastInFirstOutSemaphore

namespace DecomissionableFixedSizeLastInFirstOutSemaphore

/-! ## The scan of `signal()` -/

theorem slot_set_self (l : List (Option Nat)) (i : Nat) (v : Option Nat) (h : i < l.length)
    (c : Bool) (n w : Nat) (k : Nat → Nat) :
    (Mem.mk c n w (l.set i v) k).slot i = v := by
  simp [Mem.slot, h]

theorem slot_set_ne (l : List (Option Nat)) (i j : Nat) (v : Option Nat) (h : i ≠ j)
    (c : Bool) (n w : Nat) (k : Nat → Nat) :
    (Mem.mk c n w (l.set i v) k).slot j = (Mem.mk c n w l k).slot j := by
  simp [Mem.slot, h]

/-- Three steps of the scan of `signal()` over an empty slot. -/
theorem scan_skip (tid : Nat) (m : Mem) (a : Bool) (c : Caller) (i : Nat)
    (hw : 0 < m.waiters) (hc : 0 < m.count) (hi : m.slot i = none) :
    runThread tid 3 (m, ⟨.sChkWaiters c i, a⟩) = (m, ⟨signalNext c i, a⟩) := by
  have hw' : m.waiters ≠ 0 := by omega
  have hc' : m.count ≠ 0 := by omega
  simp [runThread, step, hw', hc', hi]

/-- Six steps of `signal()` at an occupied slot: the slot is emptied, the kernel semaphore it
held is signaled and `waiters` is decremented. -/
theorem scan_claim (tid : Nat) (m : Mem) (a : Bool) (c : Caller) (j h : Nat)
    (hw : 0 < m.waiters) (hc : 0 < m.count) (hj : m.slot j = some h) :
    runThread tid 6 (m, ⟨.sChkWaiters c j, a⟩)
      = ({ m with semaphores := m.semaphores.set j none,
                  ksem := Function.update m.ksem h (KernelSemaphore.signal (m.ksem h)),
                  waiters := size_dec m.waiters }, ⟨signalReturn c, a⟩) := by
  have hw' : m.waiters ≠ 0 := by omega
  have hc' : m.count ≠ 0 := by omega
  simp [runThread, step, hw', hc', hj]

/-- The scan of `signal()` from slot `i` up to the first occupied slot `j`. -/
theorem scan_found (tid : Nat) (m : Mem) (a : Bool) (c : Caller) (j h : Nat)
    (hw : 0 < m.waiters) (hc : 0 < m.count) (hjN : j < SEMAPHORES) (hj : m.slot j = some h)
    (d i : Nat) (hd : i + d = j) (hempty : ∀ k, i ≤ k → k < j → m.slot k = none) :
    runThread tid (3 * d + 6) (m, ⟨.sChkWaiters c i, a⟩)
      = ({ m with semaphores := m.semaphores.set j none,
                  ksem := Function.update m.ksem h (KernelSemaphore.signal (m.ksem h)),
                  waiters := size_dec m.waiters }, ⟨signalReturn c, a⟩) := by
  induction d generalizing i with
  | zero =>
    have : i = j := by omega
    subst this
    exact scan_claim tid m a c i h hw hc hj
  | succ d ih =>
    have e : 3 * (d + 1) + 6 = 3 + (3 * d + 6) := by omega
    rw [e, runThread_add, scan_skip tid m a c i hw hc (hempty i (le_refl _) (by omega))]
    have hn : signalNext c i = .sChkWaiters c (i + 1) := by
      simp only [signalNext]
      rw [if_pos (by omega)]
    rw [hn]
    exact ih (i + 1) (by omega) (fun k h1 h2 => hempty k (by omega) h2)

/-- The body of `signal()` when nobody waits. -/
theorem signal_body_no_waiters (tid : Nat) (m : Mem) (a : Bool) (c : Caller)
    (hw : m.waiters = 0) :
    runThread tid 2 (m, ⟨.sInc c, a⟩)
      = ({ m with count := size_inc m.count }, ⟨signalReturn c, a⟩) := by
  simp [runThread, step, hw]

/-- The body of `signal()` when the increment wraps `count` around to 0. -/
theorem signal_body_wrapped (tid : Nat) (m : Mem) (a : Bool) (c : Caller)
    (hw : 0 < m.waiters) (hc : size_inc m.count = 0) :
    runThread tid 3 (m, ⟨.sInc c, a⟩)
      = ({ m with count := size_inc m.count }, ⟨signalReturn c, a⟩) := by
  simp [runThread, step, hw, hc]

/-- The body of `signal()` when somebody waits and slot `j` is the first occupied one. -/
theorem signal_body_wakes (tid : Nat) (m : Mem) (a : Bool) (c : Caller) (j h : Nat)
    (hw : 0 < m.waiters) (hc : 0 < size_inc m.count) (hjN : j < SEMAPHORES)
    (hj : m.slot j = some h) (hempty : ∀ k, k < j → m.slot k = none) :
    runThread tid (3 * j + 9) (m, ⟨.sInc c, a⟩)
      = ({ m with count := size_inc m.count,
                  semaphores := m.semaphores.set j none,
                  ksem := Function.update m.ksem h (KernelSemaphore.signal (m.ksem h)),
                  waiters := size_dec m.waiters }, ⟨signalReturn c, a⟩) := by
  have e : 3 * j + 9 = 3 + (3 * j + 6) := by omega
  have h3 : runThread tid 3 (m, ⟨.sInc c, a⟩)
      = ({ m with count := size_inc m.count }, ⟨.sChkWaiters c 0, a⟩) := by
    simp [runThread, step, hw, hc]
  rw [e, runThread_add, h3]
  exact scan_found tid { m with count := size_inc m.count } a c j h hw hc hjN hj j 0 (by omega)
    (fun k _ h2 => hempty k h2)

end DecomissionableFixedSizeLastInFirstOutSemaphore

namespace DecomissionableFixedSizeLastInFirstOutSemaphore

theorem slot_eq_none_of_le (m : Mem) (i : Nat) (h : m.semaphores.length ≤ i) :
    m.slot i = none := by
  simp [Mem.slot, List.getElem?_eq_none h]

/-- The first occupied slot, when there is an occupied slot. -/
theorem exists_first_occupied (m : Mem) (hlen : m.semaphores.length = SEMAPHORES)
    (h : ∃ i, m.slot i ≠ none) :
    ∃ j h, j < SEMAPHORES ∧ m.slot j = some h ∧ ∀ k, k < j → m.slot k = none := by
  classical
  have hj := Nat.find_spec h
  have hmin := fun k (hk : k < Nat.find h) => Nat.find_min h hk
  obtain ⟨v, hv⟩ := Option.ne_none_iff_exists'.mp hj
  refine ⟨Nat.find h, v, ?_, hv, fun k hk => by simpa using hmin k hk⟩
  by_contra hge
  exact hj (slot_eq_none_of_le m _ (by omega))

/-- One step of the scan of `signal()` when every slot is empty: the memory is unchanged and
the thread is still scanning. -/
theorem scanning_step (tid : Nat) (m : Mem) (a : Bool) (pc : Pc)
    (hw : 0 < m.waiters) (hc : 0 < m.count) (hall : ∀ i, m.slot i = none)
    (hp : pc.scanning = true) :
    ∃ pc', step tid m ⟨pc, a⟩ = some (m, ⟨pc', a⟩) ∧ pc'.scanning = true := by
  have hw' : m.waiters ≠ 0 := by omega
  have hc' : m.count ≠ 0 := by omega
  cases pc <;> simp [Pc.scanning] at hp
  case sWaiters c => exact ⟨.sCount c, by simp [step, hw], rfl⟩
  case sCount c => exact ⟨.sChkWaiters c 0, by simp [step, hc], rfl⟩
  case sChkWaiters c i => exact ⟨.sChkCount c i, by simp [step, hw'], rfl⟩
  case sChkCount c i => exact ⟨.sSlot c i, by simp [step, hc'], rfl⟩
  case sSlot c i =>
    refine ⟨signalNext c i, by simp [step, hall i], ?_⟩
    simp only [signalNext]
    split <;> rfl

theorem scanning_forever (tid : Nat) (m : Mem) (a : Bool)
    (hw : 0 < m.waiters) (hc : 0 < m.count) (hall : ∀ i, m.slot i = none)
    (n : Nat) (pc : Pc) (hp : pc.scanning = true) :
    (runThread tid n (m, ⟨pc, a⟩)).2.pc.scanning = true := by
  induction n generalizing pc with
  | zero => exact hp
  | succ n ih =>
    obtain ⟨pc', hs, hp'⟩ := scanning_step tid m a pc hw hc hall hp
    rw [runThread_step tid n _ _ hs]
    exact ih pc' hp'

/-- The body of `signal()` never returns when somebody is counted in `waiters`, the
incremented `count` is not 0 and every slot is empty. -/
theorem signal_body_spins (tid : Nat) (m : Mem) (a : Bool) (c : Caller)
    (hw : 0 < m.waiters) (hc : 0 < size_inc m.count) (hall : ∀ i, m.slot i = none)
    (n : Nat) : (runThread tid n (m, ⟨.sInc c, a⟩)).2.pc ≠ .idle := by
  cases n with
  | zero => simp [runThread]
  | succ n =>
    have hs : step tid m ⟨.sInc c, a⟩
        = some ({ m with count := size_inc m.count }, ⟨.sWaiters c, a⟩) := by
      simp [step]
    rw [runThread_step tid n _ _ hs]
    have h := scanning_forever tid { m with count := size_inc m.count } a hw hc hall n
      (.sWaiters c) rfl
    intro hidle
    rw [hidle] at h
    simp [Pc.scanning] at h

theorem size_inc_eq_zero_iff {x : Nat} (hx : x ≤ SIZE_MAX) : size_inc x = 0 ↔ x = SIZE_MAX := by
  simp only [size_inc, SIZE_MAX, SIZE_MOD] at *
  omega

end DecomissionableFixedSizeLastInFirstOutSemaphore

namespace DecomissionableFixedSizeLastInFirstOutSemaphore

/-! ## Counting slots -/

theorem slot_eq_getElem (m : Mem) (i : Nat) (h : i < m.semaphores.length) :
    m.slot i = m.semaphores[i] := by
  simp [Mem.slot, h]

theorem occupied_set_none (m : Mem) (j h : Nat) (hj : m.slot j = some h) :
    (m.semaphores.set j none).countP Option.isSome + 1 = occupied m := by
  have hlt : j < m.semaphores.length := by
    by_contra hge
    rw [slot_eq_none_of_le m j (by omega)] at hj
    exact Option.noConfusion hj
  have e := slot_eq_getElem m j hlt
  rw [hj] at e
  have hpos := List.boole_getElem_le_countP Option.isSome m.semaphores j hlt
  rw [List.countP_set _ _ _ _ hlt, ← e]
  rw [← e] at hpos
  simp only [occupied, Option.isSome_some, Option.isSome_none, if_true] at *
  simp
  omega

theorem slotsOf_set_none (m : Mem) (j h : Nat) (hj : m.slot j = some h) (h' : Nat) :
    (m.semaphores.set j none).count (some h') + (if h = h' then 1 else 0) = slotsOf m h' := by
  have hlt : j < m.semaphores.length := by
    by_contra hge
    rw [slot_eq_none_of_le m j (by omega)] at hj
    exact Option.noConfusion hj
  have e := slot_eq_getElem m j hlt
  rw [hj] at e
  have hpos := List.boole_getElem_le_countP (fun x => x == some h') m.semaphores j hlt
  rw [List.count_set _ _ _ _ hlt, ← e]
  rw [← e] at hpos
  simp only [slotsOf, List.count_eq_countP] at *
  by_cases hh : h = h'
  · subst hh
    simp only [beq_self_eq_true, if_true] at hpos ⊢
    simp
    omega
  · have : ¬ (some h = some h') := by simpa using hh
    simp [hh]

theorem occupied_eq_zero_iff (m : Mem) : occupied m = 0 ↔ ∀ i, m.slot i = none := by
  simp only [occupied, List.countP_eq_zero]
  constructor
  · intro h i
    by_cases hi : i < m.semaphores.length
    · rw [slot_eq_getElem m i hi]
      have := h _ (List.getElem_mem hi)
      simpa using this
    · exact slot_eq_none_of_le m i (by omega)
  · intro h a ha
    obtain ⟨i, hi, rfl⟩ := List.getElem_of_mem ha
    have := h i
    rw [slot_eq_getElem m i hi] at this
    simp [this]

theorem semaphores_eq_replicate (m : Mem) (hlen : m.semaphores.length = SEMAPHORES)
    (h : occupied m = 0) : m.semaphores = List.replicate SEMAPHORES none := by
  rw [List.eq_replicate_iff]
  refine ⟨hlen, fun a ha => ?_⟩
  obtain ⟨i, hi, rfl⟩ := List.getElem_of_mem ha
  rw [← slot_eq_getElem m i hi]
  exact (occupied_eq_zero_iff m).mp h i

theorem slotsOf_eq_zero (m : Mem) (h : occupied m = 0) (h' : Nat) : slotsOf m h' = 0 := by
  simp only [slotsOf, List.count_eq_zero]
  intro hmem
  obtain ⟨i, hi, he⟩ := List.getElem_of_mem hmem
  have := (occupied_eq_zero_iff m).mp h i
  rw [slot_eq_getElem m i hi, he] at this
  exact Option.noConfusion this

theorem occupied_pos (m : Mem) (h : 0 < occupied m) : ∃ i, m.slot i ≠ none := by
  by_contra hne
  have : occupied m = 0 := (occupied_eq_zero_iff m).mpr (fun i => by
    by_contra hi
    exact hne ⟨i, hi⟩)
  omega

end DecomissionableFixedSizeLastInFirstOutSemaphore

namespace DecomissionableFixedSizeLastInFirstOutSemaphore

/-! ## The loop of `decomission()` -/

/-- The loop of `decomission()` on a state in which every counted waiter is in a slot: each
of its `w` calls of `signal()` claims one slot. -/
theorem decomission_loop (tid : Nat) (a : Bool) (w : Nat) (m : Mem)
    (hlen : m.semaphores.length = SEMAPHORES) (hw : m.waiters = w) (hocc : occupied m = w)
    (hc : m.count + w ≤ SIZE_MAX) :
    ∃ fuel, runThread tid fuel
        (m, ⟨if 0 < w then .sInc (.decomission w) else .idle, a⟩)
      = ({ m with count := m.count + w, waiters := 0,
                  semaphores := List.replicate SEMAPHORES none,
                  ksem := fun h => m.ksem h + slotsOf m h }, ⟨.idle, a⟩) := by
  induction w generalizing m with
  | zero =>
    refine ⟨0, ?_⟩
    have h1 := semaphores_eq_replicate m hlen hocc
    have h2 : (fun h => m.ksem h + slotsOf m h) = m.ksem := by
      funext h
      rw [slotsOf_eq_zero m hocc h]
      rfl
    simp only [runThread, Nat.lt_irrefl, if_false, Nat.add_zero, h2, ← h1]
    cases m
    simp only [] at hw
    subst hw
    rfl
  | succ w ih =>
    obtain ⟨j, h, hj, hjs, hmin⟩ := exists_first_occupied m hlen (occupied_pos m (by omega))
    have hinc : size_inc m.count = m.count + 1 := size_inc_of_lt (by omega)
    have hdec : size_dec m.waiters = w := by
      rw [size_dec_of_pos (by omega)]
      omega
    have hbody := signal_body_wakes tid m a (.decomission (w + 1)) j h (by omega)
      (by omega) hj hjs hmin
    have hret : signalReturn (.decomission (w + 1))
        = if 0 < w then .sInc (.decomission w) else .idle := by
      have e : size_dec (w + 1) = w := by
        rw [size_dec_of_pos (by omega)]
        omega
      simp only [signalReturn, e]
    rw [hret, hinc, hdec] at hbody
    have hocc' := occupied_set_none m j h hjs
    obtain ⟨fuel, hfuel⟩ := ih
      { m with count := m.count + 1, semaphores := m.semaphores.set j none,
               ksem := Function.update m.ksem h (KernelSemaphore.signal (m.ksem h)),
               waiters := w }
      (by simp [hlen]) rfl (by simp only [occupied]; omega) (by simp only []; omega)
    refine ⟨(3 * j + 9) + fuel, ?_⟩
    rw [if_pos (by omega), runThread_add, hbody, hfuel]
    have hk : (fun h' => Function.update m.ksem h (KernelSemaphore.signal (m.ksem h)) h'
          + (m.semaphores.set j none).count (some h'))
        = fun h' => m.ksem h' + slotsOf m h' := by
      funext h'
      have := slotsOf_set_none m j h hjs h'
      by_cases hh : h = h'
      · subst hh
        simp only [Function.update_same, KernelSemaphore.signal, if_true] at *
        omega
      · have hne : h' ≠ h := fun e => hh e.symm
        simp only [Function.update_noteq hne, if_neg hh] at *
        omega
    have hcount : m.count + 1 + w = m.count + (w + 1) := by omega
    simp only [slotsOf, hcount] at hk ⊢
    rw [hk]

/-- The method `decomission()` on a state in which every counted waiter is in a slot. -/
theorem decomission_quiescent (tid : Nat) (a : Bool) (m : Mem)
    (hlen : m.semaphores.length = SEMAPHORES) (hocc : occupied m = m.waiters)
    (hc : m.count + m.waiters ≤ SIZE_MAX) :
    ∃ fuel, call tid .decomission fuel (m, ⟨.idle, a⟩)
      = ({ comissioned := false, count := m.count + m.waiters, waiters := 0,
           semaphores := List.replicate SEMAPHORES none,
           ksem := fun h => m.ksem h + slotsOf m h }, ⟨.idle, a⟩) := by
  obtain ⟨fuel, hfuel⟩ := decomission_loop tid a m.waiters { m with comissioned := false }
    hlen rfl hocc hc
  refine ⟨2 + fuel, ?_⟩
  have h2 : runThread tid 2 (m, ⟨.dStore, a⟩)
      = ({ m with comissioned := false },
          ⟨if 0 < m.waiters then .sInc (.decomission m.waiters) else .idle, a⟩) := by
    simp [runThread, step]
  simp only [call, Op.entry]
  rw [runThread_add, h2, hfuel]
  rfl

/-- The method `decomission()` when `waiters` is 0: only the flag is cleared. -/
theorem decomission_no_waiters (tid : Nat) (a : Bool) (m : Mem) (hw : m.waiters = 0) :
    call tid .decomission 2 (m, ⟨.idle, a⟩) = ({ m with comissioned := false }, ⟨.idle, a⟩) := by
  simp [call, Op.entry, runThread, step, hw]

end DecomissionableFixedSizeLastInFirstOutSemaphore

namespace DecomissionableKernelSemaphore

/-- The loop of `decomission()`: `i` calls of `signal()`. -/
theorem kernel_decomission_loop (i : Nat) (m : Mem) (hi : 0 < i) :
    runThread i (m, .dSignal i) = ({ m with semaphore := m.semaphore + i }, .idle) := by
  induction i generalizing m with
  | zero => omega
  | succ i ih =>
    have e : size_dec (i + 1) = i := by
      rw [size_dec_of_pos (by omega)]
      omega
    have hs : step m (.dSignal (i + 1))
        = some ({ m with semaphore := m.semaphore + 1 },
            if 0 < i then .dSignal i else .idle) := by
      simp [step, e, KernelSemaphore.signal]
    rw [kernel_runThread_step i _ _ hs]
    by_cases h0 : 0 < i
    · rw [if_pos h0, ih _ h0]
      simp only [Mem.mk.injEq, Prod.mk.injEq, and_true, true_and]
      omega
    · have : i = 0 := by omega
      subst this
      simp [runThread]

/-- The method `decomission()`: the flag is cleared and the inner semaphore is signaled
`waiters` times; `waiters` itself is left alone. -/
theorem kernel_decomission (m : Mem) :
    call .decomission (m.waiters + 2) m
      = (⟨false, m.waiters, m.semaphore + m.waiters⟩, .idle) := by
  have h2 : runThread 2 (m, .dStore)
      = ({ m with comissioned := false },
          if 0 < m.waiters then .dSignal m.waiters else .idle) := by
    simp [runThread, step]
  simp only [call, Op.entry]
  rw [Nat.add_comm, kernel_runThread_add, h2]
  by_cases h0 : 0 < m.waiters
  · rw [if_pos h0, kernel_decomission_loop _ _ h0]
  · have : m.waiters = 0 := by omega
    rw [if_neg h0, this]
    simp [runThread]

end DecomissionableKernelSemaphore

namespace DecomissionableFixedSizeLastInFirstOutSemaphore

/-! ## The flag `comissioned` is only ever cleared -/

theorem useSemaphore_comissioned (tid : Nat) (m : Mem) (t : Thread) :
    (useSemaphore tid m t).comissioned = m.comissioned := by
  unfold useSemaphore
  split <;> rfl

theorem step_comissioned (tid : Nat) (m m' : Mem) (t t' : Thread)
    (h : step tid m t = some (m', t')) (hd : m.comissioned = false) :
    m'.comissioned = false := by
  obtain ⟨pc, a⟩ := t
  have hu := useSemaphore_comissioned tid m ⟨pc, a⟩
  cases pc <;> simp only [step] at h
  all_goals (try split at h)
  all_goals (try simp only [Option.some.injEq, Prod.mk.injEq] at h)
  all_goals (try (obtain ⟨rfl, -⟩ := h))
  all_goals (try simp_all)

end DecomissionableFixedSizeLastInFirstOutSemaphore

namespace DecomissionableFixedSizeLastInFirstOutSemaphore

theorem act_comissioned (c c' : Config) (a : Action) (h : c.act a = some c')
    (hd : c.mem.comissioned = false) : c'.mem.comissioned = false := by
  cases a with
  | call tid op =>
    simp only [Config.act] at h
    split at h
    · exact Option.noConfusion h
    · split at h
      · simp only [Option.some.injEq] at h
        subst h
        exact hd
      · exact Option.noConfusion h
  | step tid =>
    simp only [Config.act] at h
    split at h
    · exact Option.noConfusion h
    · rename_i t ht
      split at h
      · exact Option.noConfusion h
      · rename_i m t' hs
        simp only [Option.some.injEq] at h
        subst h
        exact step_comissioned tid c.mem m t t' hs hd

theorem run_comissioned (acts : List Action) (c c' : Config) (h : c.run acts = some c')
    (hd : c.mem.comissioned = false) : c'.mem.comissioned = false := by
  induction acts generalizing c with
  | nil =>
    simp only [Config.run, Option.some.injEq] at h
    subst h
    exact hd
  | cons a as ih =>
    simp only [Config.run] at h
    split at h
    · exact Option.noConfusion h
    · rename_i c1 h1
      exact ih c1 h (act_comissioned c c1 a h1 hd)

end DecomissionableFixedSizeLastInFirstOutSemaphore

namespace DecomissionableKernelSemaphore

theorem kernel_step_comissioned (m m' : Mem) (pc pc' : Pc)
    (h : step m pc = some (m', pc')) (hd : m.comissioned = false) :
    m'.comissioned = false := by
  cases pc <;> simp only [step] at h
  all_goals (try split at h)
  all_goals (try simp only [Option.some.injEq, Prod.mk.injEq] at h)
  all_goals (try (obtain ⟨rfl, -⟩ := h))
  all_goals (try simp_all)

theorem kernel_act_comissioned (c c' : Config) (a : Action) (h : c.act a = some c')
    (hd : c.mem.comissioned = false) : c'.mem.comissioned = false := by
  cases a with
  | call tid op =>
    simp only [Config.act] at h
    split at h
    · simp only [Option.some.injEq] at h
      subst h
      exact hd
    · exact Option.noConfusion h
  | step tid =>
    simp only [Config.act] at h
    split at h
    · exact Option.noConfusion h
    · rename_i t ht
      split at h
      · exact Option.noConfusion h
      · rename_i m t' hs
        simp only [Option.some.injEq] at h
        subst h
        exact kernel_step_comissioned c.mem m t t' hs hd

theorem kernel_run_comissioned (acts : List Action) (c c' : Config)
    (h : c.run acts = some c') (hd : c.mem.comissioned = false) :
    c'.mem.comissioned = false := by
  induction acts generalizing c with
  | nil =>
    simp only [Config.run, Option.some.injEq] at h
    subst h
    exact hd
  | cons a as ih =>
    simp only [Config.run] at h
    split at h
    · exact Option.noConfusion h
    · rename_i c1 h1
      exact ih c1 h (kernel_act_comissioned c c1 a h1 hd)

end DecomissionableKernelSemaphore

namespace DecomissionableFixedSizeLastInFirstOutSemaphore

/-! ## Interleavings -/

theorem threads_decompose (ts : List Thread) (tid : Nat) (t : Thread)
    (h : ts.get? tid = some t) :
    ∃ l1 l2, ts = l1 ++ t :: l2 ∧ l1.length = tid ∧
      ∀ t', ts.set tid t' = l1 ++ t' :: l2 := by
  rw [List.get?_eq_getElem?, List.getElem?_eq_some] at h
  obtain ⟨hlt, rfl⟩ := h
  refine ⟨ts.take tid, ts.drop (tid + 1), ?_, ?_, ?_⟩
  · rw [← List.drop_eq_getElem_cons hlt, List.take_append_drop]
  · exact List.length_take_of_le (by omega)
  · intro t'
    rw [List.set_eq_take_append_cons_drop, if_pos hlt]

/-- A step action changes the memory and one thread according to `step`. -/
theorem act_step_decompose (c c' : Config) (tid : Nat) (h : c.act (.step tid) = some c') :
    ∃ l1 t l2 m' t', c.threads = l1 ++ t :: l2 ∧ l1.length = tid ∧
      step tid c.mem t = some (m', t') ∧ c' = ⟨m', l1 ++ t' :: l2⟩ := by
  simp only [Config.act] at h
  split at h
  · exact Option.noConfusion h
  · rename_i t ht
    split at h
    · exact Option.noConfusion h
    · rename_i m' t' hs
      obtain ⟨l1, l2, hts, hlen, hset⟩ := threads_decompose c.threads tid t ht
      simp only [Option.some.injEq] at h
      subst h
      exact ⟨l1, t, l2, m', t', hts, hlen, hs, by rw [hset]⟩

/-- A call action puts one idle thread at the entry of the operation. -/
theorem act_call_decompose (c c' : Config) (tid : Nat) (op : Op)
    (h : c.act (.call tid op) = some c') :
    ∃ l1 a l2, c.threads = l1 ++ ⟨.idle, a⟩ :: l2 ∧ l1.length = tid ∧
      c' = ⟨c.mem, l1 ++ ⟨op.entry, a⟩ :: l2⟩ := by
  simp only [Config.act] at h
  split at h
  · exact Option.noConfusion h
  · rename_i t ht
    split at h
    · rename_i hidle
      obtain ⟨l1, l2, hts, hlen, hset⟩ := threads_decompose c.threads tid t ht
      simp only [Option.some.injEq] at h
      subst h
      obtain ⟨pc, a⟩ := t
      simp only [] at hidle
      subst hidle
      exact ⟨l1, a, l2, hts, hlen, by rw [hset]⟩
    · exact Option.noConfusion h

theorem threadsAt_append_cons (p : Pc → Bool) (l1 l2 : List Thread) (t : Thread) :
    threadsAt p (l1 ++ t :: l2)
      = threadsAt p l1 + (if p t.pc then 1 else 0) + threadsAt p l2 := by
  simp only [threadsAt, List.countP_append, List.countP_cons]
  omega

theorem threadsAt_replicate_idle (p : Pc → Bool) (hp : p .idle = false) (n : Nat) :
    threadsAt p (List.replicate n Thread.fresh) = 0 := by
  simp [threadsAt, List.countP_eq_zero, Thread.fresh, hp]

theorem threadsAt_eq_zero_of_idle (p : Pc → Bool) (hp : p .idle = false) (ts : List Thread)
    (h : ∀ t ∈ ts, t.pc = .idle) : threadsAt p ts = 0 := by
  simp only [threadsAt, List.countP_eq_zero]
  intro t ht
  rw [h t ht, hp]
  simp

end DecomissionableFixedSizeLastInFirstOutSemaphore

namespace DecomissionableFixedSizeLastInFirstOutSemaphore

/-! ## Runs in which `decomission()` is never called -/

theorem step_noDecom (tid : Nat) (m m' : Mem) (t t' : Thread)
    (hs : step tid m t = some (m', t')) (hc : m.comissioned = true)
    (h1 : t.pc.op ≠ some .decomission) (h2 : t.pc ≠ .wDec) (h3 : t.pc.oldPositive) :
    m'.comissioned = true ∧ t'.pc.op ≠ some .decomission ∧ t'.pc ≠ .wDec ∧
      t'.pc.oldPositive := by
  obtain ⟨pc, a⟩ := t
  have hu := useSemaphore_comissioned tid m ⟨pc, a⟩
  cases pc
  case idle => simp [step] at hs
  case sInc c =>
    cases c <;> simp only [step, Option.some.injEq, Prod.mk.injEq] at hs <;>
      obtain ⟨rfl, rfl⟩ := hs <;> simp_all [Pc.op, Pc.oldPositive]
  case sWaiters c =>
    cases c <;> simp only [step, Option.some.injEq, Prod.mk.injEq] at hs <;>
      obtain ⟨rfl, rfl⟩ := hs <;> simp only [signalReturn] <;> split <;>
      simp_all [Pc.op, Pc.oldPositive]
  case sCount c =>
    cases c <;> simp only [step, Option.some.injEq, Prod.mk.injEq] at hs <;>
      obtain ⟨rfl, rfl⟩ := hs <;> simp only [signalReturn] <;> split <;>
      simp_all [Pc.op, Pc.oldPositive]
  case sChkWaiters c i =>
    cases c <;> simp only [step, Option.some.injEq, Prod.mk.injEq] at hs <;>
      obtain ⟨rfl, rfl⟩ := hs <;> simp only [signalReturn] <;> split <;>
      simp_all [Pc.op, Pc.oldPositive]
  case sChkCount c i =>
    cases c <;> simp only [step, Option.some.injEq, Prod.mk.injEq] at hs <;>
      obtain ⟨rfl, rfl⟩ := hs <;> simp only [signalReturn] <;> split <;>
      simp_all [Pc.op, Pc.oldPositive]
  case sSlot c i =>
    cases c <;> simp only [step] at hs <;> split at hs <;>
      simp only [Option.some.injEq, Prod.mk.injEq] at hs <;>
      obtain ⟨rfl, rfl⟩ := hs <;> simp only [signalNext] <;> (try split) <;>
      simp_all [Pc.op, Pc.oldPositive]
  case sCas c i h =>
    cases c <;> simp only [step] at hs <;> split at hs <;>
      simp only [Option.some.injEq, Prod.mk.injEq] at hs <;>
      obtain ⟨rfl, rfl⟩ := hs <;> simp only [signalNext] <;> (try split) <;>
      simp_all [Pc.op, Pc.oldPositive]
  case sWake c h =>
    cases c <;> simp only [step, Option.some.injEq, Prod.mk.injEq] at hs <;>
      obtain ⟨rfl, rfl⟩ := hs <;> simp_all [Pc.op, Pc.oldPositive]
  case sDec c =>
    cases c <;> simp only [step, Option.some.injEq, Prod.mk.injEq] at hs <;>
      obtain ⟨rfl, rfl⟩ := hs <;> simp_all [Pc.op, Pc.oldPositive, signalReturn]
  case dStore => simp [Pc.op] at h1
  case dLoad => simp [Pc.op] at h1
  case wDec => simp at h2
  case wLoad =>
    simp only [step, Option.some.injEq, Prod.mk.injEq] at hs
    obtain ⟨rfl, rfl⟩ := hs
    simp only [afterLoad]
    split <;> simp_all [Pc.op, Pc.oldPositive]
  case wCas old =>
    simp only [step] at hs
    split at hs <;> simp only [Option.some.injEq, Prod.mk.injEq] at hs <;>
      obtain ⟨rfl, rfl⟩ := hs
    · simp_all [Pc.op, Pc.oldPositive]
    · simp only [afterLoad]
      split <;> simp_all [Pc.op, Pc.oldPositive]
  case wInc =>
    simp only [step, Option.some.injEq, Prod.mk.injEq] at hs
    obtain ⟨rfl, rfl⟩ := hs
    simp_all [Pc.op, Pc.oldPositive]
  case wCheck =>
    simp only [step, Option.some.injEq, Prod.mk.injEq] at hs
    obtain ⟨rfl, rfl⟩ := hs
    simp_all [Pc.op, Pc.oldPositive]
  case wSlot i =>
    simp only [step] at hs
    split at hs <;> simp only [Option.some.injEq, Prod.mk.injEq] at hs <;>
      obtain ⟨rfl, rfl⟩ := hs <;> simp only [waitNext] <;> (try split) <;>
      simp_all [Pc.op, Pc.oldPositive]
  case wRecheck i =>
    simp only [step, Option.some.injEq, Prod.mk.injEq] at hs
    obtain ⟨rfl, rfl⟩ := hs
    split <;> simp_all [Pc.op, Pc.oldPositive]
  case wAbort old =>
    simp only [step, Option.some.injEq, Prod.mk.injEq] at hs
    obtain ⟨rfl, rfl⟩ := hs
    simp_all [Pc.op, Pc.oldPositive]
  case wPublish i =>
    simp only [step] at hs
    split at hs <;> simp only [Option.some.injEq, Prod.mk.injEq] at hs <;>
      obtain ⟨rfl, rfl⟩ := hs <;> simp only [waitNext] <;> (try split) <;>
      simp_all [Pc.op, Pc.oldPositive]
  case wPark =>
    simp only [step] at hs
    split at hs
    · exact Option.noConfusion hs
    · simp only [Option.some.injEq, Prod.mk.injEq] at hs
      obtain ⟨rfl, rfl⟩ := hs
      simp_all [Pc.op, Pc.oldPositive]


/-- Effect of one step on the token accounting, the flag `comissioned` being set and the
thread being outside `decomission()`: the `fetch_add` of `signal()`, the successful
compare-and-set of `wait()` (after which `wait()` returns), or a step that neither changes
`count` nor enters or leaves the two classes of program counters. -/
theorem step_token_local (tid : Nat) (m m' : Mem) (t t' : Thread)
    (hs : step tid m t = some (m', t')) (hc : m.comissioned = true)
    (h1 : t.pc.op ≠ some .decomission) (h2 : t.pc ≠ .wDec) (h3 : t.pc.oldPositive) :
    (t.pc.atInc = true ∧ t.pc.inWait = false ∧ t'.pc.atInc = false ∧ t'.pc.inWait = false ∧
        m'.count = size_inc m.count) ∨
    (t.pc.atInc = false ∧ t.pc.inWait = true ∧ t'.pc.atInc = false ∧ t'.pc.inWait = false ∧
        0 < m.count ∧ m'.count = m.count - 1) ∨
    (t'.pc.atInc = t.pc.atInc ∧ t'.pc.inWait = t.pc.inWait ∧ m'.count = m.count) := by
  obtain ⟨pc, a⟩ := t
  cases pc
  case idle => simp [step] at hs
  case sInc c =>
    cases c <;> simp only [step, Option.some.injEq, Prod.mk.injEq] at hs <;>
      obtain ⟨rfl, rfl⟩ := hs <;> simp_all [Pc.op, Pc.atInc, Pc.inWait]
  case sWaiters c =>
    cases c <;> simp only [step, Option.some.injEq, Prod.mk.injEq] at hs <;>
      obtain ⟨rfl, rfl⟩ := hs <;> simp only [signalReturn] <;> split <;>
      simp_all [Pc.op, Pc.atInc, Pc.inWait]
  case sCount c =>
    cases c <;> simp only [step, Option.some.injEq, Prod.mk.injEq] at hs <;>
      obtain ⟨rfl, rfl⟩ := hs <;> simp only [signalReturn] <;> split <;>
      simp_all [Pc.op, Pc.atInc, Pc.inWait]
  case sChkWaiters c i =>
    cases c <;> simp only [step, Option.some.injEq, Prod.mk.injEq] at hs <;>
      obtain ⟨rfl, rfl⟩ := hs <;> simp only [signalReturn] <;> split <;>
      simp_all [Pc.op, Pc.atInc, Pc.inWait]
  case sChkCount c i =>
    cases c <;> simp only [step, Option.some.injEq, Prod.mk.injEq] at hs <;>
      obtain ⟨rfl, rfl⟩ := hs <;> simp only [signalReturn] <;> split <;>
      simp_all [Pc.op, Pc.atInc, Pc.inWait]
  case sSlot c i =>
    cases c <;> simp only [step] at hs <;> split at hs <;>
      simp only [Option.some.injEq, Prod.mk.injEq] at hs <;>
      obtain ⟨rfl, rfl⟩ := hs <;> simp only [signalNext] <;> (try split) <;>
      simp_all [Pc.op, Pc.atInc, Pc.inWait]
  case sCas c i h =>
    cases c <;> simp only [step] at hs <;> split at hs <;>
      simp only [Option.some.injEq, Prod.mk.injEq] at hs <;>
      obtain ⟨rfl, rfl⟩ := hs <;> simp only [signalNext] <;> (try split) <;>
      simp_all [Pc.op, Pc.atInc, Pc.inWait]
  case sWake c h =>
    cases c <;> simp only [step, Option.some.injEq, Prod.mk.injEq] at hs <;>
      obtain ⟨rfl, rfl⟩ := hs <;> simp_all [Pc.op, Pc.atInc, Pc.inWait]
  case sDec c =>
    cases c <;> simp only [step, Option.some.injEq, Prod.mk.injEq] at hs <;>
      obtain ⟨rfl, rfl⟩ := hs <;> simp_all [Pc.op, Pc.atInc, Pc.inWait, signalReturn]
  case dStore => simp [Pc.op] at h1
  case dLoad => simp [Pc.op] at h1
  case wDec => simp at h2
  case wLoad =>
    simp only [step, Option.some.injEq, Prod.mk.injEq] at hs
    obtain ⟨rfl, rfl⟩ := hs
    simp only [afterLoad]
    split <;> simp_all [Pc.op, Pc.atInc, Pc.inWait]
  case wCas old =>
    simp only [step] at hs
    split at hs <;> simp only [Option.some.injEq, Prod.mk.injEq] at hs <;>
      obtain ⟨rfl, rfl⟩ := hs
    · rename_i heq
      simp only [Pc.oldPositive] at h3
      right; left
      refine ⟨rfl, rfl, rfl, rfl, by omega, ?_⟩
      simp only [size_dec_of_pos h3, heq]
    · simp only [afterLoad]
      split <;> simp_all [Pc.op, Pc.atInc, Pc.inWait]
  case wInc =>
    simp only [step, Option.some.injEq, Prod.mk.injEq] at hs
    obtain ⟨rfl, rfl⟩ := hs
    simp_all [Pc.op, Pc.atInc, Pc.inWait]
  case wCheck =>
    simp only [step, Option.some.injEq, Prod.mk.injEq] at hs
    obtain ⟨rfl, rfl⟩ := hs
    simp_all [Pc.op, Pc.atInc, Pc.inWait]
  case wSlot i =>
    simp only [step] at hs
    split at hs <;> simp only [Option.some.injEq, Prod.mk.injEq] at hs <;>
      obtain ⟨rfl, rfl⟩ := hs <;> simp only [waitNext] <;> (try split) <;>
      simp_all [Pc.op, Pc.atInc, Pc.inWait]
  case wRecheck i =>
    simp only [step, Option.some.injEq, Prod.mk.injEq] at hs
    obtain ⟨rfl, rfl⟩ := hs
    split <;> simp_all [Pc.op, Pc.atInc, Pc.inWait]
  case wAbort old =>
    simp only [step, Option.some.injEq, Prod.mk.injEq] at hs
    obtain ⟨rfl, rfl⟩ := hs
    simp_all [Pc.op, Pc.atInc, Pc.inWait]
  case wPublish i =>
    simp only [step] at hs
    split at hs <;> simp only [Option.some.injEq, Prod.mk.injEq] at hs <;>
      obtain ⟨rfl, rfl⟩ := hs <;> simp only [waitNext] <;> (try split) <;>
      simp_all [Pc.op, Pc.atInc, Pc.inWait, useSemaphore] <;> split <;> rfl
  case wPark =>
    simp only [step] at hs
    split at hs
    · exact Option.noConfusion hs
    · simp only [Option.some.injEq, Prod.mk.injEq] at hs
      obtain ⟨rfl, rfl⟩ := hs
      simp_all [Pc.op, Pc.atInc, Pc.inWait, useSemaphore]
      split <;> rfl

end DecomissionableFixedSizeLastInFirstOutSemaphore

namespace DecomissionableFixedSizeLastInFirstOutSemaphore

theorem noDecom_init (n : Nat) : NoDecom (Config.init n) := by
  refine ⟨rfl, ?_⟩
  intro t ht
  simp only [Config.init, List.mem_replicate] at ht
  obtain ⟨-, rfl⟩ := ht
  simp [Thread.fresh, Pc.op, Pc.oldPositive]

theorem tokenInv_init (n : Nat) : TokenInv 0 0 (Config.init n) := by
  simp [TokenInv, Config.init, threadsAt_replicate_idle, Pc.atInc, Pc.inWait, Pc.op, fresh]

theorem act_noDecom (c c' : Config) (a : Action) (h : c.act a = some c')
    (ha : a.calls .decomission = false) (hnd : NoDecom c) : NoDecom c' := by
  obtain ⟨hc, hall⟩ := hnd
  cases a with
  | call tid op =>
    obtain ⟨l1, al, l2, hts, -, rfl⟩ := act_call_decompose c c' tid op h
    rw [hts] at hall
    refine ⟨hc, ?_⟩
    intro t ht
    simp only [List.mem_append, List.mem_cons] at ht
    have hop : op ≠ .decomission := by simpa [Action.calls] using ha
    rcases ht with ht | rfl | ht
    · exact hall t (by simp [ht])
    · cases op <;> simp_all [Op.entry, Pc.op, Pc.oldPositive]
    · exact hall t (by simp [ht])
  | step tid =>
    obtain ⟨l1, t, l2, m', t', hts, -, hs, rfl⟩ := act_step_decompose c c' tid h
    rw [hts] at hall
    obtain ⟨h1, h2, h3⟩ := hall t (by simp)
    obtain ⟨hc', h1', h2', h3'⟩ := step_noDecom tid c.mem m' t t' hs hc h1 h2 h3
    refine ⟨hc', ?_⟩
    intro x hx
    simp only [List.mem_append, List.mem_cons] at hx
    rcases hx with hx | rfl | hx
    · exact hall x (by simp [hx])
    · exact ⟨h1', h2', h3'⟩
    · exact hall x (by simp [hx])

theorem act_tokenInv (S W : Nat) (c c' : Config) (a : Action) (h : c.act a = some c')
    (hnd : NoDecom c) (hinv : TokenInv S W c) :
    TokenInv (S + if a.calls .signal then 1 else 0) (W + if a.calls .wait then 1 else 0)
      c' := by
  obtain ⟨hc, hall⟩ := hnd
  cases a with
  | call tid op =>
    obtain ⟨l1, al, l2, hts, -, rfl⟩ := act_call_decompose c c' tid op h
    simp only [TokenInv, hts, threadsAt_append_cons] at hinv ⊢
    cases op <;>
      simp only [Action.calls, Op.entry, Pc.atInc, Pc.inWait, Pc.op, SIZE_MOD] at hinv ⊢ <;>
      simp at hinv ⊢ <;> omega
  | step tid =>
    obtain ⟨l1, t, l2, m', t', hts, -, hs, rfl⟩ := act_step_decompose c c' tid h
    rw [hts] at hall
    obtain ⟨h1, h2, h3⟩ := hall t (by simp)
    have hloc := step_token_local tid c.mem m' t t' hs hc h1 h2 h3
    simp only [TokenInv, hts, threadsAt_append_cons, Action.calls] at hinv ⊢
    rcases hloc with ⟨e1, e2, e3, e4, e5⟩ | ⟨e1, e2, e3, e4, e5, e6⟩ | ⟨e1, e2, e3⟩
    · rw [e1, e2] at hinv
      rw [e3, e4, e5]
      simp only [size_inc, SIZE_MOD] at hinv ⊢
      simp at hinv ⊢
      omega
    · rw [e1, e2] at hinv
      rw [e3, e4, e6]
      simp only [SIZE_MOD] at hinv ⊢
      simp at hinv ⊢
      omega
    · rw [e1, e2, e3]
      simpa using hinv

theorem run_tokenInv (acts : List Action) (S W : Nat) (c c' : Config)
    (h : c.run acts = some c') (hd : callsOf .decomission acts = 0)
    (hnd : NoDecom c) (hinv : TokenInv S W c) :
    NoDecom c' ∧ TokenInv (S + callsOf .signal acts) (W + callsOf .wait acts) c' := by
  induction acts generalizing c S W with
  | nil =>
    simp only [Config.run, Option.some.injEq] at h
    subst h
    exact ⟨hnd, by simpa [callsOf] using hinv⟩
  | cons a as ih =>
    simp only [Config.run] at h
    split at h
    · exact Option.noConfusion h
    · rename_i c1 h1
      have ha : a.calls .decomission = false := by
        by_contra hne
        simp only [callsOf, List.countP_cons] at hd
        simp only [Bool.not_eq_false] at hne
        rw [if_pos hne] at hd
        omega
      have hd' : callsOf .decomission as = 0 := by
        simp only [callsOf, List.countP_cons] at hd ⊢
        omega
      have := ih _ _ c1 h hd' (act_noDecom c c1 a h1 ha hnd) (act_tokenInv S W c c1 a h1 hnd hinv)
      refine ⟨this.1, ?_⟩
      have e1 : S + callsOf .signal (a :: as)
          = S + (if a.calls .signal then 1 else 0) + callsOf .signal as := by
        simp only [callsOf, List.countP_cons]
        omega
      have e2 : W + callsOf .wait (a :: as)
          = W + (if a.calls .wait then 1 else 0) + callsOf .wait as := by
        simp only [callsOf, List.countP_cons]
        omega
      rw [e1, e2]
      exact this.2

/-- The run `repeatSignal k` of a single thread on a memory without waiters. -/
theorem run_repeatSignal (a : Bool) (k : Nat) (m : Mem) (hw : m.waiters = 0)
    (hc : m.count ≤ SIZE_MAX) :
    (Config.mk m [⟨.idle, a⟩]).run (repeatSignal k)
      = some ⟨{ m with count := (m.count + k) % SIZE_MOD }, [⟨.idle, a⟩]⟩ := by
  induction k generalizing m with
  | zero =>
    have : m.count % SIZE_MOD = m.count := by
      simp only [SIZE_MAX, SIZE_MOD] at *
      omega
    simp [repeatSignal, Config.run, this]
  | succ k ih =>
    have h := ih { m with count := size_inc m.count } hw (size_inc_le _)
    have e : (size_inc m.count + k) % SIZE_MOD = (m.count + (k + 1)) % SIZE_MOD := by
      simp only [size_inc, SIZE_MOD]
      omega
    simp only [e] at h
    simp only [repeatSignal, Config.run, Config.act, List.get?, Op.entry, step, List.set,
      hw, Nat.lt_irrefl, if_false, signalReturn, if_true] at h ⊢
    exact h

theorem callsOf_repeatSignal (k : Nat) :
    callsOf .signal (repeatSignal k) = k ∧ callsOf .wait (repeatSignal k) = 0 ∧
      callsOf .decomission (repeatSignal k) = 0 := by
  induction k with
  | zero => simp [repeatSignal, callsOf]
  | succ k ih =>
    obtain ⟨h1, h2, h3⟩ := ih
    simp only [callsOf] at h1 h2 h3
    simp [repeatSignal, callsOf, List.countP_cons, Action.calls, h1, h2, h3]

end DecomissionableFixedSizeLastInFirstOutSemaphore

namespace DecomissionableFixedSizeLastInFirstOutSemaphore

/-! ## The slot array keeps its length -/

theorem useSemaphore_semaphores (tid : Nat) (m : Mem) (t : Thread) :
    (useSemaphore tid m t).semaphores = m.semaphores := by
  unfold useSemaphore
  split <;> rfl

theorem step_length (tid : Nat) (m m' : Mem) (t t' : Thread)
    (h : step tid m t = some (m', t')) : m'.semaphores.length = m.semaphores.length := by
  obtain ⟨pc, a⟩ := t
  have hu := useSemaphore_semaphores tid m ⟨pc, a⟩
  cases pc <;> simp only [step] at h
  all_goals (try split at h)
  all_goals (try simp only [Option.some.injEq, Prod.mk.injEq] at h)
  all_goals (try (obtain ⟨rfl, -⟩ := h))
  all_goals (try simp_all)

theorem act_length (c c' : Config) (a : Action) (h : c.act a = some c') :
    c'.mem.semaphores.length = c.mem.semaphores.length := by
  cases a with
  | call tid op =>
    obtain ⟨l1, al, l2, -, -, rfl⟩ := act_call_decompose c c' tid op h
    rfl
  | step tid =>
    obtain ⟨l1, t, l2, m', t', -, -, hs, rfl⟩ := act_step_decompose c c' tid h
    exact step_length tid c.mem m' t t' hs

theorem run_length (acts : List Action) (c c' : Config) (h : c.run acts = some c') :
    c'.mem.semaphores.length = c.mem.semaphores.length := by
  induction acts generalizing c with
  | nil =>
    simp only [Config.run, Option.some.injEq] at h
    subst h
    rfl
  | cons a as ih =>
    simp only [Config.run] at h
    split at h
    · exact Option.noConfusion h
    · rename_i c1 h1
      rw [ih c1 h, act_length c c1 a h1]

theorem act_threads_length (c c' : Config) (a : Action) (h : c.act a = some c') :
    c'.threads.length = c.threads.length := by
  cases a with
  | call tid op =>
    obtain ⟨l1, al, l2, hts, -, rfl⟩ := act_call_decompose c c' tid op h
    simp [hts]
  | step tid =>
    obtain ⟨l1, t, l2, m', t', hts, -, hs, rfl⟩ := act_step_decompose c c' tid h
    simp [hts]

/-! ## The scan of `wait()` -/

/-- The scan of `wait()` over the occupied slots `i`, ..., `j - 1`. -/
theorem wait_scan_skip (tid : Nat) (m : Mem) (a : Bool) (j : Nat) (hjN : j < SEMAPHORES)
    (d i : Nat) (hd : i + d = j) (hocc : ∀ k, i ≤ k → k < j → m.slot k ≠ none) :
    runThread tid d (m, ⟨.wSlot i, a⟩) = (m, ⟨.wSlot j, a⟩) := by
  induction d generalizing i with
  | zero =>
    have : i = j := by omega
    subst this
    rfl
  | succ d ih =>
    obtain ⟨v, hv⟩ := Option.ne_none_iff_exists'.mp (hocc i (le_refl _) (by omega))
    have hs : step tid m ⟨.wSlot i, a⟩ = some (m, ⟨.wSlot (i + 1), a⟩) := by
      simp only [step, hv, waitNext]
      rw [if_pos (by omega)]
    rw [runThread_step tid d _ _ hs]
    exact ih (i + 1) (by omega) (fun k h1 h2 => hocc k (by omega) h2)

/-- The slow path of `wait()` on a commissioned semaphore with `count = 0` whose first
empty slot is `j`: after `j + 6` steps the thread is at `_semaphore_->wait()`, `waiters` has
been incremented and slot `j` holds the kernel semaphore of the thread. -/
theorem wait_registers (tid : Nat) (m : Mem) (a : Bool) (j : Nat) (hjN : j < SEMAPHORES)
    (hc : m.count = 0) (hd : m.comissioned = true) (hj : m.slot j = none)
    (hocc : ∀ k, k < j → m.slot k ≠ none) :
    call tid .wait (j + 6) (m, ⟨.idle, a⟩)
      = ({ useSemaphore tid m ⟨.idle, a⟩ with
            waiters := size_inc m.waiters,
            semaphores := m.semaphores.set j (some tid) }, ⟨.wPark, true⟩) := by
  have e : j + 6 = 3 + (j + 3) := by omega
  have h3 : runThread tid 3 (m, ⟨.wLoad, a⟩)
      = ({ m with waiters := size_inc m.waiters }, ⟨.wSlot 0, a⟩) := by
    simp [runThread, step, afterLoad, hc, hd]
  have hscan := wait_scan_skip tid { m with waiters := size_inc m.waiters } a j hjN j 0
    (by omega) (fun k _ h2 => hocc k h2)
  have h3' : runThread tid 3 ({ m with waiters := size_inc m.waiters }, ⟨.wSlot j, a⟩)
      = ({ useSemaphore tid m ⟨.idle, a⟩ with
            waiters := size_inc m.waiters,
            semaphores := m.semaphores.set j (some tid) }, ⟨.wPark, true⟩) := by
    have hj0 : m.semaphores[j]?.getD none = none := by simpa [Mem.slot] using hj
    cases a <;> simp [runThread, step, useSemaphore, Mem.slot, hj0, hc]
  simp only [call, Op.entry]
  rw [e, runThread_add, h3, runThread_add, hscan, h3']

/-- The first empty slot, when there is an empty slot. -/
theorem exists_first_empty (m : Mem) (h : ∃ i, i < SEMAPHORES ∧ m.slot i = none) :
    ∃ j, j < SEMAPHORES ∧ m.slot j = none ∧ ∀ k, k < j → m.slot k ≠ none := by
  classical
  have hj := Nat.find_spec h
  refine ⟨Nat.find h, hj.1, hj.2, fun k hk hnone => ?_⟩
  exact Nat.find_min h hk ⟨by omega, hnone⟩

theorem fresh_slot (i : Nat) : fresh.slot i = none := by
  simp only [Mem.slot, fresh]
  by_cases hi : i < SEMAPHORES
  · simp [hi]
  · simp [List.getElem?_eq_none (l := List.replicate SEMAPHORES (none : Option Nat))
      (n := i) (by simpa using hi)]

/-- On the state `waiterRegistering` a `signal()` run alone never returns. -/
theorem waiterRegistering_spins (tid : Nat) (a : Bool) (fuel : Nat) :
    (call tid .signal fuel (waiterRegistering, ⟨.idle, a⟩)).2.pc ≠ .idle :=
  signal_body_spins tid waiterRegistering a .user (by decide) (by decide) fresh_slot fuel

end DecomissionableFixedSizeLastInFirstOutSemaphore

namespace DecomissionableKernelSemaphore

/-! ## Interleavings of the decomissionable kernel semaphore -/

theorem kernel_threads_decompose (ts : List Pc) (tid : Nat) (t : Pc)
    (h : ts.get? tid = some t) :
    ∃ l1 l2, ts = l1 ++ t :: l2 ∧ l1.length = tid ∧
      ∀ t', ts.set tid t' = l1 ++ t' :: l2 := by
  rw [List.get?_eq_getElem?, List.getElem?_eq_some] at h
  obtain ⟨hlt, rfl⟩ := h
  refine ⟨ts.take tid, ts.drop (tid + 1), ?_, ?_, ?_⟩
  · rw [← List.drop_eq_getElem_cons hlt, List.take_append_drop]
  · exact List.length_take_of_le (by omega)
  · intro t'
    rw [List.set_eq_take_append_cons_drop, if_pos hlt]

theorem kernel_act_step_decompose (c c' : Config) (tid : Nat)
    (h : c.act (.step tid) = some c') :
    ∃ l1 pc l2 m' pc', c.threads = l1 ++ pc :: l2 ∧ l1.length = tid ∧
      step c.mem pc = some (m', pc') ∧ c' = ⟨m', l1 ++ pc' :: l2⟩ := by
  simp only [Config.act] at h
  split at h
  · exact Option.noConfusion h
  · rename_i t ht
    split at h
    · exact Option.noConfusion h
    · rename_i m' t' hs
      obtain ⟨l1, l2, hts, hlen, hset⟩ := kernel_threads_decompose c.threads tid t ht
      simp only [Option.some.injEq] at h
      subst h
      exact ⟨l1, t, l2, m', t', hts, hlen, hs, by rw [hset]⟩

theorem kernel_act_call_decompose (c c' : Config) (tid : Nat) (op : Op)
    (h : c.act (.call tid op) = some c') :
    ∃ l1 l2, c.threads = l1 ++ .idle :: l2 ∧ l1.length = tid ∧
      c' = ⟨c.mem, l1 ++ op.entry :: l2⟩ := by
  simp only [Config.act] at h
  split at h
  · rename_i ht
    obtain ⟨l1, l2, hts, hlen, hset⟩ := kernel_threads_decompose c.threads tid _ ht
    simp only [Option.some.injEq] at h
    subst h
    exact ⟨l1, l2, hts, hlen, by rw [hset]⟩
  · exact Option.noConfusion h

theorem pcsAt_append_cons (p : Pc → Bool) (l1 l2 : List Pc) (t : Pc) :
    pcsAt p (l1 ++ t :: l2) = pcsAt p l1 + (if p t then 1 else 0) + pcsAt p l2 := by
  simp only [pcsAt, List.countP_append, List.countP_cons]
  omega

theorem pcsAt_le_length (p : Pc → Bool) (l : List Pc) : pcsAt p l ≤ l.length :=
  List.countP_le_length p

/-- Effect of one step on `waiters` and on whether the thread is between its increment and
its decrement. -/
theorem kernel_step_waiters (m m' : Mem) (pc pc' : Pc) (hs : step m pc = some (m', pc')) :
    (pc.counted = pc'.counted ∧ m'.waiters = m.waiters) ∨
    (pc.counted = false ∧ pc'.counted = true ∧ m'.waiters = size_inc m.waiters) ∨
    (pc.counted = true ∧ pc'.counted = false ∧ m'.waiters = size_dec m.waiters) := by
  cases pc
  case wInner =>
    simp only [step, KernelSemaphore.wait] at hs
    split at hs
    · exact Option.noConfusion hs
    · simp only [Option.some.injEq, Prod.mk.injEq] at hs
      obtain ⟨rfl, rfl⟩ := hs
      simp [Pc.counted]
  all_goals
    simp only [step, Option.some.injEq, Prod.mk.injEq] at hs
    try obtain ⟨rfl, rfl⟩ := hs
    try split
    all_goals simp_all [Pc.counted]

/-- Once the flag is cleared, a step does not increase the excess of the threads at the
inner wait over the value of the inner semaphore, and the flag stays cleared. -/
theorem kernel_step_deficit (m m' : Mem) (pc pc' : Pc) (hs : step m pc = some (m', pc'))
    (hd : m.comissioned = false) :
    m'.comissioned = false ∧
    (if pc'.atInner then 1 else 0) + m.semaphore ≤ (if pc.atInner then 1 else 0) + m'.semaphore := by
  cases pc
  case wInner =>
    simp only [step, KernelSemaphore.wait] at hs
    split at hs
    · exact Option.noConfusion hs
    · rename_i v hv
      simp only [Option.some.injEq, Prod.mk.injEq] at hs
      obtain ⟨rfl, rfl⟩ := hs
      simp only [Pc.atInner, hd, true_and]
      split at hv
      · simp only [Option.some.injEq] at hv
        subst hv
        simp
        omega
      · exact Option.noConfusion hv
  all_goals
    simp only [step, Option.some.injEq, Prod.mk.injEq] at hs
    try obtain ⟨rfl, rfl⟩ := hs
    try split
    all_goals simp_all [Pc.atInner, KernelSemaphore.signal]

end DecomissionableKernelSemaphore

namespace DecomissionableKernelSemaphore

theorem kernelInv_init (n : Nat) (hn : n ≤ SIZE_MAX) : KernelInv (Config.init n) := by
  refine ⟨by simpa [Config.init] using hn, ?_, ?_⟩
  · symm
    simp [Config.init, fresh, pcsAt, List.countP_eq_zero, Pc.counted]
  · intro pc hpc
    simp only [Config.init, List.mem_replicate] at hpc
    rw [hpc.2]
    trivial

theorem snapshotInv_mono (c c' : Config) (pc : Pc) (h : pc.snapshotInv c)
    (hd : c.mem.comissioned = false → c'.mem.comissioned = false ∧
      pcsAt Pc.atInner c'.threads + c.mem.semaphore
        ≤ pcsAt Pc.atInner c.threads + c'.mem.semaphore) :
    pc.snapshotInv c' := by
  cases pc
  case dLoad => exact (hd h).1
  case dSignal i =>
    obtain ⟨h1, h2, h3⟩ := h
    obtain ⟨h4, h5⟩ := hd h1
    exact ⟨h4, h2, by omega⟩
  all_goals trivial

theorem act_kernelInv (c c' : Config) (a : Action) (h : c.act a = some c')
    (hi : KernelInv c) : KernelInv c' := by
  obtain ⟨hlen, hw, hsnap⟩ := hi
  cases a with
  | call tid op =>
    obtain ⟨l1, l2, hts, -, rfl⟩ := kernel_act_call_decompose c c' tid op h
    rw [hts] at hlen hw
    refine ⟨by simpa using hlen, ?_, ?_⟩
    · simp only [hw, pcsAt_append_cons]
      cases op <;> simp [Op.entry, Pc.counted]
    · have hmono : ∀ pc : Pc, pc.snapshotInv c →
          pc.snapshotInv ⟨c.mem, l1 ++ op.entry :: l2⟩ := by
        intro pc hpc
        refine snapshotInv_mono c _ pc hpc (fun hd => ⟨hd, ?_⟩)
        simp only [hts, pcsAt_append_cons]
        cases op <;> simp [Op.entry, Pc.atInner]
      intro pc hpc
      simp only [List.mem_append, List.mem_cons] at hpc
      rcases hpc with hpc | rfl | hpc
      · exact hmono pc (hsnap pc (by rw [hts]; simp [hpc]))
      · cases op <;> trivial
      · exact hmono pc (hsnap pc (by rw [hts]; simp [hpc]))
  | step tid =>
    obtain ⟨l1, pc, l2, m', pc', hts, -, hs, rfl⟩ := kernel_act_step_decompose c c' tid h
    have hself := hsnap pc (by rw [hts]; simp)
    have hcnt1 : pcsAt Pc.counted l1 ≤ l1.length := pcsAt_le_length _ _
    have hcnt2 : pcsAt Pc.counted l2 ≤ l2.length := pcsAt_le_length _ _
    have hin : pcsAt Pc.atInner l1 + pcsAt Pc.atInner l2 ≤ pcsAt Pc.counted l1
        + pcsAt Pc.counted l2 := by
      have h1 : ∀ l : List Pc, pcsAt Pc.atInner l ≤ pcsAt Pc.counted l := by
        intro l
        refine List.countP_mono_left ?_
        intro x _ hx
        cases x <;> simp_all [Pc.atInner, Pc.counted]
      have := h1 l1
      have := h1 l2
      omega
    rw [hts] at hlen hw
    simp only [pcsAt_append_cons] at hw
    simp only [List.length_append, List.length_cons] at hlen
    have hdef : c.mem.comissioned = false → m'.comissioned = false ∧
        pcsAt Pc.atInner (l1 ++ pc' :: l2) + c.mem.semaphore
          ≤ pcsAt Pc.atInner c.threads + m'.semaphore := by
      intro hd
      obtain ⟨h1, h2⟩ := kernel_step_deficit c.mem m' pc pc' hs hd
      refine ⟨h1, ?_⟩
      simp only [hts, pcsAt_append_cons]
      omega
    refine ⟨by simpa using hlen, ?_, ?_⟩
    · simp only [pcsAt_append_cons]
      rcases kernel_step_waiters c.mem m' pc pc' hs with ⟨h1, h2⟩ | ⟨h1, h2, h3⟩ | ⟨h1, h2, h3⟩
      · rw [h2, hw, h1]
      · rw [h3, h2, size_inc]
        simp only [h1] at hw
        simp only [SIZE_MAX, SIZE_MOD] at hlen
        simp only [SIZE_MOD]
        simp only [Bool.false_eq_true, if_false, if_true] at hw ⊢
        omega
      · rw [h3, h2, size_dec]
        simp only [h1] at hw
        simp at hw ⊢
        rw [if_neg (by omega)]
        omega
    · intro q hq
      simp only [List.mem_append, List.mem_cons] at hq
      rcases hq with hq | rfl | hq
      · exact snapshotInv_mono c _ q (hsnap q (by rw [hts]; simp [hq])) hdef
      · cases pc
        case dStore =>
          simp only [step, Option.some.injEq, Prod.mk.injEq] at hs
          obtain ⟨rfl, rfl⟩ := hs
          rfl
        case dLoad =>
          simp only [step, Option.some.injEq, Prod.mk.injEq] at hs
          obtain ⟨rfl, rfl⟩ := hs
          split
          · rename_i hpos
            refine ⟨hself, hpos, ?_⟩
            simp only [pcsAt_append_cons, Pc.atInner]
            simp only [Pc.counted] at hw
            simp at hw ⊢
            omega
          · trivial
        case dSignal i =>
          obtain ⟨h1, h2, h3⟩ := hself
          simp only [step, Option.some.injEq, Prod.mk.injEq] at hs
          obtain ⟨rfl, rfl⟩ := hs
          split
          · rename_i hpos
            refine ⟨h1, hpos, ?_⟩
            simp only [hts, pcsAt_append_cons, Pc.atInner, KernelSemaphore.signal] at h3 ⊢
            simp only [size_dec, if_neg (show ¬ i = 0 by omega)]
            simp at h3 ⊢
            omega
          · trivial
        case wInner =>
          simp only [step, KernelSemaphore.wait] at hs
          split at hs
          · exact Option.noConfusion hs
          · simp only [Option.some.injEq, Prod.mk.injEq] at hs
            obtain ⟨rfl, rfl⟩ := hs
            trivial
        all_goals
          simp only [step, Option.some.injEq, Prod.mk.injEq] at hs
          obtain ⟨rfl, rfl⟩ := hs
          try split
          all_goals trivial
      · exact snapshotInv_mono c _ q (hsnap q (by rw [hts]; simp [hq])) hdef

theorem run_kernelInv (acts : List Action) (c c' : Config) (h : c.run acts = some c')
    (hi : KernelInv c) : KernelInv c' := by
  induction acts generalizing c with
  | nil =>
    simp only [Config.run, Option.some.injEq] at h
    exact h ▸ hi
  | cons a as ih =>
    simp only [Config.run] at h
    split at h
    · exact Option.noConfusion h
    · rename_i c1 h1
      exact ih c1 h (act_kernelInv c c1 a h1 hi)

theorem act_flushed (c c' : Config) (a : Action) (h : c.act a = some c')
    (hf : Flushed c) : Flushed c' := by
  obtain ⟨hd, hle⟩ := hf
  cases a with
  | call tid op =>
    obtain ⟨l1, l2, hts, -, rfl⟩ := kernel_act_call_decompose c c' tid op h
    refine ⟨hd, ?_⟩
    rw [hts] at hle
    simp only [pcsAt_append_cons] at hle ⊢
    cases op <;> simpa [Op.entry, Pc.atInner] using hle
  | step tid =>
    obtain ⟨l1, pc, l2, m', pc', hts, -, hs, rfl⟩ := kernel_act_step_decompose c c' tid h
    obtain ⟨h1, h2⟩ := kernel_step_deficit c.mem m' pc pc' hs hd
    refine ⟨h1, ?_⟩
    rw [hts] at hle
    simp only [pcsAt_append_cons] at hle ⊢
    omega

theorem run_flushed (acts : List Action) (c c' : Config) (h : c.run acts = some c')
    (hf : Flushed c) : Flushed c' := by
  induction acts generalizing c with
  | nil =>
    simp only [Config.run, Option.some.injEq] at h
    exact h ▸ hf
  | cons a as ih =>
    simp only [Config.run] at h
    split at h
    · exact Option.noConfusion h
    · rename_i c1 h1
      exact ih c1 h (act_flushed c c1 a h1 hf)

/-- The step with which a call of `decomission()` returns leaves the semaphore flushed. -/
theorem decomission_return_flushed (c c' : Config) (l1 l2 : List Pc) (pc : Pc)
    (m' : Mem) (hi : KernelInv c) (hts : c.threads = l1 ++ pc :: l2)
    (hs : step c.mem pc = some (m', .idle)) (hpc : pc = .dLoad ∨ ∃ i, pc = .dSignal i)
    (hc : c' = ⟨m', l1 ++ .idle :: l2⟩) : Flushed c' := by
  obtain ⟨hlen, hw, hsnap⟩ := hi
  have hself := hsnap pc (by rw [hts]; simp)
  have hin : pcsAt Pc.atInner l1 + pcsAt Pc.atInner l2 ≤ pcsAt Pc.counted l1
      + pcsAt Pc.counted l2 := by
    have h1 : ∀ l : List Pc, pcsAt Pc.atInner l ≤ pcsAt Pc.counted l := by
      intro l
      refine List.countP_mono_left ?_
      intro x _ hx
      cases x <;> simp_all [Pc.atInner, Pc.counted]
    have := h1 l1
    have := h1 l2
    omega
  subst hc
  rcases hpc with rfl | ⟨i, rfl⟩
  · simp only [step, Option.some.injEq, Prod.mk.injEq] at hs
    obtain ⟨rfl, hs2⟩ := hs
    split at hs2
    · exact Pc.noConfusion hs2
    · rename_i hz
      refine ⟨hself, ?_⟩
      rw [hts] at hw
      simp only [pcsAt_append_cons, Pc.atInner, Pc.counted] at hw ⊢
      simp at hw ⊢
      omega
  · obtain ⟨h1, h2, h3⟩ := hself
    simp only [step, Option.some.injEq, Prod.mk.injEq] at hs
    obtain ⟨rfl, hs2⟩ := hs
    split at hs2
    · exact Pc.noConfusion hs2
    · rename_i hz
      refine ⟨h1, ?_⟩
      rw [hts] at h3
      simp only [size_dec, if_neg (show ¬ i = 0 by omega)] at hz
      simp only [pcsAt_append_cons, Pc.atInner, KernelSemaphore.signal] at h3 ⊢
      simp at h3 ⊢
      omega

end DecomissionableKernelSemaphore

theorem get?_append_cons_length {α : Type} (l1 l2 : List α) (x : α) :
    (l1 ++ x :: l2).get? l1.length = some x := by
  rw [List.get?_eq_getElem?, List.getElem?_append_right (le_refl _)]
  simp

namespace DecomissionableFixedSizeLastInFirstOutSemaphore

/-! ## Invariants of all interleavings -/

theorem step_indexOk (tid : Nat) (m m' : Mem) (t t' : Thread)
    (hs : step tid m t = some (m', t')) (h : t.pc.indexOk) : t'.pc.indexOk := by
  obtain ⟨pc, a⟩ := t
  cases pc
  case idle =>
    simp [step] at hs
  case sInc c =>
    cases c <;> simp only [step, Option.some.injEq, Prod.mk.injEq] at hs <;>
      obtain ⟨rfl, rfl⟩ := hs <;> simp_all [Pc.indexOk, SEMAPHORES]
  case sWaiters c =>
    cases c <;> simp only [step, Option.some.injEq, Prod.mk.injEq] at hs <;>
      obtain ⟨rfl, rfl⟩ := hs <;> simp only [signalReturn] <;> (try split_ifs) <;>
      simp_all [Pc.indexOk, SEMAPHORES]
  case sCount c =>
    cases c <;> simp only [step, Option.some.injEq, Prod.mk.injEq] at hs <;>
      obtain ⟨rfl, rfl⟩ := hs <;> simp only [signalReturn] <;> (try split_ifs) <;>
      simp_all [Pc.indexOk, SEMAPHORES]
  case sChkWaiters c i =>
    cases c <;> simp only [step, Option.some.injEq, Prod.mk.injEq] at hs <;>
      obtain ⟨rfl, rfl⟩ := hs <;> simp only [signalReturn] <;> (try split_ifs) <;>
      simp_all [Pc.indexOk, SEMAPHORES]
  case sChkCount c i =>
    cases c <;> simp only [step, Option.some.injEq, Prod.mk.injEq] at hs <;>
      obtain ⟨rfl, rfl⟩ := hs <;> simp only [signalReturn] <;> (try split_ifs) <;>
      simp_all [Pc.indexOk, SEMAPHORES]
  case sSlot c i =>
    cases c <;> simp only [step] at hs <;> split at hs <;>
      simp only [Option.some.injEq, Prod.mk.injEq] at hs <;>
      obtain ⟨rfl, rfl⟩ := hs <;> simp only [signalNext] <;> (try split) <;>
      simp_all [Pc.indexOk, SEMAPHORES]
  case sCas c i h =>
    cases c <;> simp only [step] at hs <;> split at hs <;>
      simp only [Option.some.injEq, Prod.mk.injEq] at hs <;>
      obtain ⟨rfl, rfl⟩ := hs <;> simp only [signalNext] <;> (try split) <;>
      simp_all [Pc.indexOk, SEMAPHORES]
  case sWake c h =>
    cases c <;> simp only [step, Option.some.injEq, Prod.mk.injEq] at hs <;>
      obtain ⟨rfl, rfl⟩ := hs <;> simp_all [Pc.indexOk, SEMAPHORES]
  case sDec c =>
    cases c <;> simp only [step, Option.some.injEq, Prod.mk.injEq] at hs <;>
      obtain ⟨rfl, rfl⟩ := hs <;> simp only [signalReturn] <;> (try split_ifs) <;>
      simp_all [Pc.indexOk, SEMAPHORES]
  case dStore =>
    simp only [step, Option.some.injEq, Prod.mk.injEq] at hs
    obtain ⟨rfl, rfl⟩ := hs
    simp_all [Pc.indexOk, SEMAPHORES]
  case dLoad =>
    simp only [step, Option.some.injEq, Prod.mk.injEq] at hs
    obtain ⟨rfl, rfl⟩ := hs
    split <;> simp_all [Pc.indexOk, SEMAPHORES]
  case wDec =>
    simp only [step, Option.some.injEq, Prod.mk.injEq] at hs
    obtain ⟨rfl, rfl⟩ := hs
    simp_all [Pc.indexOk, SEMAPHORES]
  case wLoad =>
    simp only [step, Option.some.injEq, Prod.mk.injEq] at hs
    obtain ⟨rfl, rfl⟩ := hs
    simp only [afterLoad]
    split <;> simp_all [Pc.indexOk, SEMAPHORES]
  case wCas old =>
    simp only [step] at hs
    split at hs <;> simp only [Option.some.injEq, Prod.mk.injEq] at hs <;>
      obtain ⟨rfl, rfl⟩ := hs
    · simp_all [Pc.indexOk, SEMAPHORES]
    · simp only [afterLoad]
      split <;> simp_all [Pc.indexOk, SEMAPHORES]
  case wInc =>
    simp only [step, Option.some.injEq, Prod.mk.injEq] at hs
    obtain ⟨rfl, rfl⟩ := hs
    simp_all [Pc.indexOk, SEMAPHORES]
  case wCheck =>
    simp only [step, Option.some.injEq, Prod.mk.injEq] at hs
    obtain ⟨rfl, rfl⟩ := hs
    split <;> simp_all [Pc.indexOk, SEMAPHORES]
  case wSlot i =>
    simp only [step] at hs
    split at hs <;> simp only [Option.some.injEq, Prod.mk.injEq] at hs <;>
      obtain ⟨rfl, rfl⟩ := hs <;> simp only [waitNext] <;> (try split) <;>
      simp_all [Pc.indexOk, SEMAPHORES]
  case wRecheck i =>
    simp only [step, Option.some.injEq, Prod.mk.injEq] at hs
    obtain ⟨rfl, rfl⟩ := hs
    split <;> simp_all [Pc.indexOk, SEMAPHORES]
  case wAbort old =>
    simp only [step, Option.some.injEq, Prod.mk.injEq] at hs
    obtain ⟨rfl, rfl⟩ := hs
    simp_all [Pc.indexOk, SEMAPHORES]
  case wPublish i =>
    simp only [step] at hs
    split at hs <;> simp only [Option.some.injEq, Prod.mk.injEq] at hs <;>
      obtain ⟨rfl, rfl⟩ := hs <;> simp only [waitNext] <;> (try split) <;>
      simp_all [Pc.indexOk, SEMAPHORES]
  case wPark =>
    simp only [step] at hs
    split at hs
    · exact Option.noConfusion hs
    · simp only [Option.some.injEq, Prod.mk.injEq] at hs
      obtain ⟨rfl, rfl⟩ := hs
      simp_all [Pc.indexOk, SEMAPHORES]

theorem step_oldPositive (tid : Nat) (m m' : Mem) (t t' : Thread)
    (hs : step tid m t = some (m', t')) (h : t.pc.oldPositive) : t'.pc.oldPositive := by
  obtain ⟨pc, a⟩ := t
  cases pc
  case idle =>
    simp [step] at hs
  case sInc c =>
    cases c <;> simp only [step, Option.some.injEq, Prod.mk.injEq] at hs <;>
      obtain ⟨rfl, rfl⟩ := hs <;> simp_all [Pc.oldPositive]
  case sWaiters c =>
    cases c <;> simp only [step, Option.some.injEq, Prod.mk.injEq] at hs <;>
      obtain ⟨rfl, rfl⟩ := hs <;> simp only [signalReturn] <;> (try split_ifs) <;>
      simp_all [Pc.oldPositive]
  case sCount c =>
    cases c <;> simp only [step, Option.some.injEq, Prod.mk.injEq] at hs <;>
      obtain ⟨rfl, rfl⟩ := hs <;> simp only [signalReturn] <;> (try split_ifs) <;>
      simp_all [Pc.oldPositive]
  case sChkWaiters c i =>
    cases c <;> simp only [step, Option.some.injEq, Prod.mk.injEq] at hs <;>
      obtain ⟨rfl, rfl⟩ := hs <;> simp only [signalReturn] <;> (try split_ifs) <;>
      simp_all [Pc.oldPositive]
  case sChkCount c i =>
    cases c <;> simp only [step, Option.some.injEq, Prod.mk.injEq] at hs <;>
      obtain ⟨rfl, rfl⟩ := hs <;> simp only [signalReturn] <;> (try split_ifs) <;>
      simp_all [Pc.oldPositive]
  case sSlot c i =>
    cases c <;> simp only [step] at hs <;> split at hs <;>
      simp only [Option.some.injEq, Prod.mk.injEq] at hs <;>
      obtain ⟨rfl, rfl⟩ := hs <;> simp only [signalNext] <;> (try split) <;>
      simp_all [Pc.oldPositive]
  case sCas c i h =>
    cases c <;> simp only [step] at hs <;> split at hs <;>
      simp only [Option.some.injEq, Prod.mk.injEq] at hs <;>
      obtain ⟨rfl, rfl⟩ := hs <;> simp only [signalNext] <;> (try split) <;>
      simp_all [Pc.oldPositive]
  case sWake c h =>
    cases c <;> simp only [step, Option.some.injEq, Prod.mk.injEq] at hs <;>
      obtain ⟨rfl, rfl⟩ := hs <;> simp_all [Pc.oldPositive]
  case sDec c =>
    cases c <;> simp only [step, Option.some.injEq, Prod.mk.injEq] at hs <;>
      obtain ⟨rfl, rfl⟩ := hs <;> simp only [signalReturn] <;> (try split_ifs) <;>
      simp_all [Pc.oldPositive]
  case dStore =>
    simp only [step, Option.some.injEq, Prod.mk.injEq] at hs
    obtain ⟨rfl, rfl⟩ := hs
    simp_all [Pc.oldPositive]
  case dLoad =>
    simp only [step, Option.some.injEq, Prod.mk.injEq] at hs
    obtain ⟨rfl, rfl⟩ := hs
    split <;> simp_all [Pc.oldPositive]
  case wDec =>
    simp only [step, Option.some.injEq, Prod.mk.injEq] at hs
    obtain ⟨rfl, rfl⟩ := hs
    simp_all [Pc.oldPositive]
  case wLoad =>
    simp only [step, Option.some.injEq, Prod.mk.injEq] at hs
    obtain ⟨rfl, rfl⟩ := hs
    simp only [afterLoad]
    split <;> simp_all [Pc.oldPositive]
  case wCas old =>
    simp only [step] at hs
    split at hs <;> simp only [Option.some.injEq, Prod.mk.injEq] at hs <;>
      obtain ⟨rfl, rfl⟩ := hs
    · simp_all [Pc.oldPositive]
    · simp only [afterLoad]
      split <;> simp_all [Pc.oldPositive]
  case wInc =>
    simp only [step, Option.some.injEq, Prod.mk.injEq] at hs
    obtain ⟨rfl, rfl⟩ := hs
    simp_all [Pc.oldPositive]
  case wCheck =>
    simp only [step, Option.some.injEq, Prod.mk.injEq] at hs
    obtain ⟨rfl, rfl⟩ := hs
    split <;> simp_all [Pc.oldPositive]
  case wSlot i =>
    simp only [step] at hs
    split at hs <;> simp only [Option.some.injEq, Prod.mk.injEq] at hs <;>
      obtain ⟨rfl, rfl⟩ := hs <;> simp only [waitNext] <;> (try split) <;>
      simp_all [Pc.oldPositive]
  case wRecheck i =>
    simp only [step, Option.some.injEq, Prod.mk.injEq] at hs
    obtain ⟨rfl, rfl⟩ := hs
    split <;> simp_all [Pc.oldPositive]
  case wAbort old =>
    simp only [step, Option.some.injEq, Prod.mk.injEq] at hs
    obtain ⟨rfl, rfl⟩ := hs
    simp_all [Pc.oldPositive]
  case wPublish i =>
    simp only [step] at hs
    split at hs <;> simp only [Option.some.injEq, Prod.mk.injEq] at hs <;>
      obtain ⟨rfl, rfl⟩ := hs <;> simp only [waitNext] <;> (try split) <;>
      simp_all [Pc.oldPositive]
  case wPark =>
    simp only [step] at hs
    split at hs
    · exact Option.noConfusion hs
    · simp only [Option.some.injEq, Prod.mk.injEq] at hs
      obtain ⟨rfl, rfl⟩ := hs
      simp_all [Pc.oldPositive]

end DecomissionableFixedSizeLastInFirstOutSemaphore

namespace DecomissionableFixedSizeLastInFirstOutSemaphore

theorem occupied_set_some (m : Mem) (j x : Nat) (hj : m.slot j = none)
    (hlt : j < m.semaphores.length) :
    (m.semaphores.set j (some x)).countP Option.isSome = occupied m + 1 := by
  have e := slot_eq_getElem m j hlt
  rw [hj] at e
  rw [List.countP_set _ _ _ _ hlt, ← e]
  simp [occupied]

theorem slotsOf_set_some (m : Mem) (j x : Nat) (hj : m.slot j = none)
    (hlt : j < m.semaphores.length) (h : Nat) :
    (m.semaphores.set j (some x)).count (some h)
      = slotsOf m h + (if x = h then 1 else 0) := by
  have e := slot_eq_getElem m j hlt
  rw [hj] at e
  rw [List.count_set _ _ _ _ hlt, ← e]
  simp [slotsOf]

theorem useSemaphore_waiters (tid : Nat) (m : Mem) (t : Thread) :
    (useSemaphore tid m t).waiters = m.waiters := by
  unfold useSemaphore
  split <;> rfl

theorem useSemaphore_count (tid : Nat) (m : Mem) (t : Thread) :
    (useSemaphore tid m t).count = m.count := by
  unfold useSemaphore
  split <;> rfl

theorem useSemaphore_slot (tid : Nat) (m : Mem) (t : Thread) (i : Nat) :
    (useSemaphore tid m t).slot i = m.slot i := by
  unfold useSemaphore
  split <;> rfl

theorem useSemaphore_occupied (tid : Nat) (m : Mem) (t : Thread) :
    occupied (useSemaphore tid m t) = occupied m := by
  unfold useSemaphore
  split <;> rfl

theorem useSemaphore_slotsOf (tid : Nat) (m : Mem) (t : Thread) (h : Nat) :
    slotsOf (useSemaphore tid m t) h = slotsOf m h := by
  unfold useSemaphore
  split <;> rfl

/-- Constructing the kernel semaphore of a thread that holds no signal changes nothing. -/
theorem useSemaphore_eq_self (tid : Nat) (m : Mem) (t : Thread) (h : m.ksem tid = 0) :
    useSemaphore tid m t = m := by
  unfold useSemaphore
  split
  · rfl
  · have : Function.update m.ksem tid KernelSemaphore.init = m.ksem := by
      have h0 : KernelSemaphore.init = m.ksem tid := h.symm
      rw [h0]
      exact Function.update_eq_self tid m.ksem
    rw [this]

end DecomissionableFixedSizeLastInFirstOutSemaphore

namespace DecomissionableFixedSizeLastInFirstOutSemaphore

/-- Effect of one step on `waiters`, on the occupied slots and on whether the thread accounts
for one unit of `waiters`: the `fetch_add` of `wait()`, a `fetch_sub`, the compare-and-set
that publishes a kernel semaphore, the compare-and-set that empties a slot, or a step that
changes none of them. -/
theorem step_waiters_local (tid : Nat) (m m' : Mem) (t t' : Thread)
    (hs : step tid m t = some (m', t')) (hlen : m.semaphores.length = SEMAPHORES)
    (hidx : t.pc.indexOk) :
    (t.pc.incrementsWaiters = true ∧ t.pc.decrementsWaiters = false ∧
      t.pc.accounted = false ∧ t'.pc.accounted = true ∧
      m'.waiters = size_inc m.waiters ∧ occupied m' = occupied m) ∨
    (t.pc.incrementsWaiters = false ∧ t.pc.decrementsWaiters = true ∧
      t.pc.accounted = true ∧ t'.pc.accounted = false ∧
      m'.waiters = size_dec m.waiters ∧ occupied m' = occupied m) ∨
    (t.pc.incrementsWaiters = false ∧ t.pc.decrementsWaiters = false ∧
      t.pc.accounted = true ∧ t'.pc.accounted = false ∧
      m'.waiters = m.waiters ∧ occupied m' = occupied m + 1) ∨
    (t.pc.incrementsWaiters = false ∧ t.pc.decrementsWaiters = false ∧
      t.pc.accounted = false ∧ t'.pc.accounted = true ∧
      m'.waiters = m.waiters ∧ occupied m' + 1 = occupied m) ∨
    (t.pc.incrementsWaiters = false ∧ t.pc.decrementsWaiters = false ∧
      t'.pc.accounted = t.pc.accounted ∧
      m'.waiters = m.waiters ∧ occupied m' = occupied m) := by
  obtain ⟨pc, a⟩ := t
  cases pc
  case idle =>
    simp [step] at hs
  case sInc c =>
    cases c <;> simp only [step, Option.some.injEq, Prod.mk.injEq] at hs <;>
      obtain ⟨rfl, rfl⟩ := hs <;> simp_all [Pc.accounted, Pc.incrementsWaiters, Pc.decrementsWaiters, occupied]
  case sWaiters c =>
    cases c <;> simp only [step, Option.some.injEq, Prod.mk.injEq] at hs <;>
      obtain ⟨rfl, rfl⟩ := hs <;> simp only [signalReturn] <;> (try split_ifs) <;>
      simp_all [Pc.accounted, Pc.incrementsWaiters, Pc.decrementsWaiters, occupied]
  case sCount c =>
    cases c <;> simp only [step, Option.some.injEq, Prod.mk.injEq] at hs <;>
      obtain ⟨rfl, rfl⟩ := hs <;> simp only [signalReturn] <;> (try split_ifs) <;>
      simp_all [Pc.accounted, Pc.incrementsWaiters, Pc.decrementsWaiters, occupied]
  case sChkWaiters c i =>
    cases c <;> simp only [step, Option.some.injEq, Prod.mk.injEq] at hs <;>
      obtain ⟨rfl, rfl⟩ := hs <;> simp only [signalReturn] <;> (try split_ifs) <;>
      simp_all [Pc.accounted, Pc.incrementsWaiters, Pc.decrementsWaiters, occupied]
  case sChkCount c i =>
    cases c <;> simp only [step, Option.some.injEq, Prod.mk.injEq] at hs <;>
      obtain ⟨rfl, rfl⟩ := hs <;> simp only [signalReturn] <;> (try split_ifs) <;>
      simp_all [Pc.accounted, Pc.incrementsWaiters, Pc.decrementsWaiters, occupied]
  case sSlot c i =>
    cases c <;> simp only [step] at hs <;> split at hs <;>
      simp only [Option.some.injEq, Prod.mk.injEq] at hs <;>
      obtain ⟨rfl, rfl⟩ := hs <;> simp only [signalNext] <;> (try split) <;>
      simp_all [Pc.accounted, Pc.incrementsWaiters, Pc.decrementsWaiters, occupied]
  case sCas c i h =>
    simp only [step] at hs
    split at hs
    · rename_i hslot
      simp only [Option.some.injEq, Prod.mk.injEq] at hs
      obtain ⟨rfl, rfl⟩ := hs
      have := occupied_set_none m i h hslot
      simp_all [Pc.accounted, Pc.incrementsWaiters, Pc.decrementsWaiters, occupied]
    · simp only [Option.some.injEq, Prod.mk.injEq] at hs
      obtain ⟨rfl, rfl⟩ := hs
      simp only [signalNext]
      split <;> simp_all [Pc.accounted, Pc.incrementsWaiters, Pc.decrementsWaiters, occupied]
  case sWake c h =>
    cases c <;> simp only [step, Option.some.injEq, Prod.mk.injEq] at hs <;>
      obtain ⟨rfl, rfl⟩ := hs <;> simp_all [Pc.accounted, Pc.incrementsWaiters, Pc.decrementsWaiters, occupied]
  case sDec c =>
    cases c <;> simp only [step, Option.some.injEq, Prod.mk.injEq] at hs <;>
      obtain ⟨rfl, rfl⟩ := hs <;> simp only [signalReturn] <;> (try split_ifs) <;>
      simp_all [Pc.accounted, Pc.incrementsWaiters, Pc.decrementsWaiters, occupied]
  case dStore =>
    simp only [step, Option.some.injEq, Prod.mk.injEq] at hs
    obtain ⟨rfl, rfl⟩ := hs
    simp_all [Pc.accounted, Pc.incrementsWaiters, Pc.decrementsWaiters, occupied]
  case dLoad =>
    simp only [step, Option.some.injEq, Prod.mk.injEq] at hs
    obtain ⟨rfl, rfl⟩ := hs
    split <;> simp_all [Pc.accounted, Pc.incrementsWaiters, Pc.decrementsWaiters, occupied]
  case wDec =>
    simp only [step, Option.some.injEq, Prod.mk.injEq] at hs
    obtain ⟨rfl, rfl⟩ := hs
    simp_all [Pc.accounted, Pc.incrementsWaiters, Pc.decrementsWaiters, occupied]
  case wLoad =>
    simp only [step, Option.some.injEq, Prod.mk.injEq] at hs
    obtain ⟨rfl, rfl⟩ := hs
    simp only [afterLoad]
    split <;> simp_all [Pc.accounted, Pc.incrementsWaiters, Pc.decrementsWaiters, occupied]
  case wCas old =>
    simp only [step] at hs
    split at hs <;> simp only [Option.some.injEq, Prod.mk.injEq] at hs <;>
      obtain ⟨rfl, rfl⟩ := hs
    · simp_all [Pc.accounted, Pc.incrementsWaiters, Pc.decrementsWaiters, occupied]
    · simp only [afterLoad]
      split <;> simp_all [Pc.accounted, Pc.incrementsWaiters, Pc.decrementsWaiters, occupied]
  case wInc =>
    simp only [step, Option.some.injEq, Prod.mk.injEq] at hs
    obtain ⟨rfl, rfl⟩ := hs
    simp_all [Pc.accounted, Pc.incrementsWaiters, Pc.decrementsWaiters, occupied]
  case wCheck =>
    simp only [step, Option.some.injEq, Prod.mk.injEq] at hs
    obtain ⟨rfl, rfl⟩ := hs
    split <;> simp_all [Pc.accounted, Pc.incrementsWaiters, Pc.decrementsWaiters, occupied]
  case wSlot i =>
    simp only [step] at hs
    split at hs <;> simp only [Option.some.injEq, Prod.mk.injEq] at hs <;>
      obtain ⟨rfl, rfl⟩ := hs <;> simp only [waitNext] <;> (try split) <;>
      simp_all [Pc.accounted, Pc.incrementsWaiters, Pc.decrementsWaiters, occupied]
  case wRecheck i =>
    simp only [step, Option.some.injEq, Prod.mk.injEq] at hs
    obtain ⟨rfl, rfl⟩ := hs
    split <;> simp_all [Pc.accounted, Pc.incrementsWaiters, Pc.decrementsWaiters, occupied]
  case wAbort old =>
    simp only [step, Option.some.injEq, Prod.mk.injEq] at hs
    obtain ⟨rfl, rfl⟩ := hs
    simp_all [Pc.accounted, Pc.incrementsWaiters, Pc.decrementsWaiters, occupied]
  case wPublish i =>
    have hu1 := useSemaphore_waiters tid m ⟨.wPublish i, a⟩
    have hu2 := useSemaphore_occupied tid m ⟨.wPublish i, a⟩
    have hu3 := useSemaphore_semaphores tid m ⟨.wPublish i, a⟩
    simp only [step] at hs
    split at hs
    · rename_i hslot
      simp only [Option.some.injEq, Prod.mk.injEq] at hs
      obtain ⟨rfl, rfl⟩ := hs
      have hlt : i < (useSemaphore tid m ⟨.wPublish i, a⟩).semaphores.length := by
        rw [hu3, hlen]
        exact hidx
      have := occupied_set_some _ i tid hslot hlt
      simp_all [Pc.accounted, Pc.incrementsWaiters, Pc.decrementsWaiters, occupied]
    · simp only [Option.some.injEq, Prod.mk.injEq] at hs
      obtain ⟨rfl, rfl⟩ := hs
      simp only [waitNext]
      split <;> simp_all [Pc.accounted, Pc.incrementsWaiters, Pc.decrementsWaiters, occupied]
  case wPark =>
    have hu1 := useSemaphore_waiters tid m ⟨.wPark, a⟩
    have hu2 := useSemaphore_occupied tid m ⟨.wPark, a⟩
    simp only [step] at hs
    split at hs
    · exact Option.noConfusion hs
    · simp only [Option.some.injEq, Prod.mk.injEq] at hs
      obtain ⟨rfl, rfl⟩ := hs
      simp_all [Pc.accounted, Pc.incrementsWaiters, Pc.decrementsWaiters, occupied]

end DecomissionableFixedSizeLastInFirstOutSemaphore

namespace DecomissionableFixedSizeLastInFirstOutSemaphore

theorem threadsAt_le_length (p : Pc → Bool) (l : List Thread) : threadsAt p l ≤ l.length :=
  List.countP_le_length _

theorem scanInv_init (n : Nat) : ScanInv (Config.init n) := by
  refine ⟨by simp [Config.init, fresh], ?_⟩
  intro t ht
  simp only [Config.init, List.mem_replicate] at ht
  rw [ht.2]
  trivial

theorem act_scanInv (c c' : Config) (a : Action) (h : c.act a = some c')
    (hi : ScanInv c) : ScanInv c' := by
  obtain ⟨hlen, hidx⟩ := hi
  refine ⟨by rw [act_length c c' a h, hlen], ?_⟩
  cases a with
  | call tid op =>
    obtain ⟨l1, al, l2, hts, -, rfl⟩ := act_call_decompose c c' tid op h
    intro t ht
    simp only [List.mem_append, List.mem_cons] at ht
    rcases ht with ht | rfl | ht
    · exact hidx t (by rw [hts]; simp [ht])
    · cases op <;> trivial
    · exact hidx t (by rw [hts]; simp [ht])
  | step tid =>
    obtain ⟨l1, t0, l2, m', t1, hts, -, hs, rfl⟩ := act_step_decompose c c' tid h
    intro t ht
    simp only [List.mem_append, List.mem_cons] at ht
    rcases ht with ht | rfl | ht
    · exact hidx t (by rw [hts]; simp [ht])
    · exact step_indexOk tid c.mem m' t0 t hs (hidx t0 (by rw [hts]; simp))
    · exact hidx t (by rw [hts]; simp [ht])

theorem run_scanInv (acts : List Action) (c c' : Config) (h : c.run acts = some c')
    (hi : ScanInv c) : ScanInv c' := by
  induction acts generalizing c with
  | nil =>
    simp only [Config.run, Option.some.injEq] at h
    exact h ▸ hi
  | cons a as ih =>
    simp only [Config.run] at h
    split at h
    · exact Option.noConfusion h
    · rename_i c1 h1
      exact ih c1 h (act_scanInv c c1 a h1 hi)

theorem waitersInv_init (n : Nat) (hn : n + SEMAPHORES ≤ SIZE_MAX) :
    WaitersInv (Config.init n) := by
  refine ⟨by simpa [Config.init] using hn, ?_⟩
  have h1 : threadsAt Pc.accounted (Config.init n).threads = 0 :=
    threadsAt_replicate_idle Pc.accounted rfl n
  have h2 : occupied (Config.init n).mem = 0 := by
    simp [occupied, Config.init, fresh, List.countP_eq_zero]
  rw [h1, h2]
  rfl

/-- One action keeps `WaitersInv`, and `waiters` changes by the exact number of increments
minus decrements taken. -/
theorem act_waitersInv (c c' : Config) (a : Action) (h : c.act a = some c')
    (hsc : ScanInv c) (hi : WaitersInv c) :
    WaitersInv c' ∧
    c'.mem.waiters + stepAt Pc.decrementsWaiters c a
      = c.mem.waiters + stepAt Pc.incrementsWaiters c a := by
  obtain ⟨hn, hw⟩ := hi
  have hlen' := act_threads_length c c' a h
  cases a with
  | call tid op =>
    obtain ⟨l1, al, l2, hts, -, rfl⟩ := act_call_decompose c c' tid op h
    refine ⟨⟨by rw [hlen']; exact hn, ?_⟩, rfl⟩
    rw [hts] at hw
    simp only [threadsAt_append_cons] at hw ⊢
    rw [hw]
    cases op <;> simp [Op.entry, Pc.accounted]
  | step tid =>
    obtain ⟨l1, t0, l2, m', t1, hts, hl1, hs, rfl⟩ := act_step_decompose c c' tid h
    have hget : c.threads.get? tid = some t0 := by
      rw [hts, ← hl1]
      exact get?_append_cons_length l1 l2 t0
    have hb1 := threadsAt_le_length Pc.accounted l1
    have hb2 := threadsAt_le_length Pc.accounted l2
    rw [hts] at hn hw
    simp only [List.length_append, List.length_cons] at hn
    simp only [threadsAt_append_cons] at hw
    have hloc := step_waiters_local tid c.mem m' t0 t1 hs hsc.1
      (hsc.2 t0 (by rw [hts]; simp))
    simp only [stepAt, hget, WaitersInv, threadsAt_append_cons, List.length_append,
      List.length_cons]
    rcases hloc with ⟨h1, h2, h3, h4, h5, h6⟩ | ⟨h1, h2, h3, h4, h5, h6⟩ |
      ⟨h1, h2, h3, h4, h5, h6⟩ | ⟨h1, h2, h3, h4, h5, h6⟩ | ⟨h1, h2, h3, h5, h6⟩
    · simp only [h1, h2, h3, h4, h5, h6, size_inc] at hw ⊢
      simp only [SIZE_MAX, SIZE_MOD, SEMAPHORES] at hn ⊢
      have hocc : occupied c.mem ≤ SEMAPHORES := by
        rw [← hsc.1]
        exact List.countP_le_length _
      simp only [SEMAPHORES] at hocc
      simp only [Bool.false_eq_true, if_false, if_true] at hw ⊢
      omega
    · simp only [h1, h2, h3, h4, h5, h6, size_dec] at hw ⊢
      simp only [Bool.false_eq_true, if_false, if_true] at hw ⊢
      rw [if_neg (by omega)]
      omega
    · simp only [h1, h2, h3, h4, h5, h6] at hw ⊢
      simp only [Bool.false_eq_true, if_false, if_true] at hw ⊢
      refine ⟨⟨hn, ?_⟩, ?_⟩ <;> first | trivial | omega
    · simp only [h1, h2, h3, h4, h5] at hw ⊢
      simp only [Bool.false_eq_true, if_false, if_true] at hw ⊢
      refine ⟨⟨hn, ?_⟩, ?_⟩ <;> first | trivial | omega
    · simp only [h1, h2, h3, h5, h6] at hw ⊢
      try simp only [Bool.false_eq_true, if_false, if_true] at hw ⊢
      refine ⟨⟨hn, ?_⟩, ?_⟩ <;> trivial

/-- Along a run `waiters` is the exact number of increments minus decrements taken, and
`WaitersInv` is kept. -/
theorem run_waitersInv (acts : List Action) (c c' : Config) (h : c.run acts = some c')
    (hsc : ScanInv c) (hi : WaitersInv c) :
    WaitersInv c' ∧
    c'.mem.waiters + stepsAt Pc.decrementsWaiters c acts
      = c.mem.waiters + stepsAt Pc.incrementsWaiters c acts := by
  induction acts generalizing c with
  | nil =>
    simp only [Config.run, Option.some.injEq] at h
    subst h
    exact ⟨hi, rfl⟩
  | cons a as ih =>
    simp only [Config.run] at h
    split at h
    · exact Option.noConfusion h
    · rename_i c1 h1
      obtain ⟨hi1, he1⟩ := act_waitersInv c c1 a h1 hsc hi
      obtain ⟨hi2, he2⟩ := ih c1 h (act_scanInv c c1 a h1 hsc) hi1
      refine ⟨hi2, ?_⟩
      simp only [stepsAt, h1]
      omega

end DecomissionableFixedSizeLastInFirstOutSemaphore

namespace DecomissionableFixedSizeLastInFirstOutSemaphore

/-- Effect of one step on `count`: none, the `fetch_add` of `signal()`, or the successful
compare-and-set of `wait()` from `old > 0` to `old - 1`. -/
theorem step_count_local (tid : Nat) (m m' : Mem) (t t' : Thread)
    (hs : step tid m t = some (m', t')) (hpos : t.pc.oldPositive) :
    m'.count = m.count ∨
    (t.pc.atInc = true ∧ m'.count = size_inc m.count) ∨
    (∃ old, t.pc = .wCas old ∧ 0 < old ∧ m.count = old ∧ m'.count = old - 1 ∧
      t'.pc = .idle) := by
  obtain ⟨pc, a⟩ := t
  cases pc
  case idle =>
    simp [step] at hs
  case sInc c =>
    cases c <;> simp only [step, Option.some.injEq, Prod.mk.injEq] at hs <;>
      obtain ⟨rfl, rfl⟩ := hs <;> simp_all [Pc.atInc, Pc.oldPositive]
  case sWaiters c =>
    cases c <;> simp only [step, Option.some.injEq, Prod.mk.injEq] at hs <;>
      obtain ⟨rfl, rfl⟩ := hs <;> simp only [signalReturn] <;> (try split_ifs) <;>
      simp_all [Pc.atInc, Pc.oldPositive]
  case sCount c =>
    cases c <;> simp only [step, Option.some.injEq, Prod.mk.injEq] at hs <;>
      obtain ⟨rfl, rfl⟩ := hs <;> simp only [signalReturn] <;> (try split_ifs) <;>
      simp_all [Pc.atInc, Pc.oldPositive]
  case sChkWaiters c i =>
    cases c <;> simp only [step, Option.some.injEq, Prod.mk.injEq] at hs <;>
      obtain ⟨rfl, rfl⟩ := hs <;> simp only [signalReturn] <;> (try split_ifs) <;>
      simp_all [Pc.atInc, Pc.oldPositive]
  case sChkCount c i =>
    cases c <;> simp only [step, Option.some.injEq, Prod.mk.injEq] at hs <;>
      obtain ⟨rfl, rfl⟩ := hs <;> simp only [signalReturn] <;> (try split_ifs) <;>
      simp_all [Pc.atInc, Pc.oldPositive]
  case sSlot c i =>
    cases c <;> simp only [step] at hs <;> split at hs <;>
      simp only [Option.some.injEq, Prod.mk.injEq] at hs <;>
      obtain ⟨rfl, rfl⟩ := hs <;> simp only [signalNext] <;> (try split) <;>
      simp_all [Pc.atInc, Pc.oldPositive]
  case sCas c i h =>
    cases c <;> simp only [step] at hs <;> split at hs <;>
      simp only [Option.some.injEq, Prod.mk.injEq] at hs <;>
      obtain ⟨rfl, rfl⟩ := hs <;> simp only [signalNext] <;> (try split) <;>
      simp_all [Pc.atInc, Pc.oldPositive]
  case sWake c h =>
    cases c <;> simp only [step, Option.some.injEq, Prod.mk.injEq] at hs <;>
      obtain ⟨rfl, rfl⟩ := hs <;> simp_all [Pc.atInc, Pc.oldPositive]
  case sDec c =>
    cases c <;> simp only [step, Option.some.injEq, Prod.mk.injEq] at hs <;>
      obtain ⟨rfl, rfl⟩ := hs <;> simp only [signalReturn] <;> (try split_ifs) <;>
      simp_all [Pc.atInc, Pc.oldPositive]
  case dStore =>
    simp only [step, Option.some.injEq, Prod.mk.injEq] at hs
    obtain ⟨rfl, rfl⟩ := hs
    simp_all [Pc.atInc, Pc.oldPositive]
  case dLoad =>
    simp only [step, Option.some.injEq, Prod.mk.injEq] at hs
    obtain ⟨rfl, rfl⟩ := hs
    split <;> simp_all [Pc.atInc, Pc.oldPositive]
  case wDec =>
    simp only [step, Option.some.injEq, Prod.mk.injEq] at hs
    obtain ⟨rfl, rfl⟩ := hs
    simp_all [Pc.atInc, Pc.oldPositive]
  case wLoad =>
    simp only [step, Option.some.injEq, Prod.mk.injEq] at hs
    obtain ⟨rfl, rfl⟩ := hs
    simp only [afterLoad]
    split <;> simp_all [Pc.atInc, Pc.oldPositive]
  case wCas old =>
    simp only [step] at hs
    split at hs <;> simp only [Option.some.injEq, Prod.mk.injEq] at hs <;>
      obtain ⟨rfl, rfl⟩ := hs
    · rename_i heq
      right
      right
      refine ⟨old, rfl, hpos, heq, ?_, rfl⟩
      have : ¬ old = 0 := Nat.pos_iff_ne_zero.mp hpos
      simp [size_dec, this]
    · left
      rfl
  case wInc =>
    simp only [step, Option.some.injEq, Prod.mk.injEq] at hs
    obtain ⟨rfl, rfl⟩ := hs
    simp_all [Pc.atInc, Pc.oldPositive]
  case wCheck =>
    simp only [step, Option.some.injEq, Prod.mk.injEq] at hs
    obtain ⟨rfl, rfl⟩ := hs
    split <;> simp_all [Pc.atInc, Pc.oldPositive]
  case wSlot i =>
    simp only [step] at hs
    split at hs <;> simp only [Option.some.injEq, Prod.mk.injEq] at hs <;>
      obtain ⟨rfl, rfl⟩ := hs <;> simp only [waitNext] <;> (try split) <;>
      simp_all [Pc.atInc, Pc.oldPositive]
  case wRecheck i =>
    simp only [step, Option.some.injEq, Prod.mk.injEq] at hs
    obtain ⟨rfl, rfl⟩ := hs
    split <;> simp_all [Pc.atInc, Pc.oldPositive]
  case wAbort old =>
    simp only [step, Option.some.injEq, Prod.mk.injEq] at hs
    obtain ⟨rfl, rfl⟩ := hs
    simp_all [Pc.atInc, Pc.oldPositive]
  case wPublish i =>
    have hu := useSemaphore_count tid m ⟨.wPublish i, a⟩
    simp only [step] at hs
    split at hs <;> simp only [Option.some.injEq, Prod.mk.injEq] at hs <;>
      obtain ⟨rfl, rfl⟩ := hs <;> simp_all
  case wPark =>
    have hu := useSemaphore_count tid m ⟨.wPark, a⟩
    simp only [step] at hs
    split at hs
    · exact Option.noConfusion hs
    · simp only [Option.some.injEq, Prod.mk.injEq] at hs
      obtain ⟨rfl, rfl⟩ := hs
      simp_all

theorem oldPositive_init (n : Nat) : ∀ t ∈ (Config.init n).threads, t.pc.oldPositive := by
  intro t ht
  simp only [Config.init, List.mem_replicate] at ht
  rw [ht.2]
  trivial

theorem act_oldPositive (c c' : Config) (a : Action) (h : c.act a = some c')
    (hi : ∀ t ∈ c.threads, t.pc.oldPositive) : ∀ t ∈ c'.threads, t.pc.oldPositive := by
  cases a with
  | call tid op =>
    obtain ⟨l1, al, l2, hts, -, rfl⟩ := act_call_decompose c c' tid op h
    intro t ht
    simp only [List.mem_append, List.mem_cons] at ht
    rcases ht with ht | rfl | ht
    · exact hi t (by rw [hts]; simp [ht])
    · cases op <;> trivial
    · exact hi t (by rw [hts]; simp [ht])
  | step tid =>
    obtain ⟨l1, t0, l2, m', t1, hts, -, hs, rfl⟩ := act_step_decompose c c' tid h
    intro t ht
    simp only [List.mem_append, List.mem_cons] at ht
    rcases ht with ht | rfl | ht
    · exact hi t (by rw [hts]; simp [ht])
    · exact step_oldPositive tid c.mem m' t0 t hs (hi t0 (by rw [hts]; simp))
    · exact hi t (by rw [hts]; simp [ht])

theorem run_oldPositive (acts : List Action) (c c' : Config) (h : c.run acts = some c')
    (hi : ∀ t ∈ c.threads, t.pc.oldPositive) : ∀ t ∈ c'.threads, t.pc.oldPositive := by
  induction acts generalizing c with
  | nil =>
    simp only [Config.run, Option.some.injEq] at h
    exact h ▸ hi
  | cons a as ih =>
    simp only [Config.run] at h
    split at h
    · exact Option.noConfusion h
    · rename_i c1 h1
      exact ih c1 h (act_oldPositive c c1 a h1 hi)

theorem mem_of_get? (ts : List Thread) (tid : Nat) (t : Thread) (h : ts.get? tid = some t) :
    t ∈ ts := by
  obtain ⟨l1, l2, hts, -, -⟩ := threads_decompose ts tid t h
  rw [hts]
  simp

end DecomissionableFixedSizeLastInFirstOutSemaphore

namespace DecomissionableFixedSizeLastInFirstOutSemaphore

/-- A step of `_semaphore_->wait()` is only taken by a thread whose kernel semaphore has
been constructed and holds a signal; it consumes that signal. -/
theorem step_park (tid : Nat) (m m' : Mem) (a : Bool) (t' : Thread)
    (hs : step tid m ⟨.wPark, a⟩ = some (m', t')) :
    0 < m.ksem tid ∧ t' = ⟨.wLoad, true⟩ ∧
      m' = { m with ksem := Function.update m.ksem tid (m.ksem tid - 1) } := by
  cases a
  · simp [step, useSemaphore, KernelSemaphore.wait, KernelSemaphore.init] at hs
  · simp only [step, useSemaphore, KernelSemaphore.wait, if_true] at hs
    split at hs
    · exact Option.noConfusion hs
    · rename_i v hv
      simp only [Option.some.injEq, Prod.mk.injEq] at hs
      obtain ⟨rfl, rfl⟩ := hs
      split at hv
      · rename_i hpos
        simp only [Option.some.injEq] at hv
        subst hv
        exact ⟨hpos, rfl, rfl⟩
      · exact Option.noConfusion hv

/-- Effect of one step on the accounting of the kernel semaphore of thread `h`: the slots
that hold it, whether the stepping thread is about to signal it, the signals it holds, and
whether the stepping thread, if it is thread `h`, is inside `_semaphore_->wait()`. -/
theorem step_handle_local (tid : Nat) (m m' : Mem) (t t' : Thread)
    (hs : step tid m t = some (m', t')) (hlen : m.semaphores.length = SEMAPHORES)
    (hidx : t.pc.indexOk) (hk : t.pc ≠ .wPark → m.ksem tid = 0) (g : Nat) :
    slotsOf m' g + (if t'.pc.wakes g then 1 else 0) + m'.ksem g
        + (if g = tid ∧ t.pc = .wPark then 1 else 0)
      = slotsOf m g + (if t.pc.wakes g then 1 else 0) + m.ksem g
        + (if g = tid ∧ t'.pc = .wPark then 1 else 0) := by
  obtain ⟨pc, a⟩ := t
  cases pc
  case idle =>
    simp [step] at hs
  case sInc c =>
    cases c <;> simp only [step, Option.some.injEq, Prod.mk.injEq] at hs <;>
      obtain ⟨rfl, rfl⟩ := hs <;> simp_all [Pc.wakes, slotsOf]
  case sWaiters c =>
    cases c <;> simp only [step, Option.some.injEq, Prod.mk.injEq] at hs <;>
      obtain ⟨rfl, rfl⟩ := hs <;> simp only [signalReturn] <;> (try split_ifs) <;>
      simp_all [Pc.wakes, slotsOf]
  case sCount c =>
    cases c <;> simp only [step, Option.some.injEq, Prod.mk.injEq] at hs <;>
      obtain ⟨rfl, rfl⟩ := hs <;> simp only [signalReturn] <;> (try split_ifs) <;>
      simp_all [Pc.wakes, slotsOf]
  case sChkWaiters c i =>
    cases c <;> simp only [step, Option.some.injEq, Prod.mk.injEq] at hs <;>
      obtain ⟨rfl, rfl⟩ := hs <;> simp only [signalReturn] <;> (try split_ifs) <;>
      simp_all [Pc.wakes, slotsOf]
  case sChkCount c i =>
    cases c <;> simp only [step, Option.some.injEq, Prod.mk.injEq] at hs <;>
      obtain ⟨rfl, rfl⟩ := hs <;> simp only [signalReturn] <;> (try split_ifs) <;>
      simp_all [Pc.wakes, slotsOf]
  case sSlot c i =>
    cases c <;> simp only [step] at hs <;> split at hs <;>
      simp only [Option.some.injEq, Prod.mk.injEq] at hs <;>
      obtain ⟨rfl, rfl⟩ := hs <;> simp only [signalNext] <;> (try split) <;>
      simp_all [Pc.wakes, slotsOf]
  case sCas c i h =>
    simp only [step] at hs
    split at hs
    · rename_i hslot
      simp only [Option.some.injEq, Prod.mk.injEq] at hs
      obtain ⟨rfl, rfl⟩ := hs
      have := slotsOf_set_none m i h hslot g
      by_cases hx : h = g <;> simp_all [Pc.wakes, slotsOf]
    · simp only [Option.some.injEq, Prod.mk.injEq] at hs
      obtain ⟨rfl, rfl⟩ := hs
      simp only [signalNext]
      split <;> simp_all [Pc.wakes, slotsOf]
  case sWake c h =>
    simp only [step, Option.some.injEq, Prod.mk.injEq] at hs
    obtain ⟨rfl, rfl⟩ := hs
    by_cases hx : h = g
    · subst hx
      simp [Pc.wakes, slotsOf, KernelSemaphore.signal]
      omega
    · have hx' : ¬ g = h := fun e => hx e.symm
      simp [Pc.wakes, slotsOf, KernelSemaphore.signal, hx, Function.update_apply, hx']
  case sDec c =>
    cases c <;> simp only [step, Option.some.injEq, Prod.mk.injEq] at hs <;>
      obtain ⟨rfl, rfl⟩ := hs <;> simp only [signalReturn] <;> (try split_ifs) <;>
      simp_all [Pc.wakes, slotsOf]
  case dStore =>
    simp only [step, Option.some.injEq, Prod.mk.injEq] at hs
    obtain ⟨rfl, rfl⟩ := hs
    simp_all [Pc.wakes, slotsOf]
  case dLoad =>
    simp only [step, Option.some.injEq, Prod.mk.injEq] at hs
    obtain ⟨rfl, rfl⟩ := hs
    split <;> simp_all [Pc.wakes, slotsOf]
  case wDec =>
    simp only [step, Option.some.injEq, Prod.mk.injEq] at hs
    obtain ⟨rfl, rfl⟩ := hs
    simp_all [Pc.wakes, slotsOf]
  case wLoad =>
    simp only [step, Option.some.injEq, Prod.mk.injEq] at hs
    obtain ⟨rfl, rfl⟩ := hs
    simp only [afterLoad]
    split <;> simp_all [Pc.wakes, slotsOf]
  case wCas old =>
    simp only [step] at hs
    split at hs <;> simp only [Option.some.injEq, Prod.mk.injEq] at hs <;>
      obtain ⟨rfl, rfl⟩ := hs
    · simp_all [Pc.wakes, slotsOf]
    · simp only [afterLoad]
      split <;> simp_all [Pc.wakes, slotsOf]
  case wInc =>
    simp only [step, Option.some.injEq, Prod.mk.injEq] at hs
    obtain ⟨rfl, rfl⟩ := hs
    simp_all [Pc.wakes, slotsOf]
  case wCheck =>
    simp only [step, Option.some.injEq, Prod.mk.injEq] at hs
    obtain ⟨rfl, rfl⟩ := hs
    split <;> simp_all [Pc.wakes, slotsOf]
  case wSlot i =>
    simp only [step] at hs
    split at hs <;> simp only [Option.some.injEq, Prod.mk.injEq] at hs <;>
      obtain ⟨rfl, rfl⟩ := hs <;> simp only [waitNext] <;> (try split) <;>
      simp_all [Pc.wakes, slotsOf]
  case wRecheck i =>
    simp only [step, Option.some.injEq, Prod.mk.injEq] at hs
    obtain ⟨rfl, rfl⟩ := hs
    split <;> simp_all [Pc.wakes, slotsOf]
  case wAbort old =>
    simp only [step, Option.some.injEq, Prod.mk.injEq] at hs
    obtain ⟨rfl, rfl⟩ := hs
    simp_all [Pc.wakes, slotsOf]
  case wPublish i =>
    have hu := useSemaphore_eq_self tid m ⟨.wPublish i, a⟩ (hk (by simp))
    simp only [step, hu] at hs
    split at hs
    · rename_i hslot
      simp only [Option.some.injEq, Prod.mk.injEq] at hs
      obtain ⟨rfl, rfl⟩ := hs
      have hlt : i < m.semaphores.length := by
        rw [hlen]
        exact hidx
      have := slotsOf_set_some m i tid hslot hlt g
      by_cases hx : tid = g
      · subst hx
        simp_all [Pc.wakes, slotsOf]
      · have hx' : ¬ g = tid := fun e => hx e.symm
        simp_all [Pc.wakes, slotsOf]
    · simp only [Option.some.injEq, Prod.mk.injEq] at hs
      obtain ⟨rfl, rfl⟩ := hs
      simp only [waitNext]
      split <;> simp_all [Pc.wakes, slotsOf]
  case wPark =>
    obtain ⟨hpos, rfl, rfl⟩ := step_park tid m m' a t' hs
    by_cases hx : g = tid
    · subst hx
      simp [Pc.wakes, slotsOf]
      omega
    · simp [Pc.wakes, slotsOf, hx, Function.update_apply]

end DecomissionableFixedSizeLastInFirstOutSemaphore

namespace DecomissionableFixedSizeLastInFirstOutSemaphore

theorem get?_append_cons_ne (l1 l2 : List Thread) (t t' : Thread) (h : Nat)
    (hne : h ≠ l1.length) : (l1 ++ t :: l2).get? h = (l1 ++ t' :: l2).get? h := by
  simp only [List.get?_eq_getElem?]
  by_cases hlt : h < l1.length
  · rw [List.getElem?_append_left hlt, List.getElem?_append_left hlt]
  · have hge : l1.length ≤ h := by omega
    rw [List.getElem?_append_right hge, List.getElem?_append_right hge]
    obtain ⟨k, hk⟩ : ∃ k, h - l1.length = k + 1 := ⟨h - l1.length - 1, by omega⟩
    rw [hk]
    rfl

theorem parkedAt_append_cons_self (l1 l2 : List Thread) (t : Thread) :
    parkedAt (l1 ++ t :: l2) l1.length = if t.pc = .wPark then 1 else 0 := by
  simp only [parkedAt, get?_append_cons_length]

theorem parkedAt_append_cons_ne (l1 l2 : List Thread) (t t' : Thread) (h : Nat)
    (hne : h ≠ l1.length) : parkedAt (l1 ++ t :: l2) h = parkedAt (l1 ++ t' :: l2) h := by
  simp only [parkedAt, get?_append_cons_ne l1 l2 t t' h hne]

theorem handleInv_init (n : Nat) : HandleInv (Config.init n) := by
  intro h
  have h1 : slotsOf (Config.init n).mem h = 0 := by
    simp [slotsOf, Config.init, fresh, List.count_eq_zero]
  have h2 : threadsAt (Pc.wakes h) (Config.init n).threads = 0 :=
    threadsAt_replicate_idle (Pc.wakes h) rfl n
  have h3 : (Config.init n).mem.ksem h = 0 := rfl
  have h4 : parkedAt (Config.init n).threads h = 0 := by
    simp only [parkedAt, Config.init, List.get?_eq_getElem?]
    by_cases hlt : h < n
    · simp [List.getElem?_replicate, hlt, Thread.fresh]
    · simp [List.getElem?_replicate, hlt]
  rw [h1, h2, h3, h4]

theorem act_handleInv (c c' : Config) (a : Action) (hact : c.act a = some c')
    (hsc : ScanInv c) (hi : HandleInv c) : HandleInv c' := by
  cases a with
  | call tid op =>
    obtain ⟨l1, al, l2, hts, hl1, rfl⟩ := act_call_decompose c c' tid op hact
    intro g
    have hg := hi g
    rw [hts] at hg
    simp only [threadsAt_append_cons] at hg ⊢
    have hw1 : (Pc.wakes g Pc.idle) = false := rfl
    have hw2 : (Pc.wakes g op.entry) = false := by cases op <;> rfl
    simp only [hw1, hw2] at hg ⊢
    by_cases hx : g = l1.length
    · subst hx
      rw [parkedAt_append_cons_self] at hg ⊢
      have he : ¬ op.entry = Pc.wPark := by cases op <;> simp [Op.entry]
      simp only [he, if_false]
      simpa using hg
    · rw [parkedAt_append_cons_ne l1 l2 _ ⟨.idle, al⟩ g hx]
      exact hg
  | step tid =>
    obtain ⟨l1, t0, l2, m', t1, hts, hl1, hs, rfl⟩ := act_step_decompose c c' tid hact
    subst hl1
    have hk : t0.pc ≠ .wPark → c.mem.ksem l1.length = 0 := by
      intro hne
      have hg := hi l1.length
      rw [hts, parkedAt_append_cons_self, if_neg hne] at hg
      omega
    intro g
    have hloc := step_handle_local l1.length c.mem m' t0 t1 hs hsc.1
      (hsc.2 t0 (by rw [hts]; simp)) hk g
    have hg := hi g
    rw [hts] at hg
    simp only [threadsAt_append_cons] at hg ⊢
    by_cases hx : g = l1.length
    · subst hx
      rw [parkedAt_append_cons_self] at hg ⊢
      simp only [true_and] at hloc
      omega
    · rw [parkedAt_append_cons_ne l1 l2 t1 t0 g hx]
      simp only [hx, false_and, if_false] at hloc
      omega

theorem run_handleInv (acts : List Action) (c c' : Config) (h : c.run acts = some c')
    (hsc : ScanInv c) (hi : HandleInv c) : HandleInv c' := by
  induction acts generalizing c with
  | nil =>
    simp only [Config.run, Option.some.injEq] at h
    exact h ▸ hi
  | cons a as ih =>
    simp only [Config.run] at h
    split at h
    · exact Option.noConfusion h
    · rename_i c1 h1
      exact ih c1 h (act_scanInv c c1 a h1 hsc) (act_handleInv c c1 a h1 hsc hi)

theorem parkedAt_le_one (ts : List Thread) (h : Nat) : parkedAt ts h ≤ 1 := by
  unfold parkedAt
  split
  · split <;> omega
  · omega

end DecomissionableFixedSizeLastInFirstOutSemaphore

namespace DecomissionableFixedSizeLastInFirstOutSemaphore

theorem two_le_count_of_lt (l : List (Option Nat)) (x : Option Nat) (i j : Nat) (hij : i < j)
    (hi' : l[i]? = some x) (hj' : l[j]? = some x) : 2 ≤ l.count x := by
  have hsplit : l = l.take j ++ l.drop j := (List.take_append_drop j l).symm
  have h1 : 0 < (l.take j).count x := by
    rw [List.count_pos_iff]
    have : (l.take j)[i]? = some x := by
      rw [List.getElem?_take_of_lt hij]
      exact hi'
    exact List.getElem?_mem this
  have h2 : 0 < (l.drop j).count x := by
    rw [List.count_pos_iff]
    have : (l.drop j)[0]? = some x := by
      rw [List.getElem?_drop]
      simpa using hj'
    exact List.getElem?_mem this
  rw [hsplit, List.count_append]
  omega

/-- A kernel semaphore counted at most once among the slots is in at most one slot. -/
theorem slot_unique_of_slotsOf_le_one (m : Mem) (h i j : Nat) (hle : slotsOf m h ≤ 1)
    (hi : m.slot i = some h) (hj : m.slot j = some h) : i = j := by
  have key : ∀ a b, a < b → m.slot a = some h → m.slot b = some h → False := by
    intro a b hab ha hb
    have hblt : b < m.semaphores.length := by
      by_contra hge
      rw [slot_eq_none_of_le m b (by omega)] at hb
      exact Option.noConfusion hb
    have halt : a < m.semaphores.length := by omega
    have ea : m.semaphores[a]? = some (some h) := by
      rw [List.getElem?_eq_getElem halt, ← slot_eq_getElem m a halt, ha]
    have eb : m.semaphores[b]? = some (some h) := by
      rw [List.getElem?_eq_getElem hblt, ← slot_eq_getElem m b hblt, hb]
    have := two_le_count_of_lt m.semaphores (some h) a b hab ea eb
    simp only [slotsOf] at hle
    omega
  rcases Nat.lt_trichotomy i j with hlt | heq | hgt
  · exact (key i j hlt hi hj).elim
  · exact heq
  · exact (key j i hgt hj hi).elim

end DecomissionableFixedSizeLastInFirstOutSemaphore

namespace DecomissionableFixedSizeLastInFirstOutSemaphore

set_option maxHeartbeats 4000000 in
/-- Effect of one step on the accounting of tokens and wake-ups, the flag being set and the
thread being outside `decomission()`: the step leaves `count` at 0; or it reads
`waiters == 0`; or it keeps the kernel semaphores and neither adds a waiter committed to
parking nor lets `count` grow by more than the thread becomes active; or it signals a kernel
semaphore; or it consumes the signal of the own kernel semaphore. -/
theorem step_wake_local (tid : Nat) (m m' : Mem) (t t' : Thread)
    (hs : step tid m t = some (m', t')) (hc : m.comissioned = true)
    (h1 : t.pc.op ≠ some .decomission) (h2 : t.pc ≠ .wDec) (h3 : t.pc.oldPositive)
    (hlen : m.semaphores.length = SEMAPHORES) (hidx : t.pc.indexOk)
    (hk : t.pc ≠ .wPark → m.ksem tid = 0) :
    m'.count = 0 ∨
    (m.waiters = 0 ∧ t'.pc.atPublish = t.pc.atPublish ∧ occupied m' = occupied m) ∨
    (m'.ksem = m.ksem ∧
      (if t'.pc.atPublish then 1 else 0) + occupied m'
        ≤ (if t.pc.atPublish then 1 else 0) + occupied m ∧
      m'.count + (if t.pc.active then 1 else 0)
        ≤ m.count + (if t'.pc.active then 1 else 0)) ∨
    (∃ g, t.pc.wakes g = true ∧ m'.ksem = Function.update m.ksem g (m.ksem g + 1) ∧
      t.pc.active = true ∧ t'.pc.active = false ∧ m'.count = m.count ∧
      t.pc.atPublish = false ∧ t'.pc.atPublish = false ∧ occupied m' = occupied m) ∨
    (t.pc = .wPark ∧ 0 < m.ksem tid ∧
      m'.ksem = Function.update m.ksem tid (m.ksem tid - 1) ∧
      t.pc.active = false ∧ t'.pc.active = true ∧ m'.count = m.count ∧
      t'.pc.atPublish = false ∧ occupied m' = occupied m) := by
  obtain ⟨pc, a⟩ := t
  cases pc
  case idle =>
    simp [step] at hs
  case sInc c =>
    have := size_inc_le_succ m.count
    cases c <;> simp only [step, Option.some.injEq, Prod.mk.injEq] at hs <;>
      obtain ⟨rfl, rfl⟩ := hs <;> simp_all [Pc.active, Pc.atPublish, Pc.op, occupied]
  case sWaiters c =>
    cases c <;> simp only [step, Option.some.injEq, Prod.mk.injEq] at hs <;>
      obtain ⟨rfl, rfl⟩ := hs <;> simp only [signalReturn] <;> (try split_ifs) <;>
      simp_all [Pc.active, Pc.atPublish, Pc.op, Pc.oldPositive, occupied]
  case sCount c =>
    cases c <;> simp only [step, Option.some.injEq, Prod.mk.injEq] at hs <;>
      obtain ⟨rfl, rfl⟩ := hs <;> simp only [signalReturn] <;> (try split_ifs) <;>
      simp_all [Pc.active, Pc.atPublish, Pc.op, Pc.oldPositive, occupied]
  case sChkWaiters c i =>
    cases c <;> simp only [step, Option.some.injEq, Prod.mk.injEq] at hs <;>
      obtain ⟨rfl, rfl⟩ := hs <;> simp only [signalReturn] <;> (try split_ifs) <;>
      simp_all [Pc.active, Pc.atPublish, Pc.op, Pc.oldPositive, occupied]
  case sChkCount c i =>
    cases c <;> simp only [step, Option.some.injEq, Prod.mk.injEq] at hs <;>
      obtain ⟨rfl, rfl⟩ := hs <;> simp only [signalReturn] <;> (try split_ifs) <;>
      simp_all [Pc.active, Pc.atPublish, Pc.op, Pc.oldPositive, occupied]
  case sSlot c i =>
    cases c <;> simp only [step] at hs <;> split at hs <;>
      simp only [Option.some.injEq, Prod.mk.injEq] at hs <;>
      obtain ⟨rfl, rfl⟩ := hs <;> simp only [signalNext] <;> (try split) <;>
      simp_all [Pc.active, Pc.atPublish, Pc.op, Pc.oldPositive, occupied]
  case sCas c i h =>
    simp only [step] at hs
    split at hs
    · rename_i hslot
      simp only [Option.some.injEq, Prod.mk.injEq] at hs
      obtain ⟨rfl, rfl⟩ := hs
      have := occupied_set_none m i h hslot
      right
      right
      left
      refine ⟨rfl, ?_, ?_⟩
      · simp only [Pc.atPublish, occupied] at this ⊢
        simp
        omega
      · simp [Pc.active]
    · simp only [Option.some.injEq, Prod.mk.injEq] at hs
      obtain ⟨rfl, rfl⟩ := hs
      simp only [signalNext]
      split <;> simp_all [Pc.active, Pc.atPublish, Pc.op, occupied]
  case sWake c h =>
    simp only [step, Option.some.injEq, Prod.mk.injEq] at hs
    obtain ⟨rfl, rfl⟩ := hs
    right
    right
    right
    left
    exact ⟨h, by simp [Pc.wakes], rfl, rfl, rfl, rfl, rfl, rfl, rfl⟩
  case sDec c =>
    cases c <;> simp only [step, Option.some.injEq, Prod.mk.injEq] at hs <;>
      obtain ⟨rfl, rfl⟩ := hs <;> simp only [signalReturn] <;> (try split_ifs) <;>
      simp_all [Pc.active, Pc.atPublish, Pc.op, Pc.oldPositive, occupied]
  case dStore =>
    simp [Pc.op] at h1
  case dLoad =>
    simp [Pc.op] at h1
  case wDec =>
    simp at h2
  case wLoad =>
    simp only [step, Option.some.injEq, Prod.mk.injEq] at hs
    obtain ⟨rfl, rfl⟩ := hs
    simp only [afterLoad]
    split <;> simp_all [Pc.active, Pc.atPublish, Pc.op, Pc.oldPositive, occupied]
  case wCas old =>
    simp only [step] at hs
    split at hs <;> simp only [Option.some.injEq, Prod.mk.injEq] at hs <;>
      obtain ⟨rfl, rfl⟩ := hs
    · rename_i heq
      have hpos : 0 < old := h3
      have := size_dec_of_pos hpos
      right
      right
      left
      refine ⟨rfl, ?_, ?_⟩
      · simp [Pc.atPublish, occupied]
      · simp only [Pc.active, this, heq]
        simp
        omega
    · simp only [afterLoad]
      split <;> simp_all [Pc.active, Pc.atPublish, Pc.op, Pc.oldPositive, occupied]
  case wInc =>
    simp only [step, Option.some.injEq, Prod.mk.injEq] at hs
    obtain ⟨rfl, rfl⟩ := hs
    simp_all [Pc.active, Pc.atPublish, Pc.op, Pc.oldPositive, occupied]
  case wCheck =>
    simp only [step, Option.some.injEq, Prod.mk.injEq] at hs
    obtain ⟨rfl, rfl⟩ := hs
    split <;> simp_all [Pc.active, Pc.atPublish, Pc.op, Pc.oldPositive, occupied]
  case wSlot i =>
    simp only [step] at hs
    split at hs <;> simp only [Option.some.injEq, Prod.mk.injEq] at hs <;>
      obtain ⟨rfl, rfl⟩ := hs <;> simp only [waitNext] <;> (try split) <;>
      simp_all [Pc.active, Pc.atPublish, Pc.op, Pc.oldPositive, occupied]
  case wRecheck i =>
    simp only [step, Option.some.injEq, Prod.mk.injEq] at hs
    obtain ⟨rfl, rfl⟩ := hs
    split <;> simp_all [Pc.active, Pc.atPublish, Pc.op, Pc.oldPositive, occupied]
  case wAbort old =>
    simp only [step, Option.some.injEq, Prod.mk.injEq] at hs
    obtain ⟨rfl, rfl⟩ := hs
    simp_all [Pc.active, Pc.atPublish, Pc.op, Pc.oldPositive, occupied]
  case wPublish i =>
    have hu := useSemaphore_eq_self tid m ⟨.wPublish i, a⟩ (hk (by simp))
    simp only [step, hu] at hs
    split at hs
    · rename_i hslot
      simp only [Option.some.injEq, Prod.mk.injEq] at hs
      obtain ⟨rfl, rfl⟩ := hs
      have hlt : i < m.semaphores.length := by
        rw [hlen]
        exact hidx
      have := occupied_set_some m i tid hslot hlt
      right
      right
      left
      refine ⟨rfl, ?_, ?_⟩
      · simp only [Pc.atPublish, occupied] at this ⊢
        simp
        omega
      · simp [Pc.active]
    · simp only [Option.some.injEq, Prod.mk.injEq] at hs
      obtain ⟨rfl, rfl⟩ := hs
      simp only [waitNext]
      split <;> simp_all [Pc.active, Pc.atPublish, Pc.op, occupied]
  case wPark =>
    obtain ⟨hpos, rfl, rfl⟩ := step_park tid m m' a t' hs
    right
    right
    right
    right
    exact ⟨rfl, hpos, rfl, rfl, rfl, rfl, rfl, rfl⟩

end DecomissionableFixedSizeLastInFirstOutSemaphore

namespace DecomissionableFixedSizeLastInFirstOutSemaphore

theorem sum_map_update (f : Nat → Nat) (n h v : Nat) (hlt : h < n) :
    ((List.range n).map (Function.update f h v)).sum + f h
      = ((List.range n).map f).sum + v := by
  induction n with
  | zero => omega
  | succ n ih =>
    rw [List.range_succ, List.map_append, List.map_append, List.sum_append, List.sum_append]
    simp only [List.map_cons, List.map_nil, List.sum_cons, List.sum_nil, Nat.add_zero]
    by_cases hn : h = n
    · subst hn
      have hcongr : (List.range h).map (Function.update f h v) = (List.range h).map f := by
        apply List.map_congr_left
        intro x hx
        have : x ≠ h := by
          have := List.mem_range.mp hx
          omega
        simp [Function.update_apply, this]
      rw [hcongr]
      simp
      omega
    · have hlt' : h < n := by omega
      have := ih hlt'
      have hne : n ≠ h := fun e => hn e.symm
      simp only [Function.update_apply, hne, if_false]
      omega

theorem pending_update (m m' : Mem) (n h v : Nat) (hlt : h < n)
    (hk : m'.ksem = Function.update m.ksem h v) :
    pending m' n + m.ksem h = pending m n + v := by
  simp only [pending, hk]
  exact sum_map_update m.ksem n h v hlt

theorem pending_congr (m m' : Mem) (n : Nat) (h : m'.ksem = m.ksem) :
    pending m' n = pending m n := by
  simp only [pending, h]

theorem pending_eq_zero (m : Mem) (n : Nat) (h : ∀ k, k < n → m.ksem k = 0) :
    pending m n = 0 := by
  simp only [pending]
  apply List.sum_eq_zero
  intro x hx
  obtain ⟨k, hk, rfl⟩ := List.mem_map.mp hx
  exact h k (List.mem_range.mp hk)

theorem parkedAt_pos_lt (ts : List Thread) (h : Nat) (hp : 0 < parkedAt ts h) :
    h < ts.length := by
  by_contra hge
  have : ts[h]? = none := List.getElem?_eq_none (by omega)
  simp only [parkedAt, List.get?_eq_getElem?, this] at hp
  omega

theorem threadsAt_mono (p q : Pc → Bool) (hpq : ∀ pc, p pc = true → q pc = true)
    (l : List Thread) : threadsAt p l ≤ threadsAt q l := by
  refine List.countP_mono_left ?_
  intro x _ hx
  exact hpq x.pc hx

theorem atPublish_accounted (pc : Pc) (h : pc.atPublish = true) : pc.accounted = true := by
  cases pc <;> simp_all [Pc.atPublish, Pc.accounted]

theorem slotsOf_le_occupied (m : Mem) (h : Nat) : slotsOf m h ≤ occupied m := by
  simp only [slotsOf, occupied, List.count_eq_countP]
  refine List.countP_mono_left ?_
  intro x _ hx
  have : x = some h := by simpa using hx
  rw [this]
  rfl

theorem wakeInv_init (n : Nat) : WakeInv (Config.init n) := by
  intro _
  have : (Config.init n).mem.count = 0 := rfl
  omega

theorem act_wakeInv (c c' : Config) (a : Action) (hact : c.act a = some c')
    (hnd : NoDecom c) (hsc : ScanInv c) (hwi : WaitersInv c) (hhi : HandleInv c)
    (hi : WakeInv c) : WakeInv c' := by
  cases a with
  | call tid op =>
    obtain ⟨l1, al, l2, hts, hl1, rfl⟩ := act_call_decompose c c' tid op hact
    simp only [WakeInv, hts, threadsAt_append_cons, List.length_append, List.length_cons]
      at hi ⊢
    have h1 : Pc.atPublish op.entry = false := by cases op <;> rfl
    have h2 : Pc.atPublish Pc.idle = false := rfl
    have h3 : Pc.active Pc.idle = false := rfl
    simp only [h1, h2, h3, Bool.false_eq_true, if_false] at hi ⊢
    intro hp
    have := hi hp
    split <;> omega
  | step tid =>
    obtain ⟨l1, t0, l2, m', t1, hts, hl1, hs, rfl⟩ := act_step_decompose c c' tid hact
    subst hl1
    have hmem : t0 ∈ c.threads := by rw [hts]; simp
    obtain ⟨hd1, hd2, hd3⟩ := hnd.2 t0 hmem
    have hk : t0.pc ≠ .wPark → c.mem.ksem l1.length = 0 := by
      intro hne
      have hg := hhi l1.length
      rw [hts, parkedAt_append_cons_self, if_neg hne] at hg
      omega
    have hloc := step_wake_local l1.length c.mem m' t0 t1 hs hnd.1 hd1 hd2 hd3 hsc.1
      (hsc.2 t0 hmem) hk
    have hw := hwi.2
    have hp1 := threadsAt_mono Pc.atPublish Pc.accounted atPublish_accounted l1
    have hp2 := threadsAt_mono Pc.atPublish Pc.accounted atPublish_accounted l2
    have hlt : l1.length < l1.length + (l2.length + 1) := by omega
    simp only [WakeInv, hts, threadsAt_append_cons, List.length_append, List.length_cons]
      at hi hw ⊢
    intro hp
    rcases hloc with hz | ⟨hv1, hv2, hv3⟩ | ⟨hm1, hm2, hm3⟩ |
      ⟨g, hg1, hg2, hg3, hg4, hg5, hg6, hg7, hg8⟩ | ⟨hq1, hq2, hq3, hq4, hq5, hq6, hq7, hq8⟩
    · show m'.count ≤ _
      omega
    · exfalso
      have hind : (if t0.pc.atPublish = true then 1 else 0)
          ≤ (if t0.pc.accounted = true then 1 else 0) := by
        by_cases hpub : t0.pc.atPublish = true
        · rw [if_pos hpub, if_pos (atPublish_accounted t0.pc hpub)]
        · rw [if_neg hpub]
          exact Nat.zero_le _
      rw [hv2, hv3] at hp
      omega
    · have hpe := pending_congr c.mem m' (l1.length + (l2.length + 1)) hm1
      show m'.count ≤ _ + pending m' _
      rw [hpe]
      have := hi (by omega)
      omega
    · have hglt : g < l1.length + (l2.length + 1) := by
        have hg := hhi g
        have hpos : 0 < parkedAt c.threads g := by
          rw [← hg, hts, threadsAt_append_cons, hg1]
          simp only [if_true]
          omega
        have := parkedAt_pos_lt c.threads g hpos
        rw [hts] at this
        simpa using this
      have hpe := pending_update c.mem m' (l1.length + (l2.length + 1)) g (c.mem.ksem g + 1)
        hglt hg2
      show m'.count ≤ _ + pending m' _
      rw [hg5]
      simp only [hg3, hg4, hg6, hg7, hg8, if_true, Bool.false_eq_true, if_false] at hi hp ⊢
      have := hi (by omega)
      omega
    · have hpe := pending_update c.mem m' (l1.length + (l2.length + 1)) l1.length
        (c.mem.ksem l1.length - 1) hlt hq3
      have hpub0 : t0.pc.atPublish = false := by rw [hq1]; rfl
      show m'.count ≤ _ + pending m' _
      rw [hq6]
      simp only [hq4, hq5, hq7, hq8, hpub0, if_true, Bool.false_eq_true, if_false] at hi hp ⊢
      have := hi (by omega)
      omega

end DecomissionableFixedSizeLastInFirstOutSemaphore

namespace DecomissionableFixedSizeLastInFirstOutSemaphore

theorem run_wakeInv (acts : List Action) (c c' : Config) (h : c.run acts = some c')
    (hd : callsOf .decomission acts = 0) (hnd : NoDecom c) (hsc : ScanInv c)
    (hwi : WaitersInv c) (hhi : HandleInv c) (hi : WakeInv c) :
    HandleInv c' ∧ WakeInv c' := by
  induction acts generalizing c with
  | nil =>
    simp only [Config.run, Option.some.injEq] at h
    subst h
    exact ⟨hhi, hi⟩
  | cons a as ih =>
    simp only [Config.run] at h
    split at h
    · exact Option.noConfusion h
    · rename_i c1 h1
      have ha : a.calls .decomission = false := by
        by_contra hne
        simp only [callsOf, List.countP_cons] at hd
        simp only [Bool.not_eq_false] at hne
        rw [if_pos hne] at hd
        omega
      have hd' : callsOf .decomission as = 0 := by
        simp only [callsOf, List.countP_cons] at hd ⊢
        omega
      exact ih c1 h hd' (act_noDecom c c1 a h1 ha hnd) (act_scanInv c c1 a h1 hsc)
        (act_waitersInv c c1 a h1 hsc hwi).1 (act_handleInv c c1 a h1 hsc hhi)
        (act_wakeInv c c1 a h1 hnd hsc hwi hhi hi)

theorem threadsAt_eq_zero_of_forall (p : Pc → Bool) (ts : List Thread)
    (h : ∀ t ∈ ts, p t.pc = false) : threadsAt p ts = 0 := by
  simp only [threadsAt, List.countP_eq_zero]
  intro t ht
  simp [h t ht]

theorem parkedAt_of_get? (ts : List Thread) (tid : Nat) (t : Thread)
    (h : ts.get? tid = some t) : parkedAt ts tid = if t.pc = .wPark then 1 else 0 := by
  simp only [parkedAt, h]

end DecomissionableFixedSizeLastInFirstOutSemaphore

namespace DecomissionableFixedSizeLastInFirstOutSemaphore

/-! ## The scan of `wait()` when every slot is occupied -/

/-- One step of the scan of `wait()` at an occupied slot: nothing is written and the scan
moves on. -/
theorem wait_scan_occupied (tid : Nat) (m : Mem) (t : Thread) (i h : Nat)
    (hpc : t.pc = .wSlot i) (hs : m.slot i = some h) :
    step tid m t = some (m, { t with pc := waitNext i }) := by
  obtain ⟨pc, a⟩ := t
  simp only at hpc
  subst hpc
  simp only [step, hs]

theorem waitNext_eq_mod (i : Nat) (hi : i < SEMAPHORES) :
    waitNext i = .wSlot ((i + 1) % SEMAPHORES) := by
  simp only [waitNext, SEMAPHORES] at *
  split
  · rw [Nat.mod_eq_of_lt (by omega)]
  · have : i + 1 = 128 := by omega
    rw [this]

/-- The scan of `wait()` goes round and round while every slot is occupied. -/
theorem wait_scan_all_occupied (tid : Nat) (m : Mem) (a : Bool)
    (hall : ∀ i, i < SEMAPHORES → m.slot i ≠ none) (n i : Nat) (hi : i < SEMAPHORES) :
    runThread tid n (m, ⟨.wSlot i, a⟩) = (m, ⟨.wSlot ((i + n) % SEMAPHORES), a⟩) := by
  induction n generalizing i with
  | zero =>
    rw [Nat.add_zero, Nat.mod_eq_of_lt hi]
    rfl
  | succ n ih =>
    obtain ⟨v, hv⟩ := Option.ne_none_iff_exists'.mp (hall i hi)
    have hs := wait_scan_occupied tid m ⟨.wSlot i, a⟩ i v rfl hv
    rw [runThread_step tid n _ _ hs]
    simp only [waitNext_eq_mod i hi]
    rw [ih ((i + 1) % SEMAPHORES) (Nat.mod_lt _ (by decide))]
    have : ((i + 1) % SEMAPHORES + n) % SEMAPHORES = (i + (n + 1)) % SEMAPHORES := by
      simp only [SEMAPHORES]
      omega
    rw [this]

theorem slotsFull_slot (i : Nat) (hi : i < SEMAPHORES) : slotsFull.slot i = some i := by
  simp [Mem.slot, slotsFull, List.getD, List.getElem?_map, List.getElem?_range hi]

end DecomissionableFixedSizeLastInFirstOutSemaphore

namespace DecomissionableFixedSizeLastInFirstOutSemaphore

/-! ## Signals held by the thread-local kernel semaphores -/

/-- The only step that adds a signal to the kernel semaphore of thread `g` is
`semaphore->signal()` of a signaler that holds it. -/
theorem step_ksem_local (tid : Nat) (m m' : Mem) (t t' : Thread)
    (hs : step tid m t = some (m', t')) (g : Nat) :
    m'.ksem g ≤ m.ksem g ∨ (∃ cw, t.pc = .sWake cw g ∧ m'.ksem g = m.ksem g + 1) := by
  obtain ⟨pc, a⟩ := t
  cases pc
  case idle =>
    simp [step] at hs
  case sInc c =>
    cases c <;> simp only [step, Option.some.injEq, Prod.mk.injEq] at hs <;>
      obtain ⟨rfl, rfl⟩ := hs <;> exact Or.inl (le_refl _)
  case sWaiters c =>
    cases c <;> simp only [step, Option.some.injEq, Prod.mk.injEq] at hs <;>
      obtain ⟨rfl, rfl⟩ := hs <;> exact Or.inl (le_refl _)
  case sCount c =>
    cases c <;> simp only [step, Option.some.injEq, Prod.mk.injEq] at hs <;>
      obtain ⟨rfl, rfl⟩ := hs <;> exact Or.inl (le_refl _)
  case sChkWaiters c i =>
    cases c <;> simp only [step, Option.some.injEq, Prod.mk.injEq] at hs <;>
      obtain ⟨rfl, rfl⟩ := hs <;> exact Or.inl (le_refl _)
  case sChkCount c i =>
    cases c <;> simp only [step, Option.some.injEq, Prod.mk.injEq] at hs <;>
      obtain ⟨rfl, rfl⟩ := hs <;> exact Or.inl (le_refl _)
  case sSlot c i =>
    cases c <;> simp only [step] at hs <;> split at hs <;>
      simp only [Option.some.injEq, Prod.mk.injEq] at hs <;>
      obtain ⟨rfl, rfl⟩ := hs <;> exact Or.inl (le_refl _)
  case sCas c i h =>
    cases c <;> simp only [step] at hs <;> split at hs <;>
      simp only [Option.some.injEq, Prod.mk.injEq] at hs <;>
      obtain ⟨rfl, rfl⟩ := hs <;> exact Or.inl (le_refl _)
  case sWake c h =>
    simp only [step, Option.some.injEq, Prod.mk.injEq] at hs
    obtain ⟨rfl, rfl⟩ := hs
    by_cases hx : h = g
    · subst hx
      right
      exact ⟨c, rfl, by simp [KernelSemaphore.signal]⟩
    · left
      have hx' : ¬ g = h := fun e => hx e.symm
      simp [Function.update_apply, hx']
  case sDec c =>
    cases c <;> simp only [step, Option.some.injEq, Prod.mk.injEq] at hs <;>
      obtain ⟨rfl, rfl⟩ := hs <;> exact Or.inl (le_refl _)
  case dStore =>
    simp only [step, Option.some.injEq, Prod.mk.injEq] at hs
    obtain ⟨rfl, rfl⟩ := hs
    exact Or.inl (le_refl _)
  case dLoad =>
    simp only [step, Option.some.injEq, Prod.mk.injEq] at hs
    obtain ⟨rfl, rfl⟩ := hs
    exact Or.inl (le_refl _)
  case wDec =>
    simp only [step, Option.some.injEq, Prod.mk.injEq] at hs
    obtain ⟨rfl, rfl⟩ := hs
    exact Or.inl (le_refl _)
  case wLoad =>
    simp only [step, Option.some.injEq, Prod.mk.injEq] at hs
    obtain ⟨rfl, rfl⟩ := hs
    exact Or.inl (le_refl _)
  case wCas old =>
    simp only [step] at hs
    split at hs <;> simp only [Option.some.injEq, Prod.mk.injEq] at hs <;>
      obtain ⟨rfl, rfl⟩ := hs <;> exact Or.inl (le_refl _)
  case wInc =>
    simp only [step, Option.some.injEq, Prod.mk.injEq] at hs
    obtain ⟨rfl, rfl⟩ := hs
    exact Or.inl (le_refl _)
  case wCheck =>
    simp only [step, Option.some.injEq, Prod.mk.injEq] at hs
    obtain ⟨rfl, rfl⟩ := hs
    exact Or.inl (le_refl _)
  case wSlot i =>
    simp only [step] at hs
    split at hs <;> simp only [Option.some.injEq, Prod.mk.injEq] at hs <;>
      obtain ⟨rfl, rfl⟩ := hs <;> exact Or.inl (le_refl _)
  case wRecheck i =>
    simp only [step, Option.some.injEq, Prod.mk.injEq] at hs
    obtain ⟨rfl, rfl⟩ := hs
    exact Or.inl (le_refl _)
  case wAbort old =>
    simp only [step, Option.some.injEq, Prod.mk.injEq] at hs
    obtain ⟨rfl, rfl⟩ := hs
    exact Or.inl (le_refl _)
  case wPublish i =>
    have hu : (useSemaphore tid m ⟨.wPublish i, a⟩).ksem g ≤ m.ksem g := by
      unfold useSemaphore
      split
      · exact le_refl _
      · simp only [Function.update_apply, KernelSemaphore.init]
        split <;> omega
    simp only [step] at hs
    split at hs <;> simp only [Option.some.injEq, Prod.mk.injEq] at hs <;>
      obtain ⟨rfl, rfl⟩ := hs <;> exact Or.inl hu
  case wPark =>
    obtain ⟨hpos, rfl, rfl⟩ := step_park tid m m' a t' hs
    left
    simp only [Function.update_apply]
    split
    · rename_i hx
      subst hx
      omega
    · exact le_refl _

/-- A signaler gets to `semaphore->signal()` on the kernel semaphore of thread `g` only by
the successful compare-and-set that empties a slot holding it. -/
theorem step_into_wake (tid : Nat) (m m' : Mem) (t t' : Thread)
    (hs : step tid m t = some (m', t')) (cw : Caller) (g : Nat)
    (hw : t'.pc = .sWake cw g) :
    ∃ j, t.pc = .sCas cw j g ∧ m.slot j = some g ∧
      m'.semaphores = m.semaphores.set j none := by
  obtain ⟨pc, a⟩ := t
  cases pc
  case idle =>
    simp [step] at hs
  case sInc c =>
    cases c <;> simp only [step, Option.some.injEq, Prod.mk.injEq] at hs <;>
      obtain ⟨rfl, rfl⟩ := hs <;> simp [signalReturn, signalNext, waitNext, afterLoad, ite_eq_iff] at hw
  case sWaiters c =>
    cases c <;> simp only [step, Option.some.injEq, Prod.mk.injEq] at hs <;>
      obtain ⟨rfl, rfl⟩ := hs <;> simp [signalReturn, signalNext, waitNext, afterLoad, ite_eq_iff] at hw
  case sCount c =>
    cases c <;> simp only [step, Option.some.injEq, Prod.mk.injEq] at hs <;>
      obtain ⟨rfl, rfl⟩ := hs <;> simp [signalReturn, signalNext, waitNext, afterLoad, ite_eq_iff] at hw
  case sChkWaiters c i =>
    cases c <;> simp only [step, Option.some.injEq, Prod.mk.injEq] at hs <;>
      obtain ⟨rfl, rfl⟩ := hs <;> simp [signalReturn, signalNext, waitNext, afterLoad, ite_eq_iff] at hw
  case sChkCount c i =>
    cases c <;> simp only [step, Option.some.injEq, Prod.mk.injEq] at hs <;>
      obtain ⟨rfl, rfl⟩ := hs <;> simp [signalReturn, signalNext, waitNext, afterLoad, ite_eq_iff] at hw
  case sSlot c i =>
    cases c <;> simp only [step] at hs <;> split at hs <;>
      simp only [Option.some.injEq, Prod.mk.injEq] at hs <;>
      obtain ⟨rfl, rfl⟩ := hs <;> simp [signalReturn, signalNext, waitNext, afterLoad, ite_eq_iff] at hw
  case sCas c i h =>
    simp only [step] at hs
    split at hs
    · rename_i hslot
      simp only [Option.some.injEq, Prod.mk.injEq] at hs
      obtain ⟨rfl, rfl⟩ := hs
      simp only [Pc.sWake.injEq] at hw
      obtain ⟨rfl, rfl⟩ := hw
      exact ⟨i, rfl, hslot, rfl⟩
    · simp only [Option.some.injEq, Prod.mk.injEq] at hs
      obtain ⟨rfl, rfl⟩ := hs
      simp only [signalNext] at hw
      split at hw <;> exact Pc.noConfusion hw
  case sWake c h =>
    cases c <;> simp only [step, Option.some.injEq, Prod.mk.injEq] at hs <;>
      obtain ⟨rfl, rfl⟩ := hs <;> simp [signalReturn, signalNext, waitNext, afterLoad, ite_eq_iff] at hw
  case sDec c =>
    cases c <;> simp only [step, Option.some.injEq, Prod.mk.injEq] at hs <;>
      obtain ⟨rfl, rfl⟩ := hs <;> simp [signalReturn, signalNext, waitNext, afterLoad, ite_eq_iff] at hw
  case dStore =>
    simp only [step, Option.some.injEq, Prod.mk.injEq] at hs
    obtain ⟨rfl, rfl⟩ := hs
    simp [signalReturn, signalNext, waitNext, afterLoad, ite_eq_iff] at hw
  case dLoad =>
    simp only [step, Option.some.injEq, Prod.mk.injEq] at hs
    obtain ⟨rfl, rfl⟩ := hs
    simp [signalReturn, signalNext, waitNext, afterLoad, ite_eq_iff] at hw
  case wDec =>
    simp only [step, Option.some.injEq, Prod.mk.injEq] at hs
    obtain ⟨rfl, rfl⟩ := hs
    simp [signalReturn, signalNext, waitNext, afterLoad, ite_eq_iff] at hw
  case wLoad =>
    simp only [step, Option.some.injEq, Prod.mk.injEq] at hs
    obtain ⟨rfl, rfl⟩ := hs
    simp [signalReturn, signalNext, waitNext, afterLoad, ite_eq_iff] at hw
  case wCas old =>
    simp only [step] at hs
    split at hs <;> simp only [Option.some.injEq, Prod.mk.injEq] at hs <;>
      obtain ⟨rfl, rfl⟩ := hs <;> simp [signalReturn, signalNext, waitNext, afterLoad, ite_eq_iff] at hw
  case wInc =>
    simp only [step, Option.some.injEq, Prod.mk.injEq] at hs
    obtain ⟨rfl, rfl⟩ := hs
    simp [signalReturn, signalNext, waitNext, afterLoad, ite_eq_iff] at hw
  case wCheck =>
    simp only [step, Option.some.injEq, Prod.mk.injEq] at hs
    obtain ⟨rfl, rfl⟩ := hs
    simp [signalReturn, signalNext, waitNext, afterLoad, ite_eq_iff] at hw
  case wSlot i =>
    simp only [step] at hs
    split at hs <;> simp only [Option.some.injEq, Prod.mk.injEq] at hs <;>
      obtain ⟨rfl, rfl⟩ := hs <;> simp [signalReturn, signalNext, waitNext, afterLoad, ite_eq_iff] at hw
  case wRecheck i =>
    simp only [step, Option.some.injEq, Prod.mk.injEq] at hs
    obtain ⟨rfl, rfl⟩ := hs
    simp [signalReturn, signalNext, waitNext, afterLoad, ite_eq_iff] at hw
  case wAbort old =>
    simp only [step, Option.some.injEq, Prod.mk.injEq] at hs
    obtain ⟨rfl, rfl⟩ := hs
    simp [signalReturn, signalNext, waitNext, afterLoad, ite_eq_iff] at hw
  case wPublish i =>
    simp only [step] at hs
    split at hs <;> simp only [Option.some.injEq, Prod.mk.injEq] at hs <;>
      obtain ⟨rfl, rfl⟩ := hs <;> simp [signalReturn, signalNext, waitNext, afterLoad, ite_eq_iff] at hw
  case wPark =>
    obtain ⟨hpos, rfl, rfl⟩ := step_park tid m m' a t' hs
    exact Pc.noConfusion hw

end DecomissionableFixedSizeLastInFirstOutSemaphore

namespace DecomissionableFixedSizeLastInFirstOutSemaphore

/-! ## Several semaphores used by the same threads -/

theorem list_decompose {α : Type} (l : List α) (i : Nat) (x : α) (h : l.get? i = some x) :
    ∃ l1 l2, l = l1 ++ x :: l2 ∧ l1.length = i ∧ ∀ y, l.set i y = l1 ++ y :: l2 := by
  rw [List.get?_eq_getElem?, List.getElem?_eq_some] at h
  obtain ⟨hlt, rfl⟩ := h
  refine ⟨l.take i, l.drop (i + 1), ?_, ?_, ?_⟩
  · rw [← List.drop_eq_getElem_cons hlt, List.take_append_drop]
  · exact List.length_take_of_le (by omega)
  · intro y
    rw [List.set_eq_take_append_cons_drop, if_pos hlt]

theorem sum_map_set (l : List Mem) (s : Nat) (m m' : Mem) (f : Mem → Nat)
    (hs : l.get? s = some m) :
    ((l.set s m').map f).sum + f m = (l.map f).sum + f m' := by
  obtain ⟨l1, l2, hl, -, hset⟩ := list_decompose l s m hs
  rw [hset m', hl]
  simp only [List.map_append, List.map_cons, List.sum_append, List.sum_cons]
  omega

theorem mem_set_cases (l : List Mem) (s : Nat) (m' x : Mem) (hx : x ∈ l.set s m') :
    x ∈ l ∨ x = m' := by
  rcases List.mem_or_eq_of_mem_set hx with h | h
  · exact Or.inl h
  · exact Or.inr h

/-- A step action changes one semaphore, the thread-local kernel semaphores and one thread
according to `step`. -/
theorem world_step_decompose (w w' : World) (tid : Nat) (h : w.act (.step tid) = some w') :
    ∃ l1 s t l2 m m' t', w.threads = l1 ++ (s, t) :: l2 ∧ l1.length = tid ∧
      w.sems.get? s = some m ∧
      step tid { m with ksem := w.ksem } t = some (m', t') ∧
      w' = ⟨w.sems.set s m', m'.ksem, l1 ++ (s, t') :: l2⟩ := by
  simp only [World.act] at h
  split at h
  · exact Option.noConfusion h
  · rename_i p hp
    split at h
    · exact Option.noConfusion h
    · rename_i m0 hm0
      split at h
      · exact Option.noConfusion h
      · rename_i r hr
        obtain ⟨l1, l2, hts, hlen, hset⟩ := list_decompose w.threads tid p hp
        simp only [Option.some.injEq] at h
        subst h
        simp only [World.view, Option.map_eq_some'] at hm0
        obtain ⟨m, hm, rfl⟩ := hm0
        obtain ⟨s, t⟩ := p
        obtain ⟨m', t'⟩ := r
        exact ⟨l1, s, t, l2, m, m', t', hts, hlen, hm, hr, by rw [hset]⟩

/-- A call action puts one idle thread at the entry of the operation on a semaphore. -/
theorem world_call_decompose (w w' : World) (tid s : Nat) (op : Op)
    (h : w.act (.call tid s op) = some w') :
    ∃ l1 s0 a l2, w.threads = l1 ++ (s0, ⟨.idle, a⟩) :: l2 ∧ l1.length = tid ∧
      w' = ⟨w.sems, w.ksem, l1 ++ (s, ⟨op.entry, a⟩) :: l2⟩ := by
  simp only [World.act] at h
  split at h
  · exact Option.noConfusion h
  · rename_i p hp
    split at h
    · rename_i hidle
      obtain ⟨l1, l2, hts, hlen, hset⟩ := list_decompose w.threads tid p hp
      simp only [Option.some.injEq] at h
      subst h
      obtain ⟨s0, pc, a⟩ := p
      simp only at hidle
      obtain ⟨rfl, -⟩ := hidle
      exact ⟨l1, s0, a, l2, hts, hlen, by rw [hset]⟩
    · exact Option.noConfusion h

theorem worldInv_init (k n : Nat) : WorldInv (World.init k n) := by
  refine ⟨?_, ?_, ?_⟩
  · intro m hm
    simp only [World.init, List.mem_replicate] at hm
    rw [hm.2]
    simp [fresh]
  · intro t ht
    simp only [World.plain, World.init, List.map_replicate, List.mem_replicate] at ht
    rw [ht.2]
    trivial
  · intro h
    have h1 : (World.init k n).slotsTotal h = 0 := by
      simp only [World.slotsTotal, World.init, List.map_replicate]
      apply List.sum_eq_zero
      intro x hx
      rw [(List.mem_replicate.mp hx).2]
      simp [slotsOf, fresh, List.count_eq_zero]
    have hplain : (World.init k n).plain = List.replicate n Thread.fresh := by
      simp [World.plain, World.init]
    have h2 : threadsAt (Pc.wakes h) (World.init k n).plain = 0 := by
      rw [hplain]
      exact threadsAt_replicate_idle (Pc.wakes h) rfl n
    have h3 : (World.init k n).ksem h = 0 := rfl
    have h4 : parkedAt (World.init k n).plain h = 0 := by
      rw [hplain]
      simp only [parkedAt, List.get?_eq_getElem?]
      by_cases hlt : h < n
      · simp [List.getElem?_replicate, hlt, Thread.fresh]
      · simp [List.getElem?_replicate, hlt]
    rw [h1, h2, h3, h4]

theorem act_worldInv (w w' : World) (a : WorldAction) (hact : w.act a = some w')
    (hi : WorldInv w) : WorldInv w' := by
  obtain ⟨hlen, hidx, hh⟩ := hi
  cases a with
  | call tid s op =>
    obtain ⟨l1, s0, al, l2, hts, hl1, rfl⟩ := world_call_decompose w w' tid s op hact
    have hp : w.plain = l1.map Prod.snd ++ ⟨.idle, al⟩ :: l2.map Prod.snd := by
      simp [World.plain, hts]
    have hll : (l1.map Prod.snd).length = l1.length := List.length_map _ _
    refine ⟨hlen, ?_, ?_⟩
    · intro t ht
      simp only [World.plain, List.map_append, List.map_cons, List.mem_append,
        List.mem_cons] at ht
      rcases ht with ht | rfl | ht
      · exact hidx t (by rw [hp]; simp only [List.mem_append]; exact Or.inl ht)
      · cases op <;> trivial
      · exact hidx t (by
          rw [hp]
          simp only [List.mem_append, List.mem_cons]
          exact Or.inr (Or.inr ht))
    · intro g
      have hg := hh g
      rw [hp] at hg
      simp only [World.plain, List.map_append, List.map_cons, World.slotsTotal,
        threadsAt_append_cons] at hg ⊢
      have hw1 : (Pc.wakes g Pc.idle) = false := rfl
      have hw2 : (Pc.wakes g op.entry) = false := by cases op <;> rfl
      simp only [hw1, hw2] at hg ⊢
      by_cases hx : g = (l1.map Prod.snd).length
      · subst hx
        rw [parkedAt_append_cons_self] at hg ⊢
        have he : ¬ op.entry = Pc.wPark := by cases op <;> simp [Op.entry]
        simp only [he, if_false]
        simpa using hg
      · rw [parkedAt_append_cons_ne _ _ _ ⟨.idle, al⟩ g hx]
        exact hg
  | step tid =>
    obtain ⟨l1, s, t0, l2, m, m', t1, hts, hl1, hm, hs, rfl⟩ :=
      world_step_decompose w w' tid hact
    have hp : w.plain = l1.map Prod.snd ++ t0 :: l2.map Prod.snd := by
      simp [World.plain, hts]
    have hll : (l1.map Prod.snd).length = tid := by rw [List.length_map, hl1]
    subst hll
    have hmem : m ∈ w.sems := List.get?_mem hm
    have hmlen := hlen m hmem
    have hidx0 : t0.pc.indexOk := hidx t0 (by rw [hp]; simp)
    have hk : t0.pc ≠ .wPark → w.ksem (l1.map Prod.snd).length = 0 := by
      intro hne
      have hg := hh (l1.map Prod.snd).length
      rw [hp, parkedAt_append_cons_self, if_neg hne] at hg
      omega
    refine ⟨?_, ?_, ?_⟩
    · intro x hx
      rcases mem_set_cases w.sems s m' x hx with h | rfl
      · exact hlen x h
      · rw [step_length _ _ _ _ _ hs]
        exact hmlen
    · intro t ht
      simp only [World.plain, List.map_append, List.map_cons, List.mem_append,
        List.mem_cons] at ht
      rcases ht with ht | rfl | ht
      · exact hidx t (by rw [hp]; simp only [List.mem_append]; exact Or.inl ht)
      · exact step_indexOk _ _ _ _ _ hs hidx0
      · exact hidx t (by
          rw [hp]
          simp only [List.mem_append, List.mem_cons]
          exact Or.inr (Or.inr ht))
    · intro g
      have hloc := step_handle_local _ { m with ksem := w.ksem } m' t0 t1 hs hmlen hidx0 hk g
      have hsum := sum_map_set w.sems s m m' (fun x => slotsOf x g) hm
      have hg := hh g
      rw [hp] at hg
      have hso : slotsOf { m with ksem := w.ksem } g = slotsOf m g := rfl
      have hks : ({ m with ksem := w.ksem } : Mem).ksem g = w.ksem g := rfl
      rw [hso, hks] at hloc
      simp only [World.plain, List.map_append, List.map_cons, World.slotsTotal,
        threadsAt_append_cons] at hg hsum ⊢
      by_cases hx : g = (l1.map Prod.snd).length
      · subst hx
        rw [parkedAt_append_cons_self] at hg ⊢
        simp only [true_and] at hloc
        omega
      · rw [parkedAt_append_cons_ne _ _ t1 t0 g hx]
        simp only [hx, false_and, if_false] at hloc
        omega

theorem run_worldInv (acts : List WorldAction) (w w' : World) (h : w.run acts = some w')
    (hi : WorldInv w) : WorldInv w' := by
  induction acts generalizing w with
  | nil =>
    simp only [World.run, Option.some.injEq] at h
    exact h ▸ hi
  | cons a as ih =>
    simp only [World.run] at h
    split at h
    · exact Option.noConfusion h
    · rename_i w1 h1
      exact ih w1 h (act_worldInv w w1 a h1 hi)

end DecomissionableFixedSizeLastInFirstOutSemaphore

namespace DecomissionableFixedSizeLastInFirstOutSemaphore

set_option maxHeartbeats 4000000 in
/-- Effect of one step, in any run, on the accounting of tokens and wake-ups: the step leaves
`count` at 0; or it reads `waiters == 0`; or it keeps the kernel semaphores and neither adds
a waiter committed to parking nor lets `count` grow by more than the thread comes to stand
for a token; or it signals a kernel semaphore; or it consumes the signal of the own kernel
semaphore. -/
theorem step_owed_local (tid : Nat) (m m' : Mem) (t t' : Thread)
    (hs : step tid m t = some (m', t')) (h3 : t.pc.oldPositive)
    (hlen : m.semaphores.length = SEMAPHORES) (hidx : t.pc.indexOk)
    (hk : t.pc ≠ .wPark → m.ksem tid = 0) :
    m'.count = 0 ∨
    (m.waiters = 0 ∧ t'.pc.atPublish = t.pc.atPublish ∧ occupied m' = occupied m) ∨
    (m'.ksem = m.ksem ∧
      (if t'.pc.atPublish then 1 else 0) + occupied m'
        ≤ (if t.pc.atPublish then 1 else 0) + occupied m ∧
      m'.count + (if t.pc.owed then 1 else 0)
        ≤ m.count + (if t'.pc.owed then 1 else 0)) ∨
    (∃ g, t.pc.wakes g = true ∧ m'.ksem = Function.update m.ksem g (m.ksem g + 1) ∧
      t.pc.owed = true ∧ t'.pc.owed = false ∧ m'.count = m.count ∧
      t.pc.atPublish = false ∧ t'.pc.atPublish = false ∧ occupied m' = occupied m) ∨
    (t.pc = .wPark ∧ 0 < m.ksem tid ∧
      m'.ksem = Function.update m.ksem tid (m.ksem tid - 1) ∧
      t.pc.owed = false ∧ t'.pc.owed = true ∧ m'.count = m.count ∧
      t'.pc.atPublish = false ∧ occupied m' = occupied m) := by
  obtain ⟨pc, a⟩ := t
  cases pc
  case idle =>
    simp [step] at hs
  case sInc c =>
    have := size_inc_le_succ m.count
    cases c <;> simp only [step, Option.some.injEq, Prod.mk.injEq] at hs <;>
      obtain ⟨rfl, rfl⟩ := hs <;> simp_all [Pc.owed, Pc.atPublish, occupied]
  case sWaiters c =>
    cases c <;> simp only [step, Option.some.injEq, Prod.mk.injEq] at hs <;>
      obtain ⟨rfl, rfl⟩ := hs <;> simp only [signalReturn] <;> (try split_ifs) <;>
      simp_all [Pc.owed, Pc.atPublish, Pc.oldPositive, occupied]
  case sCount c =>
    cases c <;> simp only [step, Option.some.injEq, Prod.mk.injEq] at hs <;>
      obtain ⟨rfl, rfl⟩ := hs <;> simp only [signalReturn] <;> (try split_ifs) <;>
      simp_all [Pc.owed, Pc.atPublish, Pc.oldPositive, occupied]
  case sChkWaiters c i =>
    cases c <;> simp only [step, Option.some.injEq, Prod.mk.injEq] at hs <;>
      obtain ⟨rfl, rfl⟩ := hs <;> simp only [signalReturn] <;> (try split_ifs) <;>
      simp_all [Pc.owed, Pc.atPublish, Pc.oldPositive, occupied]
  case sChkCount c i =>
    cases c <;> simp only [step, Option.some.injEq, Prod.mk.injEq] at hs <;>
      obtain ⟨rfl, rfl⟩ := hs <;> simp only [signalReturn] <;> (try split_ifs) <;>
      simp_all [Pc.owed, Pc.atPublish, Pc.oldPositive, occupied]
  case sSlot c i =>
    cases c <;> simp only [step] at hs <;> split at hs <;>
      simp only [Option.some.injEq, Prod.mk.injEq] at hs <;>
      obtain ⟨rfl, rfl⟩ := hs <;> simp only [signalNext] <;> (try split) <;>
      simp_all [Pc.owed, Pc.atPublish, Pc.oldPositive, occupied]
  case sCas c i h =>
    simp only [step] at hs
    split at hs
    · rename_i hslot
      simp only [Option.some.injEq, Prod.mk.injEq] at hs
      obtain ⟨rfl, rfl⟩ := hs
      have := occupied_set_none m i h hslot
      right
      right
      left
      refine ⟨rfl, ?_, ?_⟩
      · simp only [Pc.atPublish, occupied] at this ⊢
        simp
        omega
      · simp [Pc.owed]
    · simp only [Option.some.injEq, Prod.mk.injEq] at hs
      obtain ⟨rfl, rfl⟩ := hs
      simp only [signalNext]
      split <;> simp_all [Pc.owed, Pc.atPublish, occupied]
  case sWake c h =>
    simp only [step, Option.some.injEq, Prod.mk.injEq] at hs
    obtain ⟨rfl, rfl⟩ := hs
    right
    right
    right
    left
    exact ⟨h, by simp [Pc.wakes], rfl, rfl, rfl, rfl, rfl, rfl, rfl⟩
  case sDec c =>
    cases c <;> simp only [step, Option.some.injEq, Prod.mk.injEq] at hs <;>
      obtain ⟨rfl, rfl⟩ := hs <;> simp only [signalReturn] <;> (try split_ifs) <;>
      simp_all [Pc.owed, Pc.atPublish, Pc.oldPositive, occupied]
  case dStore =>
    simp only [step, Option.some.injEq, Prod.mk.injEq] at hs
    obtain ⟨rfl, rfl⟩ := hs
    simp_all [Pc.owed, Pc.atPublish, Pc.oldPositive, occupied]
  case dLoad =>
    simp only [step, Option.some.injEq, Prod.mk.injEq] at hs
    obtain ⟨rfl, rfl⟩ := hs
    split <;> simp_all [Pc.owed, Pc.atPublish, Pc.oldPositive, occupied]
  case wDec =>
    simp only [step, Option.some.injEq, Prod.mk.injEq] at hs
    obtain ⟨rfl, rfl⟩ := hs
    simp_all [Pc.owed, Pc.atPublish, Pc.oldPositive, occupied]
  case wLoad =>
    simp only [step, Option.some.injEq, Prod.mk.injEq] at hs
    obtain ⟨rfl, rfl⟩ := hs
    simp only [afterLoad]
    split <;> simp_all [Pc.owed, Pc.atPublish, Pc.oldPositive, occupied]
  case wCas old =>
    simp only [step] at hs
    split at hs <;> simp only [Option.some.injEq, Prod.mk.injEq] at hs <;>
      obtain ⟨rfl, rfl⟩ := hs
    · rename_i heq
      have hpos : 0 < old := h3
      have := size_dec_of_pos hpos
      right
      right
      left
      refine ⟨rfl, ?_, ?_⟩
      · simp [Pc.atPublish, occupied]
      · simp only [Pc.owed, this, heq]
        simp
        omega
    · simp only [afterLoad]
      split <;> simp_all [Pc.owed, Pc.atPublish, Pc.oldPositive, occupied]
  case wInc =>
    simp only [step, Option.some.injEq, Prod.mk.injEq] at hs
    obtain ⟨rfl, rfl⟩ := hs
    simp_all [Pc.owed, Pc.atPublish, Pc.oldPositive, occupied]
  case wCheck =>
    simp only [step, Option.some.injEq, Prod.mk.injEq] at hs
    obtain ⟨rfl, rfl⟩ := hs
    split <;> simp_all [Pc.owed, Pc.atPublish, Pc.oldPositive, occupied]
  case wSlot i =>
    simp only [step] at hs
    split at hs <;> simp only [Option.some.injEq, Prod.mk.injEq] at hs <;>
      obtain ⟨rfl, rfl⟩ := hs <;> simp only [waitNext] <;> (try split) <;>
      simp_all [Pc.owed, Pc.atPublish, Pc.oldPositive, occupied]
  case wRecheck i =>
    simp only [step, Option.some.injEq, Prod.mk.injEq] at hs
    obtain ⟨rfl, rfl⟩ := hs
    split <;> simp_all [Pc.owed, Pc.atPublish, Pc.oldPositive, occupied]
  case wAbort old =>
    simp only [step, Option.some.injEq, Prod.mk.injEq] at hs
    obtain ⟨rfl, rfl⟩ := hs
    simp_all [Pc.owed, Pc.atPublish, Pc.oldPositive, occupied]
  case wPublish i =>
    have hu := useSemaphore_eq_self tid m ⟨.wPublish i, a⟩ (hk (by simp))
    simp only [step, hu] at hs
    split at hs
    · rename_i hslot
      simp only [Option.some.injEq, Prod.mk.injEq] at hs
      obtain ⟨rfl, rfl⟩ := hs
      have hlt : i < m.semaphores.length := by
        rw [hlen]
        exact hidx
      have := occupied_set_some m i tid hslot hlt
      right
      right
      left
      refine ⟨rfl, ?_, ?_⟩
      · simp only [Pc.atPublish, occupied] at this ⊢
        simp
        omega
      · simp [Pc.owed]
    · simp only [Option.some.injEq, Prod.mk.injEq] at hs
      obtain ⟨rfl, rfl⟩ := hs
      simp only [waitNext]
      split <;> simp_all [Pc.owed, Pc.atPublish, occupied]
  case wPark =>
    obtain ⟨hpos, rfl, rfl⟩ := step_park tid m m' a t' hs
    right
    right
    right
    right
    exact ⟨rfl, hpos, rfl, rfl, rfl, rfl, rfl, rfl⟩

end DecomissionableFixedSizeLastInFirstOutSemaphore

namespace DecomissionableFixedSizeLastInFirstOutSemaphore

/-! ## Tokens and wake-ups in all runs -/

theorem owedInv_init (n : Nat) : OwedInv (Config.init n) := by
  intro _
  have : (Config.init n).mem.count = 0 := rfl
  omega

theorem act_owedInv (c c' : Config) (a : Action) (hact : c.act a = some c')
    (hop : ∀ t ∈ c.threads, t.pc.oldPositive) (hsc : ScanInv c) (hwi : WaitersInv c)
    (hhi : HandleInv c) (hi : OwedInv c) : OwedInv c' := by
  cases a with
  | call tid op =>
    obtain ⟨l1, al, l2, hts, hl1, rfl⟩ := act_call_decompose c c' tid op hact
    simp only [OwedInv, hts, threadsAt_append_cons, List.length_append, List.length_cons]
      at hi ⊢
    have h1 : Pc.atPublish op.entry = false := by cases op <;> rfl
    have h2 : Pc.atPublish Pc.idle = false := rfl
    have h3 : Pc.owed Pc.idle = false := rfl
    simp only [h1, h2, h3, Bool.false_eq_true, if_false] at hi ⊢
    intro hp
    have := hi hp
    split <;> omega
  | step tid =>
    obtain ⟨l1, t0, l2, m', t1, hts, hl1, hs, rfl⟩ := act_step_decompose c c' tid hact
    subst hl1
    have hmem : t0 ∈ c.threads := by rw [hts]; simp
    have hd3 := hop t0 hmem
    have hk : t0.pc ≠ .wPark → c.mem.ksem l1.length = 0 := by
      intro hne
      have hg := hhi l1.length
      rw [hts, parkedAt_append_cons_self, if_neg hne] at hg
      omega
    have hloc := step_owed_local l1.length c.mem m' t0 t1 hs hd3 hsc.1
      (hsc.2 t0 hmem) hk
    have hw := hwi.2
    have hp1 := threadsAt_mono Pc.atPublish Pc.accounted atPublish_accounted l1
    have hp2 := threadsAt_mono Pc.atPublish Pc.accounted atPublish_accounted l2
    have hlt : l1.length < l1.length + (l2.length + 1) := by omega
    simp only [OwedInv, hts, threadsAt_append_cons, List.length_append, List.length_cons]
      at hi hw ⊢
    intro hp
    rcases hloc with hz | ⟨hv1, hv2, hv3⟩ | ⟨hm1, hm2, hm3⟩ |
      ⟨g, hg1, hg2, hg3, hg4, hg5, hg6, hg7, hg8⟩ | ⟨hq1, hq2, hq3, hq4, hq5, hq6, hq7, hq8⟩
    · show m'.count ≤ _
      omega
    · exfalso
      have hind : (if t0.pc.atPublish = true then 1 else 0)
          ≤ (if t0.pc.accounted = true then 1 else 0) := by
        by_cases hpub : t0.pc.atPublish = true
        · rw [if_pos hpub, if_pos (atPublish_accounted t0.pc hpub)]
        · rw [if_neg hpub]
          exact Nat.zero_le _
      rw [hv2, hv3] at hp
      omega
    · have hpe := pending_congr c.mem m' (l1.length + (l2.length + 1)) hm1
      show m'.count ≤ _ + pending m' _
      rw [hpe]
      have := hi (by omega)
      omega
    · have hglt : g < l1.length + (l2.length + 1) := by
        have hg := hhi g
        have hpos : 0 < parkedAt c.threads g := by
          rw [← hg, hts, threadsAt_append_cons, hg1]
          simp only [if_true]
          omega
        have := parkedAt_pos_lt c.threads g hpos
        rw [hts] at this
        simpa using this
      have hpe := pending_update c.mem m' (l1.length + (l2.length + 1)) g (c.mem.ksem g + 1)
        hglt hg2
      show m'.count ≤ _ + pending m' _
      rw [hg5]
      simp only [hg3, hg4, hg6, hg7, hg8, if_true, Bool.false_eq_true, if_false] at hi hp ⊢
      have := hi (by omega)
      omega
    · have hpe := pending_update c.mem m' (l1.length + (l2.length + 1)) l1.length
        (c.mem.ksem l1.length - 1) hlt hq3
      have hpub0 : t0.pc.atPublish = false := by rw [hq1]; rfl
      show m'.count ≤ _ + pending m' _
      rw [hq6]
      simp only [hq4, hq5, hq7, hq8, hpub0, if_true, Bool.false_eq_true, if_false] at hi hp ⊢
      have := hi (by omega)
      omega


theorem run_owedInv (acts : List Action) (c c' : Config) (h : c.run acts = some c')
    (hop : ∀ t ∈ c.threads, t.pc.oldPositive) (hsc : ScanInv c) (hwi : WaitersInv c)
    (hhi : HandleInv c) (hi : OwedInv c) : OwedInv c' := by
  induction acts generalizing c with
  | nil =>
    simp only [Config.run, Option.some.injEq] at h
    subst h
    exact hi
  | cons a as ih =>
    simp only [Config.run] at h
    split at h
    · exact Option.noConfusion h
    · rename_i c1 h1
      exact ih c1 h (act_oldPositive c c1 a h1 hop) (act_scanInv c c1 a h1 hsc)
        (act_waitersInv c c1 a h1 hsc hwi).1 (act_handleInv c c1 a h1 hsc hhi)
        (act_owedInv c c1 a h1 hop hsc hwi hhi hi)

theorem run_threads_length (acts : List Action) (c c' : Config) (h : c.run acts = some c') :
    c'.threads.length = c.threads.length := by
  induction acts generalizing c with
  | nil =>
    simp only [Config.run, Option.some.injEq] at h
    subst h
    rfl
  | cons a as ih =>
    simp only [Config.run] at h
    split at h
    · exact Option.noConfusion h
    · rename_i c1 h1
      rw [ih c1 h, act_threads_length c c1 a h1]

theorem pending_le (m : Mem) (n : Nat) (h : ∀ k, k < n → m.ksem k ≤ 1) : pending m n ≤ n := by
  induction n with
  | zero => simp [pending]
  | succ n ih =>
    have h1 := ih (fun k hk => h k (by omega))
    have h2 := h n (by omega)
    simp only [pending, List.range_succ, List.map_append, List.sum_append, List.map_cons,
      List.map_nil, List.sum_cons, List.sum_nil] at h1 ⊢
    omega

/-- In every run `count` stays in the range of a `size_t`. -/
theorem run_count_le (acts : List Action) (c c' : Config) (h : c.run acts = some c')
    (hop : ∀ t ∈ c.threads, t.pc.oldPositive) (hc : c.mem.count ≤ SIZE_MAX) :
    c'.mem.count ≤ SIZE_MAX := by
  induction acts generalizing c with
  | nil =>
    simp only [Config.run, Option.some.injEq] at h
    subst h
    exact hc
  | cons a as ih =>
    simp only [Config.run] at h
    split at h
    · exact Option.noConfusion h
    · rename_i c1 h1
      refine ih c1 h (act_oldPositive c c1 a h1 hop) ?_
      cases a with
      | call tid op =>
        obtain ⟨l1, al, l2, -, -, rfl⟩ := act_call_decompose c c1 tid op h1
        exact hc
      | step tid =>
        obtain ⟨l1, t0, l2, m', t1, hts, -, hs, rfl⟩ := act_step_decompose c c1 tid h1
        rcases step_count_local tid c.mem m' t0 t1 hs (hop t0 (by rw [hts]; simp)) with
          h | ⟨-, h⟩ | ⟨old, -, -, h3, h4, -⟩
        · show m'.count ≤ SIZE_MAX
          rw [h]
          exact hc
        · show m'.count ≤ SIZE_MAX
          rw [h]
          exact size_inc_le _
        · show m'.count ≤ SIZE_MAX
          omega

/-- In a configuration reached from a fresh semaphore with `n` threads, `count` is at most
`2 * n` while a slot is occupied: a token in `count` belongs to a thread that stands for it
or to a pending signal. -/
theorem count_le_of_occupied (n : Nat) (hn : n + SEMAPHORES ≤ SIZE_MAX) (acts : List Action)
    (c : Config) (hrun : (Config.init n).run acts = some c) (hocc : 0 < occupied c.mem) :
    c.mem.count ≤ 2 * n := by
  have hlen : c.threads.length = n := by
    rw [run_threads_length acts _ c hrun]
    simp [Config.init]
  have hhi := run_handleInv acts _ c hrun (scanInv_init n) (handleInv_init n)
  have hoi := run_owedInv acts _ c hrun (oldPositive_init n) (scanInv_init n)
    (waitersInv_init n hn) (handleInv_init n) (owedInv_init n)
  have h1 := hoi (by omega)
  have h2 : threadsAt Pc.owed c.threads ≤ n := hlen ▸ threadsAt_le_length Pc.owed c.threads
  have h3 : pending c.mem c.threads.length ≤ c.threads.length := by
    apply pending_le
    intro k _
    have := hhi k
    have := parkedAt_le_one c.threads k
    omega
  omega

/-- The hypotheses of the sequential lemmas about `signal()` and `decomission()` hold in
every configuration reached from a fresh semaphore with `n` threads,
`2 * n + SEMAPHORES ≤ SIZE_MAX`: the array has `SEMAPHORES` slots, the occupied slots are at
most `waiters`, and `count` plus the occupied slots is at most `SIZE_MAX`. -/
theorem reachable_bounds (n : Nat) (hn : 2 * n + SEMAPHORES ≤ SIZE_MAX) (acts : List Action)
    (c : Config) (hrun : (Config.init n).run acts = some c) :
    c.mem.wf ∧ occupied c.mem ≤ c.mem.waiters ∧ occupied c.mem ≤ SEMAPHORES ∧
    c.mem.count + occupied c.mem ≤ SIZE_MAX ∧
    (0 < occupied c.mem → c.mem.count < SIZE_MAX) := by
  have hn' : n + SEMAPHORES ≤ SIZE_MAX := by omega
  have hsc := run_scanInv acts _ c hrun (scanInv_init n)
  have hwi := (run_waitersInv acts _ c hrun (scanInv_init n) (waitersInv_init n hn')).1
  have hcnt := run_count_le acts _ c hrun (oldPositive_init n) (Nat.zero_le _)
  have hlen : c.threads.length = n := by
    rw [run_threads_length acts _ c hrun]
    simp [Config.init]
  have hoccN : occupied c.mem ≤ SEMAPHORES := by
    rw [← hsc.1]
    exact List.countP_le_length _
  have hacc := threadsAt_le_length Pc.accounted c.threads
  have hw := hwi.2
  have hSEM : (0 : Nat) < SEMAPHORES := by decide
  have hbig : 0 < occupied c.mem → c.mem.count ≤ 2 * n :=
    count_le_of_occupied n hn' acts c hrun
  refine ⟨⟨hcnt, by omega, hsc.1⟩, by omega, hoccN, ?_, ?_⟩
  · by_cases h0 : 0 < occupied c.mem
    · have := hbig h0
      omega
    · omega
  · intro h0
    have := hbig h0
    omega

end DecomissionableFixedSizeLastInFirstOutSemaphore

/-! ## The claims -/

section Claims

open DecomissionableFixedSizeLastInFirstOutSemaphore

/-- C1 (as amended): for every `k ≤ SIZE_MAX`, on a fresh semaphore used by a single thread,
`k` calls of `signal()` each return within two steps and leave `count = k`, and `k` calls
of `wait()` then each return within two steps, never evaluating `_semaphore_` (the thread's
`allocated` flag is unchanged), and the final state is the fresh state. -/
theorem C1_signals_then_waits (tid : Nat) (a : Bool) (k : Nat) (hk : k ≤ SIZE_MAX) :
    ∃ m, calls tid .signal 2 k (fresh, ⟨.idle, a⟩) = some (m, ⟨.idle, a⟩) ∧ m.count = k ∧
      calls tid .wait 2 k (m, ⟨.idle, a⟩) = some (fresh, ⟨.idle, a⟩) := by
  have hmod : k % SIZE_MOD = k := by
    simp only [SIZE_MAX, SIZE_MOD] at *
    omega
  refine ⟨{ fresh with count := k }, ?_, rfl, ?_⟩
  · have h := calls_signal_no_waiters tid a k fresh rfl (by decide)
    simpa [fresh, KernelSemaphore.init, hmod] using h
  · have h := calls_wait_fast tid ⟨.idle, a⟩ rfl k { fresh with count := k }
      (Nat.le_refl k) hk
    simpa [fresh] using h

/-- Instance of `C1_signals_then_waits` at `k = 3`, thread 0. -/
theorem C1_signals_then_waits_witness :
    3 ≤ SIZE_MAX ∧
    ∃ m, calls 0 .signal 2 3 (fresh, ⟨.idle, false⟩) = some (m, ⟨.idle, false⟩) ∧ m.count = 3 ∧
      calls 0 .wait 2 3 (m, ⟨.idle, false⟩) = some (fresh, ⟨.idle, false⟩) :=
  ⟨by decide, C1_signals_then_waits 0 false 3 (by decide)⟩

/-- C1 fails at `k = 2 ^ 64`: the `k` calls of `signal()` wrap `count` around to 0, so the
state is the fresh state again, `count` is not `k`, and the first `wait()` does not return
however long it runs. -/
theorem C1_counterexample :
    calls 0 .signal 2 SIZE_MOD (fresh, Thread.fresh) = some (fresh, Thread.fresh) ∧
    fresh.count ≠ SIZE_MOD ∧
    ∀ fuel, calls 0 .wait fuel SIZE_MOD (fresh, Thread.fresh) = none := by
  refine ⟨?_, by decide, ?_⟩
  · have h := calls_signal_no_waiters 0 false SIZE_MOD fresh rfl (by decide)
    simpa [fresh, Thread.fresh, KernelSemaphore.init] using h
  · intro fuel
    have hp : (call 0 .wait fuel (fresh, Thread.fresh)).2.pc ≠ .idle :=
      runThread_never_idle 0 6 (fresh, { Thread.fresh with pc := Op.entry .wait }) rfl
        (by decide) fuel
    rw [SIZE_MOD_eq, calls, if_neg hp]

/-- C2: on a decommissioned semaphore `wait()` returns without blocking.  For the fixed-size
semaphore the call returns within four steps, at no point is the thread at the slot
compare-and-set or at `_semaphore_->wait()`, the slots and the thread-local kernel semaphores
are never modified, and `waiters` is the same after the call as before.  For
`DecomissionableKernelSemaphore` the call returns within three steps, never reaches the inner
`KernelSemaphore::wait()`, and leaves the whole state, `waiters` included, unchanged. -/
theorem C2_wait_decommissioned :
    (∀ (tid : Nat) (m : Mem) (t : Thread), m.wf → m.comissioned = false → t.pc = .idle →
      ∃ fuel, fuel ≤ 4 ∧
        (call tid .wait fuel (m, t)).2 = t ∧
        (call tid .wait fuel (m, t)).1.waiters = m.waiters ∧
        (call tid .wait fuel (m, t)).1.comissioned = false ∧
        ∀ j, (∀ i, (call tid .wait j (m, t)).2.pc ≠ .wPublish i) ∧
          (call tid .wait j (m, t)).2.pc ≠ .wPark ∧
          (call tid .wait j (m, t)).1.semaphores = m.semaphores ∧
          (call tid .wait j (m, t)).1.ksem = m.ksem ∧
          (call tid .wait j (m, t)).2.allocated = t.allocated) ∧
    (∀ m : DecomissionableKernelSemaphore.Mem, m.waiters ≤ SIZE_MAX → m.comissioned = false →
      DecomissionableKernelSemaphore.call .wait 3 m = (m, .idle) ∧
      ∀ j, (DecomissionableKernelSemaphore.call .wait j m).2 ≠ .wInner) := by
  constructor
  · intro tid m t hwf hd ht
    obtain ⟨hc, hw, -⟩ := hwf
    have hidle : ({ t with pc := Pc.idle } : Thread) = t := by
      cases t
      cases ht
      rfl
    by_cases hz : m.count = 0
    · have h4 := wait_decommissioned_zero tid m t hw hd hz
      rw [hidle] at h4
      refine ⟨4, le_refl _, ?_, ?_, ?_, ?_⟩
      · rw [h4]
      · rw [h4]
      · rw [h4]; exact hd
      intro j
      rcases j with _ | _ | _ | _ | j
      · simp [call, runThread, Op.entry]
      · simp [call, runThread, step, Op.entry, afterLoad, hz]
      · simp [call, runThread, step, Op.entry, afterLoad, hz]
      · simp [call, runThread, step, Op.entry, afterLoad, hz, hd]
      · have e : call tid .wait (j + 1 + 1 + 1 + 1) (m, t) = call tid .wait 4 (m, t) :=
          runThread_idle_mono tid 4 _ _ (by
            show (call tid .wait 4 (m, t)).2.pc = .idle
            rw [h4]; exact ht) (by omega)
        rw [e, h4]
        simp [ht]
    · have hpos : 0 < m.count := Nat.pos_of_ne_zero hz
      have h2 := wait_fast tid m t hpos
      rw [hidle] at h2
      refine ⟨2, by omega, ?_, ?_, ?_, ?_⟩
      · rw [h2]
      · rw [h2]
      · rw [h2]; exact hd
      intro j
      rcases j with _ | _ | j
      · simp [call, runThread, Op.entry]
      · simp [call, runThread, step, Op.entry, afterLoad, hpos]
      · have e : call tid .wait (j + 1 + 1) (m, t) = call tid .wait 2 (m, t) :=
          runThread_idle_mono tid 2 _ _ (by
            show (call tid .wait 2 (m, t)).2.pc = .idle
            rw [h2]; exact ht) (by omega)
        rw [e, h2]
        simp [ht]
  · intro m hw hd
    have h3 := DecomissionableKernelSemaphore.wait_decommissioned m hw hd
    refine ⟨h3, ?_⟩
    intro j
    rcases j with _ | _ | _ | j
    · simp [DecomissionableKernelSemaphore.call, DecomissionableKernelSemaphore.runThread,
        DecomissionableKernelSemaphore.Op.entry]
    · simp [DecomissionableKernelSemaphore.call, DecomissionableKernelSemaphore.runThread,
        DecomissionableKernelSemaphore.step, DecomissionableKernelSemaphore.Op.entry]
    · simp [DecomissionableKernelSemaphore.call, DecomissionableKernelSemaphore.runThread,
        DecomissionableKernelSemaphore.step, DecomissionableKernelSemaphore.Op.entry, hd]
    · have e : DecomissionableKernelSemaphore.call .wait (j + 1 + 1 + 1) m
          = DecomissionableKernelSemaphore.call .wait 3 m := by
        have : j + 1 + 1 + 1 = 3 + j := by omega
        rw [this]
        unfold DecomissionableKernelSemaphore.call
        rw [DecomissionableKernelSemaphore.kernel_runThread_add]
        apply DecomissionableKernelSemaphore.kernel_runThread_stuck
        have h3u := h3
        unfold DecomissionableKernelSemaphore.call at h3u
        rw [h3u]
        rfl
      rw [e, h3]
      simp

/-- Instance of `C2_wait_decommissioned`: a decommissioned fixed-size semaphore with one
waiter in slot 0, and a decommissioned kernel semaphore with one waiter. -/
theorem C2_wait_decommissioned_witness :
    (∃ fuel, fuel ≤ 4 ∧
        (call 1 .wait fuel (parkedOneDecommissioned, Thread.fresh)).2 = Thread.fresh) ∧
    DecomissionableKernelSemaphore.call .wait 3 ⟨false, 1, 0⟩ = (⟨false, 1, 0⟩, .idle) := by
  obtain ⟨h1, h2⟩ := C2_wait_decommissioned
  constructor
  · obtain ⟨fuel, hf, ht, -⟩ := h1 1 parkedOneDecommissioned Thread.fresh parkedOneDecommissioned_wf rfl rfl
    exact ⟨fuel, hf, ht⟩
  · exact (h2 ⟨false, 1, 0⟩ (by decide) rfl).1

/-- C8: for both decommissionable semaphores `decomissioned()` is the negation of the flag
`comissioned`, it is false on a fresh semaphore, and once a thread has executed the store of
`decomission()` it is true after every further sequence of scheduling actions, that is after
any interleaving of later calls of `wait()`, `signal()` and `decomission()`. -/
theorem C8_decommission_one_way :
    ((∀ m : Mem, decomissioned m = !m.comissioned) ∧
      decomissioned fresh = false ∧
      ∀ (c c' c'' : Config) (tid : Nat) (t : Thread) (acts : List Action),
        c.threads.get? tid = some t → t.pc = .dStore → c.act (.step tid) = some c' →
        c'.run acts = some c'' → decomissioned c''.mem = true) ∧
    ((∀ m : DecomissionableKernelSemaphore.Mem,
        DecomissionableKernelSemaphore.decomissioned m = !m.comissioned) ∧
      DecomissionableKernelSemaphore.decomissioned DecomissionableKernelSemaphore.fresh
        = false ∧
      ∀ (c c' c'' : DecomissionableKernelSemaphore.Config) (tid : Nat)
        (acts : List DecomissionableKernelSemaphore.Action),
        c.threads.get? tid = some .dStore → c.act (.step tid) = some c' →
        c'.run acts = some c'' →
        DecomissionableKernelSemaphore.decomissioned c''.mem = true) := by
  refine ⟨⟨fun _ => rfl, rfl, ?_⟩, ⟨fun _ => rfl, rfl, ?_⟩⟩
  · intro c c' c'' tid t acts hget hpc hact hrun
    have hstore : c'.mem.comissioned = false := by
      obtain ⟨pc, a⟩ := t
      simp only [] at hpc
      subst hpc
      simp only [Config.act, hget, step, Option.some.injEq] at hact
      subst hact
      rfl
    have := run_comissioned acts c' c'' hrun hstore
    simp [decomissioned, this]
  · intro c c' c'' tid acts hget hact hrun
    have hstore : c'.mem.comissioned = false := by
      simp only [DecomissionableKernelSemaphore.Config.act, hget,
        DecomissionableKernelSemaphore.step, Option.some.injEq] at hact
      subst hact
      rfl
    have := DecomissionableKernelSemaphore.kernel_run_comissioned acts c' c'' hrun hstore
    simp [DecomissionableKernelSemaphore.decomissioned, this]

/-- Instance of `C8_decommission_one_way`: thread 0 executes the store of `decomission()`,
then reads `waiters` and returns, and thread 1 runs a whole `signal()` (resp. `wait()`). -/
theorem C8_decommission_one_way_witness :
    decomissioned (((Config.mk { fresh with comissioned := false }
        [⟨.dLoad, false⟩, ⟨.idle, false⟩]).run
        [.step 0, .call 1 .signal, .step 1, .step 1]).getD (Config.init 0)).mem = true ∧
    DecomissionableKernelSemaphore.decomissioned
      (((DecomissionableKernelSemaphore.Config.mk ⟨false, 0, 0⟩ [.dLoad, .idle]).run
        [.step 0, .call 1 .wait, .step 1, .step 1, .step 1]).getD
        (DecomissionableKernelSemaphore.Config.init 0)).mem = true :=
  ⟨C8_decommission_one_way.1.2.2 ⟨fresh, [⟨.dStore, false⟩, ⟨.idle, false⟩]⟩
      ⟨{ fresh with comissioned := false }, [⟨.dLoad, false⟩, ⟨.idle, false⟩]⟩ _ 0
      ⟨.dStore, false⟩ [.step 0, .call 1 .signal, .step 1, .step 1] rfl rfl rfl rfl,
   C8_decommission_one_way.2.2.2 ⟨DecomissionableKernelSemaphore.fresh, [.dStore, .idle]⟩
      ⟨⟨false, 0, 0⟩, [.dLoad, .idle]⟩ _ 0
      [.step 0, .call 1 .wait, .step 1, .step 1, .step 1] rfl rfl rfl⟩

/-- C6 fails on the state `parkedOne` (thread 0 parked in slot 0, `waiters = 1`, `count = 0`):
a `signal()` of thread 1 returns after nine steps having done both things, `count` is one
greater than before and the kernel semaphore of thread 0 has been signaled. -/
theorem C6_counterexample :
    (call 1 .signal 9 (parkedOne, Thread.fresh)).2.pc = .idle ∧
    (call 1 .signal 9 (parkedOne, Thread.fresh)).1.count = parkedOne.count + 1 ∧
    (call 1 .signal 9 (parkedOne, Thread.fresh)).1.ksem 0 = parkedOne.ksem 0 + 1 := by
  refine ⟨by decide, by decide, by decide⟩

/-- C6 (as amended): a `signal()` called by user code that runs without interference and
returns has always stored `count + 1` (as a `size_t`) into `count`, and has signaled at
most one kernel semaphore: none, leaving the slots and `waiters` alone, when `waiters = 0`
at entry or the increment wrapped `count` to 0; exactly the one held by the lowest-indexed
occupied slot, emptying that slot and decrementing `waiters`, otherwise. -/
theorem C6_signal_effect (tid : Nat) (m : Mem) (t : Thread) (fuel : Nat)
    (hwf : m.wf) (ht : t.pc = .idle)
    (hret : (call tid .signal fuel (m, t)).2.pc = .idle) :
    (call tid .signal fuel (m, t)).2 = t ∧
    (call tid .signal fuel (m, t)).1.count = size_inc m.count ∧
    (call tid .signal fuel (m, t)).1.comissioned = m.comissioned ∧
    (((m.waiters = 0 ∨ size_inc m.count = 0) ∧
        (call tid .signal fuel (m, t)).1.ksem = m.ksem ∧
        (call tid .signal fuel (m, t)).1.semaphores = m.semaphores ∧
        (call tid .signal fuel (m, t)).1.waiters = m.waiters) ∨
      (0 < m.waiters ∧ 0 < size_inc m.count ∧
        ∃ j h, j < SEMAPHORES ∧ m.slot j = some h ∧ (∀ k, k < j → m.slot k = none) ∧
          (call tid .signal fuel (m, t)).1.ksem
            = Function.update m.ksem h (m.ksem h + 1) ∧
          (call tid .signal fuel (m, t)).1.semaphores = m.semaphores.set j none ∧
          (call tid .signal fuel (m, t)).1.waiters = size_dec m.waiters)) := by
  obtain ⟨-, -, hlen⟩ := hwf
  obtain ⟨pc, a⟩ := t
  simp only [] at ht
  subst ht
  have key : ∀ n r, runThread tid n (m, ⟨.sInc .user, a⟩) = r → r.2.pc = .idle →
      call tid .signal fuel (m, ⟨.idle, a⟩) = r := by
    intro n r hr hidle
    subst hr
    exact runThread_idle_unique tid fuel n _ hret hidle
  by_cases hw : m.waiters = 0
  · rw [key 2 _ (signal_body_no_waiters tid m a .user hw) rfl]
    exact ⟨rfl, rfl, rfl, Or.inl ⟨Or.inl hw, rfl, rfl, rfl⟩⟩
  have hw' : 0 < m.waiters := Nat.pos_of_ne_zero hw
  by_cases hc : size_inc m.count = 0
  · rw [key 3 _ (signal_body_wrapped tid m a .user hw' hc) rfl]
    exact ⟨rfl, rfl, rfl, Or.inl ⟨Or.inr hc, rfl, rfl, rfl⟩⟩
  have hc' : 0 < size_inc m.count := Nat.pos_of_ne_zero hc
  by_cases hocc : ∃ i, m.slot i ≠ none
  · obtain ⟨j, h, hj, hjs, hmin⟩ := exists_first_occupied m hlen hocc
    rw [key _ _ (signal_body_wakes tid m a .user j h hw' hc' hj hjs hmin) rfl]
    exact ⟨rfl, rfl, rfl, Or.inr ⟨hw', hc', j, h, hj, hjs, hmin, rfl, rfl, rfl⟩⟩
  · exfalso
    have hall : ∀ i, m.slot i = none := by
      intro i
      by_contra hne
      exact hocc ⟨i, hne⟩
    exact signal_body_spins tid m a .user hw' hc' hall fuel hret

/-- Instance of `C6_signal_effect`: thread 1 signals on the state `parkedOne`. -/
theorem C6_signal_effect_witness :
    (call 1 .signal 9 (parkedOne, Thread.fresh)).2 = Thread.fresh ∧
    (call 1 .signal 9 (parkedOne, Thread.fresh)).1.count = size_inc parkedOne.count :=
  ⟨(C6_signal_effect 1 parkedOne Thread.fresh 9 parkedOne_wf rfl (by decide)).1,
   (C6_signal_effect 1 parkedOne Thread.fresh 9 parkedOne_wf rfl (by decide)).2.1⟩

/-- C7 fails on the state `waiterRegistering` (`waiters = 1`, every slot empty): a
`signal()` of thread 1 run alone never returns, whatever the number of its own steps. -/
theorem C7_counterexample :
    ¬ ∃ fuel, (call 1 .signal fuel (waiterRegistering, Thread.fresh)).2.pc = .idle := by
  rintro ⟨fuel, hfuel⟩
  refine signal_body_spins 1 waiterRegistering false .user (by decide) (by decide) ?_ fuel
    hfuel
  intro i
  simp only [Mem.slot, waiterRegistering, fresh]
  by_cases hi : i < SEMAPHORES
  · simp [hi]
  · simp [List.getElem?_eq_none (l := List.replicate SEMAPHORES (none : Option Nat))
      (n := i) (by simpa using hi)]

/-- C7 (as amended): from every state in which `waiters = 0`, or `count = SIZE_MAX`, or some
slot is occupied, `signal()` returns after at most `3 * SEMAPHORES + 6` of its own steps,
no other thread taking a step; from every other state (`waiters > 0`, `count < SIZE_MAX`
and every slot empty) it does not return, however many steps it takes alone. -/
theorem C7_signal_termination (tid : Nat) (m : Mem) (t : Thread) (hwf : m.wf)
    (ht : t.pc = .idle) :
    ((m.waiters = 0 ∨ m.count = SIZE_MAX ∨ ∃ i, m.slot i ≠ none) →
      ∃ fuel, fuel ≤ 3 * SEMAPHORES + 6 ∧ (call tid .signal fuel (m, t)).2.pc = .idle) ∧
    (¬ (m.waiters = 0 ∨ m.count = SIZE_MAX ∨ ∃ i, m.slot i ≠ none) →
      ∀ fuel, (call tid .signal fuel (m, t)).2.pc ≠ .idle) := by
  obtain ⟨hcm, -, hlen⟩ := hwf
  obtain ⟨pc, a⟩ := t
  simp only [] at ht
  subst ht
  have hz := size_inc_eq_zero_iff hcm
  constructor
  · intro h
    by_cases hw : m.waiters = 0
    · exact ⟨2, by simp [SEMAPHORES], by
        show (runThread tid 2 (m, ⟨.sInc .user, a⟩)).2.pc = .idle
        rw [signal_body_no_waiters tid m a .user hw]; rfl⟩
    have hw' : 0 < m.waiters := Nat.pos_of_ne_zero hw
    by_cases hc : size_inc m.count = 0
    · exact ⟨3, by simp [SEMAPHORES], by
        show (runThread tid 3 (m, ⟨.sInc .user, a⟩)).2.pc = .idle
        rw [signal_body_wrapped tid m a .user hw' hc]; rfl⟩
    have hc' : 0 < size_inc m.count := Nat.pos_of_ne_zero hc
    have hocc : ∃ i, m.slot i ≠ none := by
      rcases h with h | h | h
      · exact absurd h hw
      · exact absurd (hz.mpr h) hc
      · exact h
    obtain ⟨j, h, hj, hjs, hmin⟩ := exists_first_occupied m hlen hocc
    refine ⟨3 * j + 9, ?_, ?_⟩
    · simp only [SEMAPHORES] at *
      omega
    · show (runThread tid (3 * j + 9) (m, ⟨.sInc .user, a⟩)).2.pc = .idle
      rw [signal_body_wakes tid m a .user j h hw' hc' hj hjs hmin]
      rfl
  · intro h fuel
    have hw : 0 < m.waiters := by
      rcases Nat.eq_zero_or_pos m.waiters with h0 | h0
      · exact absurd (Or.inl h0) h
      · exact h0
    have hc : 0 < size_inc m.count := by
      rcases Nat.eq_zero_or_pos (size_inc m.count) with h0 | h0
      · exact absurd (Or.inr (Or.inl (hz.mp h0))) h
      · exact h0
    have hall : ∀ i, m.slot i = none := by
      intro i
      by_contra hne
      exact h (Or.inr (Or.inr ⟨i, hne⟩))
    exact signal_body_spins tid m a .user hw hc hall fuel

/-- Instance of `C7_signal_termination`: on `parkedOne` a `signal()` returns within the
bound. -/
theorem C7_signal_termination_witness :
    ∃ fuel, fuel ≤ 3 * SEMAPHORES + 6 ∧
      (call 1 .signal fuel (parkedOne, Thread.fresh)).2.pc = .idle :=
  (C7_signal_termination 1 parkedOne Thread.fresh parkedOne_wf rfl).1
    (Or.inr (Or.inr ⟨0, by decide⟩))

/-- C9 fails for `DecomissionableKernelSemaphore` on the state with one waiter inside the
inner `KernelSemaphore::wait()` (`waiters = 1`, inner value 0): `decomission()` leaves the
inner value 1 when called once and 2 when called twice in a row, because it signals
`waiters` times on every call and does not change `waiters`. -/
theorem C9_counterexample :
    (DecomissionableKernelSemaphore.call .decomission 3 ⟨true, 1, 0⟩).2 = .idle ∧
    (DecomissionableKernelSemaphore.call .decomission 3
      (DecomissionableKernelSemaphore.call .decomission 3 ⟨true, 1, 0⟩).1).2 = .idle ∧
    (DecomissionableKernelSemaphore.call .decomission 3 ⟨true, 1, 0⟩).1 = ⟨false, 1, 1⟩ ∧
    (DecomissionableKernelSemaphore.call .decomission 3
      (DecomissionableKernelSemaphore.call .decomission 3 ⟨true, 1, 0⟩).1).1 = ⟨false, 1, 2⟩ ∧
    (DecomissionableKernelSemaphore.call .decomission 3
      (DecomissionableKernelSemaphore.call .decomission 3 ⟨true, 1, 0⟩).1).1
      ≠ (DecomissionableKernelSemaphore.call .decomission 3 ⟨true, 1, 0⟩).1 := by
  refine ⟨by decide, by decide, by decide, by decide, by decide⟩

/-- C4, evaluated on the interleaving `lostWaiterTrace`: the run is possible from the fresh
semaphore with three fresh threads, and in the configuration it reaches `decomission()` has
returned (threads 1 and 2 are idle, so no call of `signal()` or `decomission()` is in
flight), the flag is cleared, and thread 0 is still parked: it is inside
`_semaphore_->wait()`, its handle is still in slot 0, no signal is pending on its kernel
semaphore, and no thread can take a step. -/
theorem C4_decomission_leaves_waiter_parked :
    ∃ c, (Config.init 3).run lostWaiterTrace = some c ∧
      c.threads = [⟨.wPark, true⟩, ⟨.idle, false⟩, ⟨.idle, false⟩] ∧
      c.mem.comissioned = false ∧ c.mem.slot 0 = some 0 ∧ c.mem.ksem 0 = 0 ∧
      c.mem.count = 0 ∧ c.mem.waiters = 1 ∧
      ∀ tid, c.act (.step tid) = none := by
  refine ⟨_, rfl, rfl, rfl, rfl, rfl, rfl, rfl, ?_⟩
  intro tid
  rcases tid with _ | _ | _ | tid <;> rfl

/-- C10 fails on the interleaving `repeatSignal (2 ^ 64)`: thread 0 issues `2 ^ 64` calls of
`signal()` and no thread calls `wait()` or `decomission()`; every call has returned, and
`count` has wrapped around to 0, which is not `S - W = 2 ^ 64`. -/
theorem C10_counterexample :
    ∃ c, (Config.init 1).run (repeatSignal SIZE_MOD) = some c ∧
      (∀ t ∈ c.threads, t.pc = .idle) ∧
      callsOf .decomission (repeatSignal SIZE_MOD) = 0 ∧
      callsOf .signal (repeatSignal SIZE_MOD) = SIZE_MOD ∧
      callsOf .wait (repeatSignal SIZE_MOD) = 0 ∧
      c.mem.count = 0 ∧
      c.mem.count ≠ callsOf .signal (repeatSignal SIZE_MOD)
        - callsOf .wait (repeatSignal SIZE_MOD) := by
  obtain ⟨h1, h2, h3⟩ := callsOf_repeatSignal SIZE_MOD
  have hrun := run_repeatSignal false SIZE_MOD fresh rfl (by decide)
  have hz : (fresh.count + SIZE_MOD) % SIZE_MOD = 0 := by decide
  rw [hz] at hrun
  refine ⟨_, hrun, ?_, h3, h1, h2, rfl, ?_⟩
  · intro t ht
    simp only [List.mem_singleton] at ht
    subst ht
    rfl
  · rw [h1, h2]
    decide

/-- C10 (as amended): in every configuration reached from a fresh semaphore by an
interleaving in which `decomission()` is never called, `S` calls of `signal()` and `W`
calls of `wait()` having been started and all of them having returned, `W ≤ S` and `count`
is `S - W` as a `size_t`, that is `(S - W) mod 2 ^ 64`; hence `count = S - W` whenever
`S - W ≤ SIZE_MAX`. -/
theorem C10_token_conservation (n : Nat) (acts : List Action) (c : Config)
    (hnodecom : callsOf .decomission acts = 0)
    (hrun : (Config.init n).run acts = some c)
    (hidle : ∀ t ∈ c.threads, t.pc = .idle) :
    callsOf .wait acts ≤ callsOf .signal acts ∧
    c.mem.count = (callsOf .signal acts - callsOf .wait acts) % SIZE_MOD ∧
    (callsOf .signal acts - callsOf .wait acts ≤ SIZE_MAX →
      c.mem.count = callsOf .signal acts - callsOf .wait acts) := by
  have h := (run_tokenInv acts 0 0 (Config.init n) c hrun hnodecom (noDecom_init n)
    (tokenInv_init n)).2
  have ha := threadsAt_eq_zero_of_idle Pc.atInc rfl c.threads hidle
  have hb := threadsAt_eq_zero_of_idle Pc.inWait rfl c.threads hidle
  simp only [TokenInv, ha, hb, Nat.zero_add, Nat.sub_zero] at h
  obtain ⟨-, -, hle, hcount⟩ := h
  refine ⟨hle, hcount, ?_⟩
  intro hsmall
  rw [hcount]
  simp only [SIZE_MAX, SIZE_MOD] at *
  omega

/-- Instance of `C10_token_conservation`: thread 0 calls `signal()` twice, then thread 1
calls `wait()` once, and every call runs to its return. -/
theorem C10_token_conservation_witness :
    ∃ c, (Config.init 2).run [.call 0 .signal, .step 0, .step 0, .call 0 .signal, .step 0,
        .step 0, .call 1 .wait, .step 1, .step 1] = some c ∧
      c.mem.count = (2 - 1) % SIZE_MOD :=
  ⟨_, rfl, (C10_token_conservation 2 [.call 0 .signal, .step 0, .step 0, .call 0 .signal,
      .step 0, .step 0, .call 1 .wait, .step 1, .step 1] _ (by decide) rfl
      (by decide)).2.1⟩

/-- C11: for every state with `count = 0`, the flag set and at least one empty slot, a
`wait()` of a thread whose kernel semaphore holds no signal, run without interference, does
not return: after `j + 6` steps, `j` being the lowest-numbered empty slot, it is blocked in
`_semaphore_->wait()`, `waiters.fetch_add(1)` has been executed once (`size_inc`), slot `j`
holds the kernel semaphore of the thread, and `count`, the flag and every other slot are
unchanged. -/
theorem C11_wait_parks (tid : Nat) (m : Mem) (t : Thread) (hwf : m.wf) (ht : t.pc = .idle)
    (hc : m.count = 0) (hd : m.comissioned = true)
    (hempty : ∃ i, i < SEMAPHORES ∧ m.slot i = none)
    (hsem : t.allocated = false ∨ m.ksem tid = 0) :
    ∃ j, j < SEMAPHORES ∧ m.slot j = none ∧ (∀ k, k < j → m.slot k ≠ none) ∧
      parked tid (call tid .wait (j + 6) (m, t)) ∧
      (∀ fuel, (call tid .wait fuel (m, t)).2.pc ≠ .idle) ∧
      (call tid .wait (j + 6) (m, t)).1.waiters = size_inc m.waiters ∧
      (m.waiters < SIZE_MAX → (call tid .wait (j + 6) (m, t)).1.waiters = m.waiters + 1) ∧
      (call tid .wait (j + 6) (m, t)).1.semaphores = m.semaphores.set j (some tid) ∧
      (call tid .wait (j + 6) (m, t)).1.slot j = some tid ∧
      (call tid .wait (j + 6) (m, t)).1.count = m.count ∧
      (call tid .wait (j + 6) (m, t)).1.comissioned = m.comissioned := by
  obtain ⟨pc, a⟩ := t
  simp only [] at ht
  subst ht
  obtain ⟨j, hjN, hj, hocc⟩ := exists_first_empty m hempty
  have hreg := wait_registers tid m a j hjN hc hd hj hocc
  have hk : (useSemaphore tid m ⟨.idle, a⟩).ksem tid = 0 := by
    simp only [useSemaphore]
    split
    · rename_i ha
      rcases hsem with h | h
      · simp only [] at h ha
        rw [h] at ha
        exact absurd ha (by decide)
      · exact h
    · simp [KernelSemaphore.init]
  have hpark : parked tid (call tid .wait (j + 6) (m, ⟨.idle, a⟩)) := by
    rw [hreg]
    refine ⟨rfl, ?_⟩
    simp only [step, useSemaphore, if_true, KernelSemaphore.wait]
    simp only [useSemaphore] at hk
    rw [hk]
    rfl
  refine ⟨j, hjN, hj, hocc, hpark, ?_, ?_, ?_, ?_, ?_, ?_, ?_⟩
  · intro fuel
    refine runThread_never_idle tid (j + 6) (m, ⟨Op.entry .wait, a⟩) hpark.2 (fun h => ?_) fuel
    have hp := hpark.1
    change (runThread tid (j + 6) (m, ⟨Op.entry .wait, a⟩)).2.pc = .wPark at hp
    rw [hp] at h
    exact Pc.noConfusion h
  · rw [hreg]
  · intro hlt
    rw [hreg]
    exact size_inc_of_lt hlt
  · rw [hreg]
  · rw [hreg]
    have hlt : j < m.semaphores.length := by rw [hwf.2.2]; exact hjN
    simp [Mem.slot, hlt]
  · rw [hreg]
    simp only [useSemaphore]
    split <;> rfl
  · rw [hreg]
    simp only [useSemaphore]
    split <;> rfl

/-- Instance of `C11_wait_parks`: thread 1 waits on the state `parkedOne`, whose first empty
slot is slot 1. -/
theorem C11_wait_parks_witness :
    ∃ j, j < SEMAPHORES ∧ parkedOne.slot j = none ∧ (∀ k, k < j → parkedOne.slot k ≠ none) ∧
      parked 1 (call 1 .wait (j + 6) (parkedOne, Thread.fresh)) := by
  obtain ⟨j, h1, h2, h3, h4, -⟩ := C11_wait_parks 1 parkedOne Thread.fresh parkedOne_wf rfl
    rfl rfl ⟨1, by decide, by decide⟩ (Or.inl rfl)
  exact ⟨j, h1, h2, h3, h4⟩

/-- C16: for every state with `count = c > 0`, whatever the flag, a `wait()` run without
interference returns after two steps with `count = c - 1` and nothing else changed
(`waiters`, the flag, the slots, the kernel semaphores); at no point has the thread
evaluated `_semaphore_` (its `allocated` flag never changes) or been at the slot
compare-and-set or at `_semaphore_->wait()`. -/
theorem C16_wait_fast_path (tid : Nat) (m : Mem) (t : Thread) (ht : t.pc = .idle)
    (hc : 0 < m.count) :
    call tid .wait 2 (m, t) = ({ m with count := m.count - 1 }, t) ∧
    ∀ j, (call tid .wait j (m, t)).2.allocated = t.allocated ∧
      (call tid .wait j (m, t)).2.pc ≠ .wPark ∧
      (∀ i, (call tid .wait j (m, t)).2.pc ≠ .wPublish i) ∧
      (call tid .wait j (m, t)).1.semaphores = m.semaphores ∧
      (call tid .wait j (m, t)).1.waiters = m.waiters ∧
      (call tid .wait j (m, t)).1.ksem = m.ksem := by
  obtain ⟨pc, a⟩ := t
  simp only [] at ht
  subst ht
  have h2 := wait_fast tid m ⟨.idle, a⟩ hc
  rw [size_dec_of_pos hc] at h2
  refine ⟨h2, ?_⟩
  intro j
  rcases j with _ | _ | j
  · simp [call, runThread, Op.entry]
  · simp [call, runThread, step, Op.entry, afterLoad, hc]
  · have e : call tid .wait (j + 1 + 1) (m, ⟨.idle, a⟩) = call tid .wait 2 (m, ⟨.idle, a⟩) :=
      runThread_idle_mono tid 2 _ _ (by
        show (call tid .wait 2 (m, ⟨.idle, a⟩)).2.pc = .idle
        rw [h2]) (by omega)
    rw [e, h2]
    simp

/-- Instance of `C16_wait_fast_path`: a decommissioned semaphore with one token. -/
theorem C16_wait_fast_path_witness :
    call 0 .wait 2 ({ parkedOneDecommissioned with count := 1 }, Thread.fresh)
      = ({ parkedOneDecommissioned with count := 0 }, Thread.fresh) :=
  (C16_wait_fast_path 0 { parkedOneDecommissioned with count := 1 } Thread.fresh rfl
    (by decide)).1

/-- C17: `capacity()` of the fixed-size semaphore is 128 in every state, and that is the
length of the slot array of the fresh semaphore and of every configuration reached from it
by any interleaving; `capacity()` of `DecomissionableKernelSemaphore` is `SIZE_MAX`, that
is `2 ^ 64 - 1`, in every state. -/
theorem C17_capacity :
    (∀ m : Mem, capacity m = 128) ∧
    fresh.semaphores.length = 128 ∧
    (∀ (n : Nat) (acts : List Action) (c : Config), (Config.init n).run acts = some c →
      c.mem.semaphores.length = capacity c.mem) ∧
    (∀ m : DecomissionableKernelSemaphore.Mem,
      DecomissionableKernelSemaphore.capacity m = SIZE_MAX) ∧
    SIZE_MAX = 2 ^ 64 - 1 := by
  refine ⟨fun _ => rfl, by simp [fresh, SEMAPHORES], ?_, fun _ => rfl, by decide⟩
  intro n acts c hrun
  rw [run_length acts _ c hrun]
  simp [Config.init, fresh, capacity]

/-- Instance of `C17_capacity`: the configuration reached by `lostWaiterTrace`. -/
theorem C17_capacity_witness :
    (((Config.init 3).run lostWaiterTrace).getD (Config.init 0)).mem.semaphores.length
      = capacity (((Config.init 3).run lostWaiterTrace).getD (Config.init 0)).mem :=
  C17_capacity.2.2.1 3 lostWaiterTrace _ rfl

/-- C18 fails for `slot_count = 1`: the class has a single constructor, which takes no
argument and builds the state `fresh`; that state has 128 slots, not 1, and `capacity()`
returns 128, not 1. -/
theorem C18_counterexample :
    fresh.semaphores.length = 128 ∧ fresh.semaphores.length ≠ 1 ∧ capacity fresh ≠ 1 := by
  refine ⟨by simp [fresh, SEMAPHORES], by simp [fresh, SEMAPHORES], by decide⟩

/-- C18 (as amended): the constructor takes no option; every constructed semaphore has
exactly `SEMAPHORES = 128` slots, all empty, and `capacity()` returns 128. -/
theorem C18_constructor_fixed_size :
    SEMAPHORES = 128 ∧ fresh.semaphores = List.replicate 128 none ∧
    (∀ i, fresh.slot i = none) ∧ capacity fresh = 128 :=
  ⟨rfl, rfl, fresh_slot, rfl⟩

/-- C19 fails at its second stage: after `raceWindowPause` thread 0 is paused right after
`waiters.fetch_add(1)` (`count = 0`, `waiters = 1`, every slot empty), and from that memory
a `signal()` of thread 1 that runs without any further step of thread 0 never returns. -/
theorem C19_counterexample :
    ∃ c, (Config.init 2).run raceWindowPause = some c ∧
      c.threads = [⟨.wCheck, false⟩, Thread.fresh] ∧
      c.mem.count = 0 ∧ c.mem.waiters = 1 ∧ (∀ i, c.mem.slot i = none) ∧
      ¬ ∃ fuel, (call 1 .signal fuel (c.mem, Thread.fresh)).2.pc = .idle := by
  refine ⟨⟨waiterRegistering, [⟨.wCheck, false⟩, Thread.fresh]⟩, rfl, rfl, rfl, rfl,
    fresh_slot, ?_⟩
  rintro ⟨fuel, hfuel⟩
  exact waiterRegistering_spins 1 false fuel hfuel

/-- C19 (as amended): thread 0's `wait()` reads `count = 0` and increments `waiters`, then
pauses; thread 1's `signal()` increments `count` to 1 and, as long as thread 0 takes no
step, keeps scanning the empty slots without returning; when thread 0 resumes it finds slot
0 empty, re-checks `count`, observes 1, decrements `waiters` and succeeds with the
compare-and-set of the fast path; thread 1 then reads `waiters == 0` and returns.  The final
state has `count = 0`, `waiters = 0`, every slot empty and both threads outside any call. -/
theorem C19_race_window :
    ∃ c1 c2 c3, (Config.init 2).run raceWindowPause = some c1 ∧
      c1.threads = [⟨.wCheck, false⟩, Thread.fresh] ∧
      c1.mem.count = 0 ∧ c1.mem.waiters = 1 ∧
      (∀ fuel, (call 1 .signal fuel (c1.mem, Thread.fresh)).2.pc ≠ .idle) ∧
      c1.run (raceWindowResume.take 7) = some c2 ∧
      c2.threads = [⟨.wAbort 1, false⟩, ⟨.sChkWaiters .user 0, false⟩] ∧
      c2.mem.count = 1 ∧ c2.mem.waiters = 1 ∧
      c2.run (raceWindowResume.drop 7) = some c3 ∧
      c3.threads = [Thread.fresh, Thread.fresh] ∧
      c3.mem.count = 0 ∧ c3.mem.waiters = 0 ∧ (∀ i, c3.mem.slot i = none) := by
  refine ⟨⟨waiterRegistering, [⟨.wCheck, false⟩, Thread.fresh]⟩,
    ⟨{ fresh with count := 1, waiters := 1 },
      [⟨.wAbort 1, false⟩, ⟨.sChkWaiters .user 0, false⟩]⟩,
    ⟨fresh, [Thread.fresh, Thread.fresh]⟩,
    rfl, rfl, rfl, rfl, waiterRegistering_spins 1 false, rfl, rfl, rfl, rfl, rfl, rfl, rfl,
    rfl, fresh_slot⟩

/-- C12: take any interleaving of the atomic steps of at most `SIZE_MAX` threads calling
`wait()`, `signal()` and `decomission()` on a fresh `DecomissionableKernelSemaphore`, in
which thread `tid`, inside `decomission()` past the store (`c1`), takes the step with which
its call returns (`c2`), followed by any further actions (`c`). Already in `c1` the flag is
cleared. In `c` the flag is cleared, the number of threads that have read
`comissioned == true` and not completed `KernelSemaphore::wait()` is at most the value of
the inner semaphore, so each of them can take that step, and every thread at the check of the
flag skips the inner wait. -/
theorem C12_never_under_signals (n : Nat) (hn : n ≤ SIZE_MAX)
    (acts1 acts2 : List DecomissionableKernelSemaphore.Action) (tid : Nat)
    (c1 c2 c : DecomissionableKernelSemaphore.Config)
    (h1 : (DecomissionableKernelSemaphore.Config.init n).run acts1 = some c1)
    (hpc : c1.threads.get? tid = some .dLoad ∨ ∃ i, c1.threads.get? tid = some (.dSignal i))
    (h2 : c1.act (.step tid) = some c2)
    (hret : c2.threads.get? tid = some .idle)
    (h3 : c2.run acts2 = some c) :
    c1.mem.comissioned = false ∧ c.mem.comissioned = false ∧
    DecomissionableKernelSemaphore.pcsAt DecomissionableKernelSemaphore.Pc.atInner c.threads
      ≤ c.mem.semaphore ∧
    (∀ t, c.threads.get? t = some .wInner →
      ∃ c', c.act (.step t) = some c' ∧ c'.threads.get? t = some .wDec) ∧
    (∀ t c', c.threads.get? t = some .wCheck → c.act (.step t) = some c' →
      c'.threads.get? t = some .wDecEarly) := by
  have hinv := DecomissionableKernelSemaphore.run_kernelInv acts1 _ c1 h1
    (DecomissionableKernelSemaphore.kernelInv_init n hn)
  obtain ⟨l1, pc, l2, m', pc', hts, hlen, hs, hc2⟩ :=
    DecomissionableKernelSemaphore.kernel_act_step_decompose c1 c2 tid h2
  have hpc1 : c1.threads.get? tid = some pc := by
    rw [hts, ← hlen]
    exact get?_append_cons_length l1 l2 pc
  have hpc2 : pc' = .idle := by
    rw [hc2, ← hlen] at hret
    exact Option.some.inj ((get?_append_cons_length l1 l2 pc').symm.trans hret)
  subst hpc2
  have hpc3 : pc = .dLoad ∨ ∃ i, pc = .dSignal i := by
    rcases hpc with h | ⟨i, h⟩
    · left
      rw [hpc1] at h
      exact Option.some.inj h
    · right
      rw [hpc1] at h
      exact ⟨i, Option.some.inj h⟩
  have hflag1 : c1.mem.comissioned = false := by
    have := hinv.2.2 pc (by rw [hts]; simp)
    rcases hpc3 with rfl | ⟨i, rfl⟩
    · exact this
    · exact this.1
  have hf2 := DecomissionableKernelSemaphore.decomission_return_flushed c1 c2 l1 l2 pc m'
    hinv hts hs hpc3 hc2
  obtain ⟨hflag, hle⟩ := DecomissionableKernelSemaphore.run_flushed acts2 c2 c h3 hf2
  refine ⟨hflag1, hflag, hle, ?_, ?_⟩
  · intro t ht
    obtain ⟨k1, k2, hk, hklen, hset⟩ :=
      DecomissionableKernelSemaphore.kernel_threads_decompose c.threads t _ ht
    have hpos : 0 < c.mem.semaphore := by
      rw [hk, DecomissionableKernelSemaphore.pcsAt_append_cons] at hle
      simp only [DecomissionableKernelSemaphore.Pc.atInner, if_true] at hle
      omega
    refine ⟨⟨{ c.mem with semaphore := c.mem.semaphore - 1 }, c.threads.set t .wDec⟩, ?_, ?_⟩
    · simp only [DecomissionableKernelSemaphore.Config.act, ht,
        DecomissionableKernelSemaphore.step, KernelSemaphore.wait, gt_iff_lt, hpos, if_true]
    · rw [hset, ← hklen]
      exact get?_append_cons_length k1 k2 _
  · intro t c' ht hact
    obtain ⟨k1, q, k2, m2, q', hk, hklen, hs2, rfl⟩ :=
      DecomissionableKernelSemaphore.kernel_act_step_decompose c c' t hact
    have hq : q = .wCheck := by
      rw [hk, ← hklen] at ht
      exact Option.some.inj ((get?_append_cons_length k1 k2 q).symm.trans ht)
    subst hq
    simp only [DecomissionableKernelSemaphore.step, hflag, Option.some.injEq,
      Prod.mk.injEq] at hs2
    obtain ⟨-, rfl⟩ := hs2
    rw [← hklen]
    exact get?_append_cons_length k1 k2 _

/-- Instance of `C12_never_under_signals`: thread 0 blocks in the inner wait, thread 1 calls
`decomission()`, reads `waiters = 1`, and returns with its one `signal()`. -/
theorem C12_never_under_signals_witness :
    (DecomissionableKernelSemaphore.Config.init 2).run [.call 0 .wait, .step 0, .step 0,
        .call 1 .decomission, .step 1, .step 1]
      = some ⟨⟨false, 1, 0⟩, [.wInner, .dSignal 1]⟩ ∧
    DecomissionableKernelSemaphore.Config.act ⟨⟨false, 1, 0⟩, [.wInner, .dSignal 1]⟩ (.step 1)
      = some ⟨⟨false, 1, 1⟩, [.wInner, .idle]⟩ ∧
    DecomissionableKernelSemaphore.pcsAt DecomissionableKernelSemaphore.Pc.atInner
      [.wInner, .idle] ≤ (1 : Nat) :=
  ⟨by decide, by decide,
    (C12_never_under_signals 2 (by decide) [.call 0 .wait, .step 0, .step 0,
      .call 1 .decomission, .step 1, .step 1] [] 1 ⟨⟨false, 1, 0⟩, [.wInner, .dSignal 1]⟩
      ⟨⟨false, 1, 1⟩, [.wInner, .idle]⟩ ⟨⟨false, 1, 1⟩, [.wInner, .idle]⟩ (by decide)
      (Or.inr ⟨1, by decide⟩) (by decide) (by decide) (by decide)).2.2.1⟩

/-- C15: in every configuration reached from a fresh semaphore by an interleaving of the
atomic steps of `n` threads calling `wait()`, `signal()` and `decomission()`, with
`n + SEMAPHORES ≤ SIZE_MAX`, the number of occupied slots is at most `waiters`; the
`fetch_sub` steps taken so far are at most the `fetch_add` steps taken so far, and `waiters`
is exactly their difference; and a thread about to execute a `waiters.fetch_sub(1)` finds
`waiters > 0`, so the counter never wraps below zero. -/
theorem C15_occupied_le_waiters (n : Nat) (hn : n + SEMAPHORES ≤ SIZE_MAX)
    (acts : List Action) (c : Config) (hrun : (Config.init n).run acts = some c) :
    occupied c.mem ≤ c.mem.waiters ∧
    stepsAt Pc.decrementsWaiters (Config.init n) acts
      ≤ stepsAt Pc.incrementsWaiters (Config.init n) acts ∧
    c.mem.waiters = stepsAt Pc.incrementsWaiters (Config.init n) acts
      - stepsAt Pc.decrementsWaiters (Config.init n) acts ∧
    (∀ tid t, c.threads.get? tid = some t → t.pc.decrementsWaiters = true →
      0 < c.mem.waiters) := by
  obtain ⟨⟨-, hw⟩, he⟩ := run_waitersInv acts (Config.init n) c hrun (scanInv_init n)
    (waitersInv_init n hn)
  have h0 : (Config.init n).mem.waiters = 0 := rfl
  rw [h0] at he
  refine ⟨by omega, by omega, by omega, ?_⟩
  intro tid t ht hd
  obtain ⟨l1, l2, hts, -, -⟩ := threads_decompose c.threads tid t ht
  have hacc : t.pc.accounted = true := by
    obtain ⟨pc, a⟩ := t
    cases pc <;> simp_all [Pc.decrementsWaiters, Pc.accounted]
  rw [hts, threadsAt_append_cons, hacc] at hw
  simp only [if_true] at hw
  omega

/-- Instance of `C15_occupied_le_waiters`: one thread calls `wait()` on the fresh semaphore
and executes `waiters.fetch_add(1)`. -/
theorem C15_occupied_le_waiters_witness :
    ∃ c, (Config.init 1).run [.call 0 .wait, .step 0, .step 0] = some c ∧
      occupied c.mem ≤ c.mem.waiters ∧ c.mem.waiters = 1 :=
  ⟨_, rfl, (C15_occupied_le_waiters 1 (by decide) [.call 0 .wait, .step 0, .step 0] _
    rfl).1, rfl⟩

/-- C14: in every configuration `c` reached from a fresh semaphore by an interleaving of the
atomic steps of any number of threads calling `wait()`, `signal()` and `decomission()`,
`count` is never decremented below zero. The start of a call leaves `count` unchanged. A step
leaves it unchanged, or is the `count.fetch_add(1)` of `signal()`, or is the successful
compare-and-set of a thread in `wait()` that carries a value `old > 0` equal to `count`, and
then the new `count` is the natural number `old - 1`, below the previous one. Every value
carried to the compare-and-set, also the one read by the re-check of the slow path, is
positive, and the thread leaving the slow path after that re-check goes to the same
compare-and-set with it. -/
theorem C14_count_never_below_zero (n : Nat) (acts : List Action) (c : Config)
    (hrun : (Config.init n).run acts = some c) :
    (∀ tid op c', c.act (.call tid op) = some c' → c'.mem.count = c.mem.count) ∧
    (∀ tid c', c.act (.step tid) = some c' →
      c'.mem.count = c.mem.count ∨
      (∃ t, c.threads.get? tid = some t ∧ t.pc.atInc = true ∧
        c'.mem.count = size_inc c.mem.count) ∨
      (∃ t old, c.threads.get? tid = some t ∧ t.pc = .wCas old ∧ 0 < old ∧
        c.mem.count = old ∧ c'.mem.count = old - 1 ∧ c'.mem.count < c.mem.count)) ∧
    (∀ tid t old, c.threads.get? tid = some t → (t.pc = .wCas old ∨ t.pc = .wAbort old) →
      0 < old) ∧
    (∀ tid t old c', c.threads.get? tid = some t → t.pc = .wAbort old →
      c.act (.step tid) = some c' →
      ∃ t', c'.threads.get? tid = some t' ∧ t'.pc = .wCas old ∧
        c'.mem.count = c.mem.count) := by
  have hpos := run_oldPositive acts (Config.init n) c hrun (oldPositive_init n)
  refine ⟨?_, ?_, ?_, ?_⟩
  · intro tid op c' hact
    obtain ⟨l1, al, l2, -, -, rfl⟩ := act_call_decompose c c' tid op hact
    rfl
  · intro tid c' hact
    obtain ⟨l1, t0, l2, m', t1, hts, hl1, hs, rfl⟩ := act_step_decompose c c' tid hact
    have hget : c.threads.get? tid = some t0 := by
      rw [hts, ← hl1]
      exact get?_append_cons_length l1 l2 t0
    rcases step_count_local tid c.mem m' t0 t1 hs (hpos t0 (by rw [hts]; simp)) with
      h | ⟨h1, h2⟩ | ⟨old, h1, h2, h3, h4, -⟩
    · exact Or.inl h
    · exact Or.inr (Or.inl ⟨t0, hget, h1, h2⟩)
    · refine Or.inr (Or.inr ⟨t0, old, hget, h1, h2, h3, h4, ?_⟩)
      show m'.count < c.mem.count
      omega
  · intro tid t old ht hpc
    have := hpos t (mem_of_get? c.threads tid t ht)
    rcases hpc with h | h <;> rw [h] at this <;> exact this
  · intro tid t old c' ht hpc hact
    obtain ⟨l1, t0, l2, m', t1, hts, hl1, hs, rfl⟩ := act_step_decompose c c' tid hact
    have hget : c.threads.get? tid = some t0 := by
      rw [hts, ← hl1]
      exact get?_append_cons_length l1 l2 t0
    rw [hget] at ht
    obtain rfl := Option.some.inj ht
    obtain ⟨pc, a⟩ := t0
    simp only at hpc
    subst hpc
    simp only [step, Option.some.injEq, Prod.mk.injEq] at hs
    obtain ⟨rfl, rfl⟩ := hs
    refine ⟨⟨.wCas old, a⟩, ?_, rfl, rfl⟩
    rw [← hl1]
    exact get?_append_cons_length l1 l2 _

/-- Instance of `C14_count_never_below_zero`: thread 0 calls `signal()` and returns, thread
1 calls `wait()` and reads `count = 1`; its next step is the compare-and-set from 1 to 0. -/
theorem C14_count_never_below_zero_witness :
    ∃ c, (Config.init 2).run [.call 0 .signal, .step 0, .step 0, .call 1 .wait, .step 1]
        = some c ∧
      c.threads.get? 1 = some ⟨.wCas 1, false⟩ ∧
      ∀ tid c', c.act (.step tid) = some c' →
        c'.mem.count = c.mem.count ∨
        (∃ t, c.threads.get? tid = some t ∧ t.pc.atInc = true ∧
          c'.mem.count = size_inc c.mem.count) ∨
        (∃ t old, c.threads.get? tid = some t ∧ t.pc = .wCas old ∧ 0 < old ∧
          c.mem.count = old ∧ c'.mem.count = old - 1 ∧ c'.mem.count < c.mem.count) :=
  ⟨_, rfl, rfl, (C14_count_never_below_zero 2 [.call 0 .signal, .step 0, .step 0,
    .call 1 .wait, .step 1] _ rfl).2.1⟩

/-- C13: in every configuration reached from a fresh semaphore by an interleaving of the
atomic steps of any number of threads calling `wait()`, `signal()` and `decomission()`,
thread `h` publishing its own kernel semaphore `h`, the kernel semaphore of a thread is
stored in at most one slot: the slots that hold it number at most 1, and two slots that hold
it are the same slot. -/
theorem C13_slot_uniqueness (n : Nat) (acts : List Action) (c : Config)
    (hrun : (Config.init n).run acts = some c) (h : Nat) :
    slotsOf c.mem h ≤ 1 ∧
    ∀ i j, c.mem.slot i = some h → c.mem.slot j = some h → i = j := by
  have hinv := run_handleInv acts (Config.init n) c hrun (scanInv_init n) (handleInv_init n) h
  have hp := parkedAt_le_one c.threads h
  have hle : slotsOf c.mem h ≤ 1 := by omega
  exact ⟨hle, fun i j hi hj => slot_unique_of_slotsOf_le_one c.mem h i j hle hi hj⟩

/-- Instance of `C13_slot_uniqueness`: two threads call `wait()` on the fresh semaphore one
after the other and park, thread 0 in slot 0 and thread 1 in slot 1. -/
theorem C13_slot_uniqueness_witness :
    ∃ c, (Config.init 2).run [.call 0 .wait, .step 0, .step 0, .step 0, .step 0, .step 0,
        .step 0, .call 1 .wait, .step 1, .step 1, .step 1, .step 1, .step 1, .step 1,
        .step 1] = some c ∧
      c.mem.slot 0 = some 0 ∧ c.mem.slot 1 = some 1 ∧ slotsOf c.mem 1 ≤ 1 :=
  ⟨_, rfl, rfl, rfl, (C13_slot_uniqueness 2 [.call 0 .wait, .step 0, .step 0, .step 0,
    .step 0, .step 0, .step 0, .call 1 .wait, .step 1, .step 1, .step 1, .step 1, .step 1,
    .step 1, .step 1] _ rfl 1).1⟩

/-- C5: take any configuration reached from a fresh semaphore by an interleaving of the
atomic steps of `n` threads, `n + SEMAPHORES ≤ SIZE_MAX`, in which `decomission()` is never
called. If every thread is outside of any call or inside `_semaphore_->wait()` with no
signal held by its kernel semaphore, so that no `signal()` is in flight, and at least one
thread is inside `_semaphore_->wait()`, then `count` is 0: no thread is left blocked while a
token is available. -/
theorem C5_no_lost_wakeup (n : Nat) (hn : n + SEMAPHORES ≤ SIZE_MAX) (acts : List Action)
    (c : Config) (hd : callsOf .decomission acts = 0)
    (hrun : (Config.init n).run acts = some c)
    (hquiet : ∀ tid t, c.threads.get? tid = some t →
      t.pc = .idle ∨ (t.pc = .wPark ∧ c.mem.ksem tid = 0))
    (hparked : ∃ tid t, c.threads.get? tid = some t ∧ t.pc = .wPark) :
    c.mem.count = 0 := by
  obtain ⟨hhi, hwk⟩ := run_wakeInv acts (Config.init n) c hrun hd (noDecom_init n)
    (scanInv_init n) (waitersInv_init n hn) (handleInv_init n) (wakeInv_init n)
  have hall : ∀ t ∈ c.threads, t.pc = .idle ∨ t.pc = .wPark := by
    intro t ht
    obtain ⟨i, hi, rfl⟩ := List.getElem_of_mem ht
    have hget : c.threads.get? i = some c.threads[i] := by
      rw [List.get?_eq_getElem?, List.getElem?_eq_getElem hi]
    rcases hquiet i _ hget with h | h
    · exact Or.inl h
    · exact Or.inr h.1
  have hwakes : ∀ g, threadsAt (Pc.wakes g) c.threads = 0 := by
    intro g
    apply threadsAt_eq_zero_of_forall
    intro t ht
    rcases hall t ht with h | h <;> rw [h] <;> rfl
  have hactive : threadsAt Pc.active c.threads = 0 := by
    apply threadsAt_eq_zero_of_forall
    intro t ht
    rcases hall t ht with h | h <;> rw [h] <;> rfl
  have hpend : pending c.mem c.threads.length = 0 := by
    apply pending_eq_zero
    intro k hk
    have hget : c.threads.get? k = some c.threads[k] := by
      rw [List.get?_eq_getElem?, List.getElem?_eq_getElem hk]
    rcases hquiet k _ hget with h | h
    · have hg := hhi k
      rw [hwakes k, parkedAt_of_get? c.threads k _ hget, h] at hg
      simp at hg
      exact hg.2
    · exact h.2
  obtain ⟨tid, t, ht, hpc⟩ := hparked
  have hk0 : c.mem.ksem tid = 0 := by
    rcases hquiet tid t ht with h | h
    · rw [hpc] at h
      exact Pc.noConfusion h
    · exact h.2
  have hslot : slotsOf c.mem tid = 1 := by
    have hg := hhi tid
    rw [hwakes tid, parkedAt_of_get? c.threads tid t ht, hpc, hk0] at hg
    simpa using hg
  have hocc := slotsOf_le_occupied c.mem tid
  have := hwk (by omega)
  omega

/-- Instance of `C5_no_lost_wakeup`: one thread calls `wait()` on the fresh semaphore and
parks in slot 0. -/
theorem C5_no_lost_wakeup_witness :
    ∃ c, (Config.init 1).run [.call 0 .wait, .step 0, .step 0, .step 0, .step 0, .step 0,
        .step 0] = some c ∧
      c.threads = [⟨.wPark, true⟩] ∧ c.mem.slot 0 = some 0 ∧ c.mem.count = 0 :=
  ⟨_, rfl, rfl, rfl, C5_no_lost_wakeup 1 (by decide) [.call 0 .wait, .step 0, .step 0,
    .step 0, .step 0, .step 0, .step 0] _ (by decide) rfl
    (fun tid t h => by
      cases tid with
      | zero =>
        have ht : (⟨.wPark, true⟩ : Thread) = t := Option.some.inj h
        subst ht
        exact Or.inr ⟨rfl, rfl⟩
      | succ k => exact Option.noConfusion h)
    ⟨0, ⟨.wPark, true⟩, rfl, rfl⟩⟩

/-- C21: for every state with `waiters = 0`, whatever the flag and the slots, a `signal()`
run without interference returns after its two steps (the `fetch_add` and the read of
`waiters`), and with any larger fuel the result is the same: `count` has been incremented by
one as a `size_t` (`size_inc`, which is `count + 1` below `SIZE_MAX`), and the slots, the
kernel semaphores of all threads, `waiters`, the flag and the thread-local state of the
caller are unchanged. -/
theorem C21_signal_no_waiters (tid : Nat) (m : Mem) (t : Thread) (fuel : Nat)
    (hw : m.waiters = 0) (hf : 2 ≤ fuel) :
    call tid .signal fuel (m, t)
      = ({ m with count := size_inc m.count }, { t with pc := .idle }) ∧
    (m.count < SIZE_MAX → (call tid .signal fuel (m, t)).1.count = m.count + 1) ∧
    (call tid .signal fuel (m, t)).1.semaphores = m.semaphores ∧
    (call tid .signal fuel (m, t)).1.ksem = m.ksem ∧
    (call tid .signal fuel (m, t)).1.waiters = m.waiters ∧
    (call tid .signal fuel (m, t)).1.comissioned = m.comissioned := by
  have h2 := signal_no_waiters tid m t hw
  have hfuel : call tid .signal fuel (m, t) = call tid .signal 2 (m, t) := by
    apply runThread_idle_mono tid 2 fuel _ _ hf
    change (call tid .signal 2 (m, t)).2.pc = .idle
    rw [h2]
  rw [hfuel, h2]
  exact ⟨rfl, fun hlt => size_inc_of_lt hlt, rfl, rfl, rfl, rfl⟩

/-- Instance of `C21_signal_no_waiters`: `signal()` on the decommissioned state
`parkedOneDecommissioned` with `waiters` set to 0 (slot 0 still holds a kernel semaphore). -/
theorem C21_signal_no_waiters_witness :
    (call 1 .signal 2 ({ parkedOneDecommissioned with waiters := 0 }, Thread.fresh)).1.count
        = 1 ∧
    (call 1 .signal 2 ({ parkedOneDecommissioned with waiters := 0 }, Thread.fresh)).1.semaphores
        = parkedOneDecommissioned.semaphores :=
  ⟨((C21_signal_no_waiters 1 { parkedOneDecommissioned with waiters := 0 } Thread.fresh 2
      rfl (le_refl 2)).2.1 (by decide)),
   (C21_signal_no_waiters 1 { parkedOneDecommissioned with waiters := 0 } Thread.fresh 2
      rfl (le_refl 2)).2.2.1⟩

/-- C22: for every state with `count = 0`, the flag set and every one of the `SEMAPHORES`
slots occupied, a `wait()` run while no slot is freed never returns and never parks. After
its first three steps (`count.load()`, `waiters.fetch_add(1)` and the read of the flag) and
`n` more, the memory is the one at entry with `waiters` incremented by one as a `size_t`
(`size_inc`, which is `waiters + 1` below `SIZE_MAX`): no slot has been written; and the
thread is at the load of slot `n mod SEMAPHORES`, so it re-scans from slot 0 again and again.
With any fuel it is neither outside the call nor at `_semaphore_->wait()`. Each step of the
scan at an occupied slot, in any state, leaves the memory alone and moves to the next slot,
and it reads nothing but that slot: two memories with the same slots send the thread to the
same place. -/
theorem C22_slot_overflow_spins (tid : Nat) (m : Mem) (a : Bool)
    (hc : m.count = 0) (hd : m.comissioned = true)
    (hall : ∀ i, i < SEMAPHORES → m.slot i ≠ none) :
    (∀ n, call tid .wait (3 + n) (m, ⟨.idle, a⟩)
      = ({ m with waiters := size_inc m.waiters }, ⟨.wSlot (n % SEMAPHORES), a⟩)) ∧
    (m.waiters < SIZE_MAX → size_inc m.waiters = m.waiters + 1) ∧
    (∀ fuel, (call tid .wait fuel (m, ⟨.idle, a⟩)).2.pc ≠ .idle ∧
      (call tid .wait fuel (m, ⟨.idle, a⟩)).2.pc ≠ .wPark) ∧
    (∀ (m1 : Mem) (t : Thread) (i h : Nat), t.pc = .wSlot i → m1.slot i = some h →
      step tid m1 t = some (m1, { t with pc := waitNext i })) ∧
    (∀ (m1 m2 : Mem) (t : Thread) (i : Nat), t.pc = .wSlot i →
      m1.semaphores = m2.semaphores →
      (step tid m1 t).map Prod.snd = (step tid m2 t).map Prod.snd) := by
  have h3 : runThread tid 3 (m, ⟨.wLoad, a⟩)
      = ({ m with waiters := size_inc m.waiters }, ⟨.wSlot 0, a⟩) := by
    simp [runThread, step, afterLoad, hc, hd]
  have hmain : ∀ n, call tid .wait (3 + n) (m, ⟨.idle, a⟩)
      = ({ m with waiters := size_inc m.waiters }, ⟨.wSlot (n % SEMAPHORES), a⟩) := by
    intro n
    have hscan := wait_scan_all_occupied tid { m with waiters := size_inc m.waiters } a
      (fun i hi => hall i hi) n 0 (by decide)
    change runThread tid (3 + n) (m, ⟨.wLoad, a⟩) = _
    rw [runThread_add, h3, hscan, Nat.zero_add]
  refine ⟨hmain, fun hlt => size_inc_of_lt hlt, ?_, ?_, ?_⟩
  · intro fuel
    by_cases hf : 3 ≤ fuel
    · obtain ⟨n, rfl⟩ := Nat.exists_eq_add_of_le hf
      rw [hmain n]
      exact ⟨fun h => Pc.noConfusion h, fun h => Pc.noConfusion h⟩
    · have hcases : fuel = 0 ∨ fuel = 1 ∨ fuel = 2 := by omega
      rcases hcases with rfl | rfl | rfl <;>
        simp [call, Op.entry, runThread, step, afterLoad, hc]
  · intro m1 t i h hpc hs
    exact wait_scan_occupied tid m1 t i h hpc hs
  · intro m1 m2 t i hpc hsem
    obtain ⟨pc, al⟩ := t
    simp only at hpc
    subst hpc
    have hslot : m1.slot i = m2.slot i := by simp only [Mem.slot, hsem]
    simp only [step, hslot]
    split <;> rfl

/-- Instance of `C22_slot_overflow_spins`: on the state `slotsFull` a `wait()` of thread 200
is back at slot 0 after its first three steps and one full round over the slots. -/
theorem C22_slot_overflow_spins_witness :
    call 200 .wait (3 + SEMAPHORES) (slotsFull, ⟨.idle, false⟩)
      = ({ slotsFull with waiters := size_inc slotsFull.waiters }, ⟨.wSlot 0, false⟩) :=
  (C22_slot_overflow_spins 200 slotsFull false rfl rfl
    (fun i hi => by rw [slotsFull_slot i hi]; exact Option.some_ne_none i)).1 SEMAPHORES

/-- C23: take any world `w` reached from `k` fresh semaphores and `n` threads outside of any
call by an interleaving of the atomic steps of `wait()`, `signal()` and `decomission()` on
these semaphores, all of which use the same thread-local kernel semaphores. Then the kernel
semaphore of every thread holds at most one signal. It holds none when its owner is at the
compare-and-set that publishes it into a slot. The start of a call leaves the kernel
semaphores alone, and a step that adds a signal to the kernel semaphore of thread `h` is the
`semaphore->signal()` of a signaler that holds `h` and adds exactly one. A signaler gets to
hold `h` only by the step that is its successful compare-and-set on a slot of its semaphore
which held `h` and is empty afterwards. And a thread inside `_semaphore_->wait()` whose kernel
semaphore is still in a slot of some semaphore cannot take a step: it is blocked. -/
theorem C23_no_leftover_signal (k n : Nat) (acts : List WorldAction) (w : World)
    (hrun : (World.init k n).run acts = some w) :
    (∀ h, w.ksem h ≤ 1) ∧
    (∀ tid s t i, w.threads.get? tid = some (s, t) → t.pc = .wPublish i →
      w.ksem tid = 0) ∧
    (∀ tid s op w', w.act (.call tid s op) = some w' → w'.ksem = w.ksem) ∧
    (∀ tid w' h, w.act (.step tid) = some w' → w.ksem h < w'.ksem h →
      ∃ s t c, w.threads.get? tid = some (s, t) ∧ t.pc = .sWake c h ∧
        w'.ksem h = w.ksem h + 1) ∧
    (∀ tid w' s t' c h, w.act (.step tid) = some w' →
      w'.threads.get? tid = some (s, t') → t'.pc = .sWake c h →
      ∃ t m m' j, w.threads.get? tid = some (s, t) ∧ t.pc = .sCas c j h ∧
        w.sems.get? s = some m ∧ m.slot j = some h ∧
        w'.sems.get? s = some m' ∧ m'.slot j = none) ∧
    (∀ tid s t, w.threads.get? tid = some (s, t) → t.pc = .wPark →
      0 < w.slotsTotal tid → w.act (.step tid) = none) := by
  obtain ⟨-, -, hinv⟩ := run_worldInv acts (World.init k n) w hrun (worldInv_init k n)
  have hplain : ∀ tid s t, w.threads.get? tid = some (s, t) → w.plain.get? tid = some t := by
    intro tid s t h
    have h' : w.threads[tid]? = some (s, t) := by
      rw [← List.get?_eq_getElem?]
      exact h
    simp only [World.plain, List.get?_eq_getElem?, List.getElem?_map, h', Option.map_some']
  refine ⟨?_, ?_, ?_, ?_, ?_, ?_⟩
  · intro h
    have := hinv h
    have := parkedAt_le_one w.plain h
    omega
  · intro tid s t i ht hpc
    have h1 := hinv tid
    rw [parkedAt_of_get? w.plain tid t (hplain tid s t ht), hpc] at h1
    simp only [reduceCtorEq, if_false] at h1
    omega
  · intro tid s op w' hact
    obtain ⟨l1, s0, a, l2, -, -, rfl⟩ := world_call_decompose w w' tid s op hact
    rfl
  · intro tid w' h hact hlt
    obtain ⟨l1, s, t, l2, m, m', t', hts, hl1, hm, hs, rfl⟩ :=
      world_step_decompose w w' tid hact
    have hget : w.threads.get? tid = some (s, t) := by
      rw [hts, ← hl1]
      exact get?_append_cons_length l1 l2 (s, t)
    rcases step_ksem_local tid { m with ksem := w.ksem } m' t t' hs h with hle | ⟨c, hc, he⟩
    · exact absurd hlt (Nat.not_lt.mpr hle)
    · exact ⟨s, t, c, hget, hc, he⟩
  · intro tid w' s t' c h hact hget' hpc
    obtain ⟨l1, s0, t, l2, m, m', t1, hts, hl1, hm, hs, rfl⟩ :=
      world_step_decompose w w' tid hact
    have hget : w.threads.get? tid = some (s0, t) := by
      rw [hts, ← hl1]
      exact get?_append_cons_length l1 l2 (s0, t)
    have he : (s0, t1) = (s, t') := by
      have h1 : (l1 ++ (s0, t1) :: l2).get? tid = some (s0, t1) := by
        rw [← hl1]
        exact get?_append_cons_length l1 l2 (s0, t1)
      exact Option.some.inj (h1.symm.trans hget')
    obtain ⟨rfl, rfl⟩ := Prod.mk.inj he
    obtain ⟨j, hj1, hj2, hj3⟩ := step_into_wake tid { m with ksem := w.ksem } m' t t1 hs c h hpc
    have hslt : s0 < w.sems.length := by
      by_contra hge
      rw [List.get?_eq_getElem?, List.getElem?_eq_none (by omega)] at hm
      exact Option.noConfusion hm
    refine ⟨t, m, m', j, hget, hj1, hm, hj2, ?_, ?_⟩
    · simp only [List.get?_eq_getElem?, List.getElem?_set_self hslt]
    · simp only [Mem.slot, hj3]
      by_cases hjl : j < m.semaphores.length
      · simp [hjl]
      · simp [List.getD, List.getElem?_eq_none (show (m.semaphores.set j none).length ≤ j by
          simpa using Nat.le_of_not_lt hjl)]
  · intro tid s t ht hpc hpos
    have h1 := hinv tid
    rw [parkedAt_of_get? w.plain tid t (hplain tid s t ht), hpc] at h1
    simp only [if_true] at h1
    have hk : w.ksem tid = 0 := by omega
    simp only [World.act, ht]
    cases hv : w.view s with
    | none => rfl
    | some m0 =>
      simp only
      cases hst : step tid m0 t with
      | none => rfl
      | some r =>
        exfalso
        simp only [World.view, Option.map_eq_some'] at hv
        obtain ⟨m, -, rfl⟩ := hv
        obtain ⟨pc, a⟩ := t
        simp only at hpc
        subst hpc
        obtain ⟨m', t'⟩ := r
        have := (step_park tid _ m' a t' hst).1
        simp only at this
        omega

/-- Instance of `C23_no_leftover_signal`: with two semaphores and two threads, thread 0
parks in slot 0 of semaphore 0 and thread 1, calling `signal()` on that semaphore, empties
the slot and signals the kernel semaphore of thread 0, which then holds one signal. -/
theorem C23_no_leftover_signal_witness :
    ∃ w, (World.init 2 2).run [.call 0 0 .wait, .step 0, .step 0, .step 0, .step 0, .step 0,
        .step 0, .call 1 0 .signal, .step 1, .step 1, .step 1, .step 1, .step 1, .step 1,
        .step 1, .step 1] = some w ∧
      w.ksem 0 = 1 ∧ ∀ h, w.ksem h ≤ 1 :=
  ⟨_, rfl, rfl, (C23_no_leftover_signal 2 2 [.call 0 0 .wait, .step 0, .step 0, .step 0,
    .step 0, .step 0, .step 0, .call 1 0 .signal, .step 1, .step 1, .step 1, .step 1, .step 1,
    .step 1, .step 1, .step 1] _ rfl).1⟩

/-- C3: take any configuration `c` reached from a fresh semaphore by an interleaving of the
atomic steps of `n` threads calling `wait()`, `signal()` and `decomission()`,
`2 * n + SEMAPHORES ≤ SIZE_MAX`, that is quiescent: every counted waiter is in a slot, the
number of occupied slots being `waiters = w`; let `count = c`. A `decomission()` called by
an idle thread of the configuration and run without interference terminates and leaves
`comissioned = false`, every slot empty, `waiters = 0` and `count = c + w` (as a number:
`c + w ≤ SIZE_MAX`), and every kernel semaphore has been signaled once for each slot that
held it, which is exactly once for the `w` kernel semaphores in the slots, no kernel
semaphore being in two slots. -/
theorem C3_decomission_flushes (n : Nat) (hn : 2 * n + SEMAPHORES ≤ SIZE_MAX)
    (acts : List Action) (c : Config) (hrun : (Config.init n).run acts = some c)
    (tid : Nat) (t : Thread) (ht : c.threads.get? tid = some t) (hidle : t.pc = .idle)
    (hq : occupied c.mem = c.mem.waiters) :
    ∃ fuel, (call tid .decomission fuel (c.mem, t)).2 = t ∧
      (call tid .decomission fuel (c.mem, t)).1.comissioned = false ∧
      (call tid .decomission fuel (c.mem, t)).1.semaphores = List.replicate SEMAPHORES none ∧
      (call tid .decomission fuel (c.mem, t)).1.waiters = 0 ∧
      (call tid .decomission fuel (c.mem, t)).1.count = c.mem.count + c.mem.waiters ∧
      c.mem.count + c.mem.waiters ≤ SIZE_MAX ∧
      (∀ h, (call tid .decomission fuel (c.mem, t)).1.ksem h
        = c.mem.ksem h + slotsOf c.mem h) ∧
      (∀ h, slotsOf c.mem h ≤ 1) := by
  obtain ⟨hwf, -, -, hsum, -⟩ := reachable_bounds n hn acts c hrun
  have hc : c.mem.count + c.mem.waiters ≤ SIZE_MAX := by
    rw [← hq]
    exact hsum
  have hhi := run_handleInv acts _ c hrun (scanInv_init n) (handleInv_init n)
  obtain ⟨pc, a⟩ := t
  simp only [] at hidle
  subst hidle
  obtain ⟨fuel, hfuel⟩ := decomission_quiescent tid a c.mem hwf.2.2 hq hc
  refine ⟨fuel, ?_⟩
  rw [hfuel]
  refine ⟨rfl, rfl, rfl, rfl, rfl, hc, fun _ => rfl, ?_⟩
  intro h
  have := hhi h
  have := parkedAt_le_one c.threads h
  omega

/-- Instance of `C3_decomission_flushes`: thread 0 has parked in slot 0 of the fresh
semaphore and thread 1 calls `decomission()`. -/
theorem C3_decomission_flushes_witness :
    ∃ c, (Config.init 2).run [.call 0 .wait, .step 0, .step 0, .step 0, .step 0, .step 0,
        .step 0] = some c ∧
      c.mem.slot 0 = some 0 ∧
      ∃ fuel, (call 1 .decomission fuel (c.mem, Thread.fresh)).2 = Thread.fresh ∧
        (call 1 .decomission fuel (c.mem, Thread.fresh)).1.comissioned = false ∧
        (call 1 .decomission fuel (c.mem, Thread.fresh)).1.semaphores
          = List.replicate SEMAPHORES none ∧
        (call 1 .decomission fuel (c.mem, Thread.fresh)).1.waiters = 0 ∧
        (call 1 .decomission fuel (c.mem, Thread.fresh)).1.count
          = c.mem.count + c.mem.waiters ∧
        c.mem.count + c.mem.waiters ≤ SIZE_MAX ∧
        (∀ h, (call 1 .decomission fuel (c.mem, Thread.fresh)).1.ksem h
          = c.mem.ksem h + slotsOf c.mem h) ∧
        (∀ h, slotsOf c.mem h ≤ 1) :=
  ⟨_, rfl, rfl, C3_decomission_flushes 2 (by decide) [.call 0 .wait, .step 0, .step 0,
    .step 0, .step 0, .step 0, .step 0] _ rfl 1 Thread.fresh rfl rfl (by decide)⟩

/-- C9 (as amended): on the fixed-size semaphore, in every quiescent configuration (the
number of occupied slots is `waiters`) reached from a fresh semaphore by an interleaving of
the atomic steps of `n` threads, `2 * n + SEMAPHORES ≤ SIZE_MAX`, `decomission()` called
twice in a row by an idle thread leaves exactly the state that one call leaves.  On
`DecomissionableKernelSemaphore` a call of `decomission()` clears the flag, keeps `waiters`
and adds `waiters` to the value of the inner kernel semaphore, so a second call in a row
leaves the flag and `waiters` as the first call left them and adds `waiters` to the inner
value once more: the two states are equal exactly when `waiters = 0`. -/
theorem C9_decomission_twice :
    (∀ (n : Nat) (acts : List Action) (c : Config) (tid : Nat) (t : Thread),
      2 * n + SEMAPHORES ≤ SIZE_MAX → (Config.init n).run acts = some c →
      c.threads.get? tid = some t → t.pc = .idle → occupied c.mem = c.mem.waiters →
      ∃ fuel, (call tid .decomission fuel (c.mem, t)).2 = t ∧
        call tid .decomission 2 (call tid .decomission fuel (c.mem, t))
          = call tid .decomission fuel (c.mem, t)) ∧
    (∀ m : DecomissionableKernelSemaphore.Mem,
      DecomissionableKernelSemaphore.call .decomission (m.waiters + 2) m
        = (⟨false, m.waiters, m.semaphore + m.waiters⟩, .idle) ∧
      DecomissionableKernelSemaphore.call .decomission (m.waiters + 2)
          (DecomissionableKernelSemaphore.call .decomission (m.waiters + 2) m).1
        = (⟨false, m.waiters, m.semaphore + m.waiters + m.waiters⟩, .idle) ∧
      ((DecomissionableKernelSemaphore.call .decomission (m.waiters + 2)
          (DecomissionableKernelSemaphore.call .decomission (m.waiters + 2) m).1).1
        = (DecomissionableKernelSemaphore.call .decomission (m.waiters + 2) m).1
        ↔ m.waiters = 0)) := by
  constructor
  · intro n acts c tid t hn hrun _ ht hq
    obtain ⟨hwf, -, -, hsum, -⟩ := reachable_bounds n hn acts c hrun
    have hc : c.mem.count + c.mem.waiters ≤ SIZE_MAX := by
      rw [← hq]
      exact hsum
    obtain ⟨pc, a⟩ := t
    simp only [] at ht
    subst ht
    obtain ⟨fuel, hfuel⟩ := decomission_quiescent tid a c.mem hwf.2.2 hq hc
    refine ⟨fuel, ?_, ?_⟩
    · rw [hfuel]
    · rw [hfuel]
      exact decomission_no_waiters tid a _ rfl
  · intro m
    have h1 := DecomissionableKernelSemaphore.kernel_decomission m
    have h2 := DecomissionableKernelSemaphore.kernel_decomission
      ⟨false, m.waiters, m.semaphore + m.waiters⟩
    simp only [] at h2
    refine ⟨h1, ?_, ?_⟩
    · rw [h1]
      exact h2
    · rw [h1, h2]
      simp only [DecomissionableKernelSemaphore.Mem.mk.injEq, true_and]
      omega

/-- Instance of `C9_decomission_twice`: thread 0 has parked in slot 0 of the fresh
fixed-size semaphore and thread 1 calls `decomission()` twice; and the kernel semaphore with
one waiter. -/
theorem C9_decomission_twice_witness :
    (∃ c, (Config.init 2).run [.call 0 .wait, .step 0, .step 0, .step 0, .step 0, .step 0,
        .step 0] = some c ∧
      ∃ fuel, (call 1 .decomission fuel (c.mem, Thread.fresh)).2 = Thread.fresh ∧
        call 1 .decomission 2 (call 1 .decomission fuel (c.mem, Thread.fresh))
          = call 1 .decomission fuel (c.mem, Thread.fresh)) ∧
    DecomissionableKernelSemaphore.call .decomission 3 ⟨true, 1, 0⟩ = (⟨false, 1, 1⟩, .idle) :=
  ⟨⟨_, rfl, C9_decomission_twice.1 2 [.call 0 .wait, .step 0, .step 0, .step 0, .step 0,
      .step 0, .step 0] _ 1 Thread.fresh (by decide) rfl rfl rfl (by decide)⟩,
   (C9_decomission_twice.2 ⟨true, 1, 0⟩).1⟩

/-- C20: take any configuration `c` reached from a fresh semaphore by an interleaving of the
atomic steps of `n` threads calling `wait()`, `signal()` and `decomission()`,
`2 * n + SEMAPHORES ≤ SIZE_MAX`, with `waiters > 0` and at least one occupied slot. A
`signal()` called by an idle thread of the configuration and run without interference
returns having incremented `count` by one (`count + 1`, without wrapping), emptied exactly
the lowest-indexed occupied slot `j`, signaled once the kernel semaphore `h` that slot held,
and decremented `waiters` by one; every other slot, every other kernel semaphore and the
flag are unchanged. -/
theorem C20_signal_wakes_lowest (n : Nat) (hn : 2 * n + SEMAPHORES ≤ SIZE_MAX)
    (acts : List Action) (c : Config) (hrun : (Config.init n).run acts = some c)
    (tid : Nat) (t : Thread) (ht : c.threads.get? tid = some t) (hidle : t.pc = .idle)
    (hw : 0 < c.mem.waiters) (hocc : ∃ i, c.mem.slot i ≠ none) :
    ∃ j h, j < SEMAPHORES ∧ c.mem.slot j = some h ∧ (∀ k, k < j → c.mem.slot k = none) ∧
      c.mem.count < SIZE_MAX ∧
      call tid .signal (3 * j + 9) (c.mem, t)
        = ({ c.mem with count := c.mem.count + 1, waiters := c.mem.waiters - 1,
                        semaphores := c.mem.semaphores.set j none,
                        ksem := Function.update c.mem.ksem h (c.mem.ksem h + 1) }, t) := by
  obtain ⟨hwf, -, -, -, hlt⟩ := reachable_bounds n hn acts c hrun
  have hpos : 0 < occupied c.mem := by
    by_contra h0
    obtain ⟨i, hi⟩ := hocc
    exact hi ((occupied_eq_zero_iff c.mem).mp (by omega) i)
  have hc := hlt hpos
  obtain ⟨pc, a⟩ := t
  simp only [] at hidle
  subst hidle
  obtain ⟨j, h, hj, hjs, hmin⟩ := exists_first_occupied c.mem hwf.2.2 hocc
  have hinc := size_inc_of_lt hc
  have hbody := signal_body_wakes tid c.mem a .user j h hw (by omega) hj hjs hmin
  rw [hinc, size_dec_of_pos hw] at hbody
  exact ⟨j, h, hj, hjs, hmin, hc, hbody⟩

/-- Instance of `C20_signal_wakes_lowest`: threads 0 and 1 have parked in slots 0 and 1 of
the fresh semaphore and thread 2 calls `signal()`. -/
theorem C20_signal_wakes_lowest_witness :
    ∃ c, (Config.init 3).run [.call 0 .wait, .step 0, .step 0, .step 0, .step 0, .step 0,
        .step 0, .call 1 .wait, .step 1, .step 1, .step 1, .step 1, .step 1, .step 1,
        .step 1] = some c ∧
      c.mem.slot 0 = some 0 ∧ c.mem.slot 1 = some 1 ∧
      ∃ j h, j < SEMAPHORES ∧ c.mem.slot j = some h ∧ (∀ k, k < j → c.mem.slot k = none) ∧
        c.mem.count < SIZE_MAX ∧
        call 2 .signal (3 * j + 9) (c.mem, Thread.fresh)
          = ({ c.mem with count := c.mem.count + 1, waiters := c.mem.waiters - 1,
                          semaphores := c.mem.semaphores.set j none,
                          ksem := Function.update c.mem.ksem h (c.mem.ksem h + 1) },
              Thread.fresh) :=
  ⟨_, rfl, rfl, rfl, C20_signal_wakes_lowest 3 (by decide) [.call 0 .wait, .step 0, .step 0,
    .step 0, .step 0, .step 0, .step 0, .call 1 .wait, .step 1, .step 1, .step 1, .step 1,
    .step 1, .step 1, .step 1] _ rfl 2 Thread.fresh rfl rfl (by decide) ⟨0, by decide⟩⟩

end Claims
